import Mathlib

/-!
# Custom-Shell-cpp: the ordered map of `map.hpp`

A shallow embedding of `Map<Key, Value, Compare>` from `src/map.hpp`, followed by the parts of
`Vector<T>` from `src/vector.hpp` and of `src/shell.cpp` that the properties proved below are
about.

* Nodes live in an explicit free store (`Heap`): an address is a `Nat`, a pointer is an
  `Option Nat` (`none` is `nullptr`), `new` takes the next unused address and `delete`
  clears the cell.
* Every `while` loop of the source is a function recursing on a fuel argument; the public
  operations run their loops with the number of cells of the free store as fuel, which is
  enough on every well-formed tree (this is proved, not assumed).
* Dereferencing an invalid pointer and running out of fuel make the operation return `none`.
* `node_count` is a `size_t`: a natural number taken modulo `2 ^ 64`.
* What a move leaves in its source depends on the key or element type: it is a parameter of
  the operations that read an object after a move (`moved` in `insertInternal`, `ElemOps` for
  the elements of a `Vector`).
-/

namespace MapModel

/-! ## The free store -/

/-- A `Map::Node`: `data.first`, `data.second`, and the `left`, `right`, `parent` links. -/
structure Node (K V : Type) where
  key : K
  val : V
  left : Option Nat
  right : Option Nat
  parent : Option Nat
deriving DecidableEq, Repr

/-- The free store: cell `a` holds the live node at address `a`, or `none` once deleted. -/
abbrev Heap (K V : Type) := List (Option (Node K V))

/-- Dereference address `a`; `none` when `a` is not a live node. -/
def Heap.read {K V : Type} (h : Heap K V) (a : Nat) : Option (Node K V) :=
  (h[a]?).join

/-- Store `n` in the cell at address `a`. -/
def Heap.write {K V : Type} (h : Heap K V) (a : Nat) (n : Node K V) : Heap K V :=
  h.set a (some n)

/-- The `delete` of the node at address `a`. -/
def Heap.free {K V : Type} (h : Heap K V) (a : Nat) : Heap K V :=
  h.set a none

/-- The `new Node(...)`: the node is stored at the next unused address, which is returned. -/
def Heap.alloc {K V : Type} (h : Heap K V) (n : Node K V) : Heap K V × Nat :=
  (h ++ [some n], h.length)

/-- The modulus of `size_t` arithmetic. -/
@[irreducible] def SIZE_MOD : Nat := 2 ^ 64

/-- The data members of `Map` (the comparator `comp` is passed to the operations). -/
structure Map (K V : Type) where
  heap : Heap K V
  root : Option Nat
  node_count : Nat
deriving DecidableEq, Repr

/-- An `Iterator` is its `current` pointer; `none` is `end()`. -/
abbrev Iterator := Option Nat

/-- `Map()`: no root, count zero. -/
def Map.empty {K V : Type} : Map K V := ⟨[], none, 0⟩

/-- `size()`. -/
def Map.size {K V : Type} (m : Map K V) : Nat := m.node_count

/-- `end()`. -/
def Map.end_ {K V : Type} (_m : Map K V) : Iterator := none

/-! ## Lookup -/

/-- The `while (node)` loop of `find`. -/
def findLoop {K V : Type} (comp : K → K → Bool) (h : Heap K V) (key : K) :
    Nat → Option Nat → Option Iterator
  | _, none => some none
  | 0, some _ => none
  | fuel + 1, some a =>
    match h.read a with
    | none => none
    | some n =>
      if comp key n.key then findLoop comp h key fuel n.left
      else if comp n.key key then findLoop comp h key fuel n.right
      else some (some a)

/-- `find(key)`. -/
def Map.find {K V : Type} (comp : K → K → Bool) (m : Map K V) (key : K) : Option Iterator :=
  findLoop comp m.heap key m.heap.length m.root

/-- `count(key)`: `find(key) != end() ? 1 : 0`. -/
def Map.count {K V : Type} (comp : K → K → Bool) (m : Map K V) (key : K) : Option Nat :=
  match m.find comp key with
  | none => none
  | some it => some (if it != m.end_ then 1 else 0)

/-- The private `findMin`, on a non-null node: follow `left` links. -/
def findMinLoop {K V : Type} (h : Heap K V) : Nat → Nat → Option Nat
  | 0, _ => none
  | fuel + 1, a =>
    match h.read a with
    | none => none
    | some n =>
      match n.left with
      | none => some a
      | some l => findMinLoop h fuel l

/-- `findMin(node)`: `nullptr` for `nullptr`, else the leftmost node below `node`. -/
def findMin {K V : Type} (h : Heap K V) (fuel : Nat) : Option Nat → Option (Option Nat)
  | none => some none
  | some a =>
    match findMinLoop h fuel a with
    | none => none
    | some b => some (some b)

/-! ## Insertion -/

/-- How the walk of `insertInternal` ends: on a node with an equivalent key, or by falling
off the tree below `parent`. -/
inductive Walk where
  | found (current : Nat)
  | fell (parent : Option Nat)
deriving DecidableEq, Repr

/-- The `while (current)` loop of `insertInternal`, with its loop variables `current` and
`parent`. -/
def insertLoop {K V : Type} (comp : K → K → Bool) (h : Heap K V) (key : K) :
    Nat → Option Nat → Option Nat → Option Walk
  | _, none, parent => some (Walk.fell parent)
  | 0, some _, _ => none
  | fuel + 1, some c, _ =>
    match h.read c with
    | none => none
    | some n =>
      if comp key n.key then insertLoop comp h key fuel n.left (some c)
      else if comp n.key key then insertLoop comp h key fuel n.right (some c)
      else some (Walk.found c)

/-- `insertInternal(pair)`: the new map, the returned iterator and the `inserted` flag.

`key` is a reference to `pair.first`, and the last comparison, `comp(key, parent->data.first)`,
is made after `new Node(std::forward<P>(pair), parent)`. `moved k` is what `key` reads then:
`k` itself when `pair` is an lvalue (the node holds a copy), the moved-from key when `pair` is
a temporary `std::pair<Key, Value>` whose members were moved into the node. -/
def Map.insertInternal {K V : Type} (comp : K → K → Bool) (moved : K → K) (m : Map K V)
    (pair : K × V) : Option (Map K V × Iterator × Bool) :=
  match m.root with
  | none =>
    let (h1, a) := m.heap.alloc ⟨pair.1, pair.2, none, none, none⟩
    some (⟨h1, some a, 1⟩, some a, true)
  | some r =>
    match insertLoop comp m.heap pair.1 m.heap.length (some r) none with
    | none => none
    | some (Walk.found c) => some (m, some c, false)
    | some (Walk.fell none) => none
    | some (Walk.fell (some p)) =>
      let (h1, a) := m.heap.alloc ⟨pair.1, pair.2, none, none, some p⟩
      match h1.read p with
      | none => none
      | some pn =>
        let h2 :=
          if comp (moved pair.1) pn.key then h1.write p { pn with left := some a }
          else h1.write p { pn with right := some a }
        some (⟨h2, m.root, (m.node_count + 1) % SIZE_MOD⟩, some a, true)

/-- `insert(pair)` with an lvalue `pair`, as in `insert(*it)` and in the loop over an
initializer list: the node holds a copy of the pair and `key` stays intact. -/
def Map.insertPair {K V : Type} (comp : K → K → Bool) (m : Map K V) (pair : K × V) :
    Option (Map K V × Iterator × Bool) :=
  m.insertInternal comp id pair

/-- `insert(key, value)`: `insertInternal(std::make_pair(...))`, a temporary
`std::pair<Key, Value>` whose members are moved into the new node; `moved k` is the state of
a key object that held `k` after it has been moved from (`k` itself for a key type such as
`int`, the empty string for a `std::string` of the usual libraries). -/
def Map.insert {K V : Type} (comp : K → K → Bool) (moved : K → K) (m : Map K V) (key : K)
    (value : V) : Option (Map K V × Iterator × Bool) :=
  m.insertInternal comp moved (key, value)

/-- `operator[](key)`: the new map and the address of the node whose `second` is returned by
reference. -/
def Map.index {K V : Type} [Inhabited V] (comp : K → K → Bool) (moved : K → K) (m : Map K V)
    (key : K) : Option (Map K V × Nat) :=
  match m.find comp key with
  | none => none
  | some (some a) =>
    match m.heap.read a with
    | none => none
    | some _ => some (m, a)
  | some none =>
    match m.insert comp moved key default with
    | none => none
    | some (_, none, _) => none
    | some (m1, some a, _) =>
      match m1.heap.read a with
      | none => none
      | some _ => some (m1, a)

/-- The result of `at`: the value, or the `std::out_of_range` exception. -/
inductive AtResult (V : Type) where
  | value (v : V)
  | out_of_range
deriving DecidableEq, Repr

/-- `at(key)`. -/
def Map.at_ {K V : Type} (comp : K → K → Bool) (m : Map K V) (key : K) : Option (AtResult V) :=
  match m.find comp key with
  | none => none
  | some none => some AtResult.out_of_range
  | some (some a) =>
    match m.heap.read a with
    | none => none
    | some n => some (AtResult.value n.val)

/-- `find(key)` followed by `*it`: the entry found, or `none` for `end()`. -/
def Map.findEntry {K V : Type} (comp : K → K → Bool) (m : Map K V) (key : K) :
    Option (Option (K × V)) :=
  match m.find comp key with
  | none => none
  | some none => some none
  | some (some a) =>
    match m.heap.read a with
    | none => none
    | some n => some (some (n.key, n.val))

/-! ## Erase -/

/-- The `parent->left == node ? parent->left = repl : parent->right = repl` step shared by
the three one-node cases of `eraseNode`. -/
def relink {K V : Type} (h : Heap K V) (parent : Option Nat) (node : Nat) (repl : Option Nat) :
    Option (Heap K V) :=
  match parent with
  | none => none
  | some p =>
    match h.read p with
    | none => none
    | some pn =>
      if pn.left = some node then some (h.write p { pn with left := repl })
      else some (h.write p { pn with right := repl })

/-- `eraseNode(node)`. The recursive call of the two-child case consumes one unit of fuel. -/
def eraseNode {K V : Type} : Nat → Map K V → Nat → Option (Map K V)
  | 0, _, _ => none
  | fuel + 1, m, node =>
    match m.heap.read node with
    | none => none
    | some n =>
      match n.left, n.right with
      | none, none =>
        if some node = m.root then
          some ⟨m.heap.free node, none, m.node_count⟩
        else
          match relink m.heap n.parent node none with
          | none => none
          | some h1 => some ⟨h1.free node, m.root, m.node_count⟩
      | none, some right =>
        match m.heap.read right with
        | none => none
        | some rn =>
          let h1 := m.heap.write right { rn with parent := n.parent }
          if some node = m.root then
            some ⟨h1.free node, some right, m.node_count⟩
          else
            match h1.read node with
            | none => none
            | some n1 =>
              match relink h1 n1.parent node (some right) with
              | none => none
              | some h2 => some ⟨h2.free node, m.root, m.node_count⟩
      | some left, none =>
        match m.heap.read left with
        | none => none
        | some ln =>
          let h1 := m.heap.write left { ln with parent := n.parent }
          if some node = m.root then
            some ⟨h1.free node, some left, m.node_count⟩
          else
            match h1.read node with
            | none => none
            | some n1 =>
              match relink h1 n1.parent node (some left) with
              | none => none
              | some h2 => some ⟨h2.free node, m.root, m.node_count⟩
      | some _, some right =>
        match findMin m.heap m.heap.length (some right) with
        | none => none
        | some none => none
        | some (some successor) =>
          match m.heap.read successor with
          | none => none
          | some sn =>
            let h1 := m.heap.write node { n with key := sn.key, val := sn.val }
            match eraseNode fuel ⟨h1, m.root, m.node_count⟩ successor with
            | none => none
            | some m1 => some ⟨m1.heap, m1.root, (m1.node_count + 1) % SIZE_MOD⟩

/-- The `while (current)` loop of `erase`: the node to remove, or `nullptr`. -/
def eraseLoop {K V : Type} (comp : K → K → Bool) (h : Heap K V) (key : K) :
    Nat → Option Nat → Option (Option Nat)
  | _, none => some none
  | 0, some _ => none
  | fuel + 1, some a =>
    match h.read a with
    | none => none
    | some n =>
      if comp key n.key then eraseLoop comp h key fuel n.left
      else if comp n.key key then eraseLoop comp h key fuel n.right
      else some (some a)

/-- `erase(key)`: the new map and the returned count. -/
def Map.erase {K V : Type} (comp : K → K → Bool) (m : Map K V) (key : K) :
    Option (Map K V × Nat) :=
  match eraseLoop comp m.heap key m.heap.length m.root with
  | none => none
  | some none => some (m, 0)
  | some (some current) =>
    match eraseNode m.heap.length m current with
    | none => none
    | some m1 => some (⟨m1.heap, m1.root, (m1.node_count + SIZE_MOD - 1) % SIZE_MOD⟩, 1)

/-! ## Iteration -/

/-- The `while (parent && node == parent->right)` loop of `findSuccessor`. -/
def climbLoop {K V : Type} (h : Heap K V) : Nat → Nat → Option Nat → Option (Option Nat)
  | _, _, none => some none
  | 0, _, some _ => none
  | fuel + 1, node, some p =>
    match h.read p with
    | none => none
    | some pn =>
      if some node = pn.right then climbLoop h fuel p pn.parent
      else some (some p)

/-- `Iterator::findSuccessor(node)`. -/
def findSuccessor {K V : Type} (h : Heap K V) (fuel : Nat) : Option Nat → Option (Option Nat)
  | none => some none
  | some a =>
    match h.read a with
    | none => none
    | some n =>
      match n.right with
      | some r => findMin h fuel (some r)
      | none => climbLoop h fuel a n.parent

/-- `begin()`: `Iterator(findMin(root))`. -/
def Map.begin_ {K V : Type} (m : Map K V) : Option Iterator :=
  findMin m.heap m.heap.length m.root

/-- `operator++`: `current = findSuccessor(current)`. -/
def Map.next {K V : Type} (m : Map K V) (it : Iterator) : Option Iterator :=
  findSuccessor m.heap m.heap.length it

/-- The loop `for (it = first; it != end(); ++it)`, collecting `*it`. -/
def iterateFrom {K V : Type} (m : Map K V) : Nat → Iterator → Option (List (K × V))
  | _, none => some []
  | 0, some _ => none
  | fuel + 1, some a =>
    match m.heap.read a with
    | none => none
    | some n =>
      match m.next (some a) with
      | none => none
      | some it =>
        match iterateFrom m fuel it with
        | none => none
        | some rest => some ((n.key, n.val) :: rest)

/-- A full traversal `for (it = begin(); it != end(); ++it)`: the entries visited. -/
def Map.traverse {K V : Type} (m : Map K V) : Option (List (K × V)) :=
  match m.begin_ with
  | none => none
  | some it => iterateFrom m m.heap.length it

/-! ## The abstract tree

The tree that the nodes reachable from `root` form. It is what the invariants of the data
model talk about; the operations above never see it. -/

/-- A binary tree of nodes; each node carries its address, key and value. -/
inductive Tree (K V : Type) where
  | nil
  | node (l : Tree K V) (a : Nat) (k : K) (v : V) (r : Tree K V)
deriving DecidableEq, Repr

/-- The pointer to the root node of the tree: `nullptr` for the empty tree. -/
def Tree.rootPtr {K V : Type} : Tree K V → Option Nat
  | Tree.nil => none
  | Tree.node _ a _ _ _ => some a

/-- The addresses of the nodes, in in-order (left subtree, node, right subtree). -/
def Tree.addrs {K V : Type} : Tree K V → List Nat
  | Tree.nil => []
  | Tree.node l a _ _ r => l.addrs ++ a :: r.addrs

/-- The entries `(key, value)` of the nodes, in in-order. -/
def Tree.entries {K V : Type} : Tree K V → List (K × V)
  | Tree.nil => []
  | Tree.node l _ k v r => l.entries ++ (k, v) :: r.entries

/-- The keys of the nodes, in in-order. -/
def Tree.keys {K V : Type} (t : Tree K V) : List K := t.entries.map Prod.fst

/-- The number of nodes. -/
def Tree.size {K V : Type} : Tree K V → Nat
  | Tree.nil => 0
  | Tree.node l _ _ _ r => l.size + 1 + r.size

/-- The heap `h` holds the tree `t` below a slot whose owner is `par`: every node of `t` is
live at its address with its key and value, its `left` and `right` point to the roots of its
subtrees, and its `parent` points to the node above (`par` for the root of `t`). -/
def Shape {K V : Type} (h : Heap K V) : Tree K V → Option Nat → Prop
  | Tree.nil, _ => True
  | Tree.node l a k v r, par =>
    h.read a = some ⟨k, v, l.rootPtr, r.rootPtr, par⟩ ∧ Shape h l (some a) ∧ Shape h r (some a)

/-- The nodes reachable from `m.root` form the tree `t`, each node at an address of its own,
with mutually consistent parent and child links and no parent above the root. -/
def Map.IsTree {K V : Type} (m : Map K V) (t : Tree K V) : Prop :=
  m.root = t.rootPtr ∧ Shape m.heap t none ∧ t.addrs.Nodup

/-- Every key of the tree satisfies `p`. -/
def Tree.AllKeys {K V : Type} (p : K → Prop) : Tree K V → Prop
  | Tree.nil => True
  | Tree.node l _ k _ r => l.AllKeys p ∧ p k ∧ r.AllKeys p

/-- The BST ordering invariant, node by node: every key of the left subtree is strictly less
than the node's key and every key of the right subtree is strictly greater. -/
def Tree.BST {K V : Type} (comp : K → K → Bool) : Tree K V → Prop
  | Tree.nil => True
  | Tree.node l _ k _ r =>
    l.AllKeys (fun x => comp x k = true) ∧ r.AllKeys (fun x => comp k x = true) ∧
      l.BST comp ∧ r.BST comp

/-- A key sequence is strictly increasing under `comp`. -/
def StrictlyIncreasing {K : Type} (comp : K → K → Bool) (ks : List K) : Prop :=
  ks.Pairwise (fun a b => comp a b = true)

/-- Keys `a` and `b` are equivalent: neither `comp(a, b)` nor `comp(b, a)`. -/
def Equiv {K : Type} (comp : K → K → Bool) (a b : K) : Prop :=
  comp a b = false ∧ comp b a = false

/-- The comparator is a strict weak ordering. -/
structure StrictWeak {K : Type} (comp : K → K → Bool) : Prop where
  irrefl : ∀ a, comp a a = false
  trans : ∀ a b c, comp a b = true → comp b c = true → comp a c = true
  equiv_trans : ∀ a b c, Equiv comp a b → Equiv comp b c → Equiv comp a c

/-- The lookup walk on the abstract tree: the address of the node it stops at. -/
def Tree.lookup {K V : Type} (comp : K → K → Bool) (key : K) : Tree K V → Option Nat
  | Tree.nil => none
  | Tree.node l a k _ r =>
    if comp key k then l.lookup comp key
    else if comp k key then r.lookup comp key
    else some a

/-- The entry the lookup walk stops at. -/
def Tree.lookupEntry {K V : Type} (comp : K → K → Bool) (key : K) : Tree K V → Option (K × V)
  | Tree.nil => none
  | Tree.node l _ k v r =>
    if comp key k then l.lookupEntry comp key
    else if comp k key then r.lookupEntry comp key
    else some (k, v)

/-- The walk of `insertInternal` on the abstract tree, below the node `par`. -/
def Tree.walk {K V : Type} (comp : K → K → Bool) (key : K) : Tree K V → Option Nat → Walk
  | Tree.nil, par => Walk.fell par
  | Tree.node l a k _ r, _ =>
    if comp key k then l.walk comp key (some a)
    else if comp k key then r.walk comp key (some a)
    else Walk.found a

/-- The tree after `insertInternal` of `(key, val)` with the new node at address `a`: the new
leaf hangs where the walk fell off; a tree holding an equivalent key is unchanged. -/
def Tree.ins {K V : Type} (comp : K → K → Bool) (key : K) (val : V) (a : Nat) :
    Tree K V → Tree K V
  | Tree.nil => Tree.node Tree.nil a key val Tree.nil
  | Tree.node l b k v r =>
    if comp key k then Tree.node (l.ins comp key val a) b k v r
    else if comp k key then Tree.node l b k v (r.ins comp key val a)
    else Tree.node l b k v r

/-- The leftmost node of a tree: its address, key and value. -/
def Tree.minNode {K V : Type} : Tree K V → Option (Nat × K × V)
  | Tree.nil => none
  | Tree.node Tree.nil a k v _ => some (a, k, v)
  | Tree.node l _ _ _ _ => l.minNode

/-- The tree with the node at address `x` spliced out, when that node has at most one child:
its only child (or nothing) takes its place. -/
def Tree.splice {K V : Type} (x : Nat) : Tree K V → Tree K V
  | Tree.nil => Tree.nil
  | Tree.node l a k v r =>
    if a = x then
      match l, r with
      | Tree.nil, _ => r
      | _, Tree.nil => l
      | _, _ => Tree.node l a k v r
    else Tree.node (l.splice x) a k v (r.splice x)

/-- The tree after `eraseNode` of the node at address `x`: a node with at most one child is
spliced out; a node with two children takes over the entry of the leftmost node of its right
subtree, which is spliced out instead. -/
def Tree.eraseAt {K V : Type} (x : Nat) : Tree K V → Tree K V
  | Tree.nil => Tree.nil
  | Tree.node l a k v r =>
    if a = x then
      match l, r with
      | Tree.nil, _ => r
      | _, Tree.nil => l
      | _, _ =>
        match r.minNode with
        | none => Tree.node l a k v r
        | some (s, sk, sv) => Tree.node l a sk sv (r.splice s)
    else Tree.node (l.eraseAt x) a k v (r.eraseAt x)

/-! ## Reachable maps -/

/-- The maps reachable from the empty map by `insert`, `operator[]` and `erase` calls, for a
key type whose moved-from state is given by `moved`. -/
inductive Reachable {K V : Type} [Inhabited V] (comp : K → K → Bool) (moved : K → K) :
    Map K V → Prop where
  | empty : Reachable comp moved Map.empty
  | insert {m m1 : Map K V} {key : K} {value : V} {it : Iterator} {b : Bool} :
      Reachable comp moved m → m.insert comp moved key value = some (m1, it, b) →
      Reachable comp moved m1
  | index {m m1 : Map K V} {key : K} {a : Nat} :
      Reachable comp moved m → m.index comp moved key = some (m1, a) → Reachable comp moved m1
  | erase {m m1 : Map K V} {key : K} {n : Nat} :
      Reachable comp moved m → m.erase comp key = some (m1, n) → Reachable comp moved m1

/-- The maps reachable from the empty map by `insert` and `erase` calls only. -/
inductive ReachableIE {K V : Type} (comp : K → K → Bool) (moved : K → K) : Map K V → Prop where
  | empty : ReachableIE comp moved Map.empty
  | insert {m m1 : Map K V} {key : K} {value : V} {it : Iterator} {b : Bool} :
      ReachableIE comp moved m → m.insert comp moved key value = some (m1, it, b) →
      ReachableIE comp moved m1
  | erase {m m1 : Map K V} {key : K} {n : Nat} :
      ReachableIE comp moved m → m.erase comp key = some (m1, n) → ReachableIE comp moved m1

/-! ## Construction from a list, and the examples -/

/-- The loop `for (const auto& pair : init) insert(pair);` of the initializer-list
constructor. -/
def Map.insertAll {K V : Type} (comp : K → K → Bool) (m : Map K V) :
    List (K × V) → Option (Map K V)
  | [] => some m
  | pair :: rest =>
    match m.insertInternal comp id pair with
    | none => none
    | some (m1, _, _) => Map.insertAll comp m1 rest

/-- `Map(std::initializer_list<...> init)`. -/
def Map.ofList {K V : Type} (comp : K → K → Bool) (init : List (K × V)) : Option (Map K V) :=
  Map.insertAll comp Map.empty init

/-- `std::less<int>`. -/
def ltInt (a b : Int) : Bool := decide (a < b)

/-- `std::less<std::string>`: the lexicographic comparison of the character values. A string
is the list of its characters. -/
def strLess : List Char → List Char → Bool
  | [], [] => false
  | [], _ :: _ => true
  | _ :: _, [] => false
  | a :: as, b :: bs =>
    if a.toNat < b.toNat then true
    else if b.toNat < a.toNat then false
    else strLess as bs

/-- What a move leaves in a `std::string`: the usual libraries (libstdc++, libc++) leave the
moved-from string empty. -/
def movedStr (_ : List Char) : List Char := []

/-- `Map<std::string, int> m; m["a"];`. -/
def strMapA : Map (List Char) Nat :=
  ⟨[some ⟨['a'], 0, none, none, none⟩], some 0, 1⟩

/-- The map `strMapA` after `m["b"];`: the node of `"b"` hangs to the left of `"a"`. -/
def strMapAB : Map (List Char) Nat :=
  ⟨[some ⟨['a'], 0, some 1, none, none⟩, some ⟨['b'], 0, none, none, some 0⟩], some 0, 2⟩

/-- The tree of `strMapAB`. -/
def strTreeAB : Tree (List Char) Nat :=
  Tree.node (Tree.node Tree.nil 1 ['b'] 0 Tree.nil) 0 ['a'] 0 Tree.nil

/-- The map `strMapAB` after a second `m["b"];`: a second node of `"b"` hangs to the left of
`"a"`, in the place of the first one, which is still allocated. -/
def strMapABB : Map (List Char) Nat :=
  ⟨[some ⟨['a'], 0, some 2, none, none⟩, some ⟨['b'], 0, none, none, some 0⟩,
    some ⟨['b'], 0, none, none, some 0⟩], some 0, 3⟩

/-- The map after `insert(2, 20)`, `insert(1, 10)`, `insert(3, 30)` on the empty map. -/
def exMap : Map Int Nat :=
  ⟨[some ⟨2, 20, some 1, some 2, none⟩, some ⟨1, 10, none, none, some 0⟩,
    some ⟨3, 30, none, none, some 0⟩], some 0, 3⟩

/-- The tree of `exMap`. -/
def exTree : Tree Int Nat :=
  Tree.node (Tree.node Tree.nil 1 1 10 Tree.nil) 0 2 20 (Tree.node Tree.nil 2 3 30 Tree.nil)

/-- The map after inserting the keys `5, 3, 8, 1, 4, 7, 9` in that order. -/
def roundTripMap {V : Type} (v5 v3 v8 v1 v4 v7 v9 : V) : Map Int V :=
  ⟨[some ⟨5, v5, some 1, some 2, none⟩, some ⟨3, v3, some 3, some 4, some 0⟩,
    some ⟨8, v8, some 5, some 6, some 0⟩, some ⟨1, v1, none, none, some 1⟩,
    some ⟨4, v4, none, none, some 1⟩, some ⟨7, v7, none, none, some 2⟩,
    some ⟨9, v9, none, none, some 2⟩], some 0, 7⟩

/-- The map `roundTripMap` after `erase(5)`: the root holds the entry of `7`, whose node is
deleted. -/
def roundTripErased {V : Type} (v3 v8 v1 v4 v7 v9 : V) : Map Int V :=
  ⟨[some ⟨7, v7, some 1, some 2, none⟩, some ⟨3, v3, some 3, some 4, some 0⟩,
    some ⟨8, v8, none, some 6, some 0⟩, some ⟨1, v1, none, none, some 1⟩,
    some ⟨4, v4, none, none, some 1⟩, none, some ⟨9, v9, none, none, some 2⟩], some 0, 7⟩

/-! ## Checked access, clearing, copying and moving -/

/-- `at(key)` together with the map after the call: `at` calls the `const` member `find` and
reads `it->second`; it performs no store, so the map is handed back as it is. -/
def Map.atCall {K V : Type} (comp : K → K → Bool) (m : Map K V) (key : K) :
    Option (Map K V × AtResult V) :=
  match m.at_ comp key with
  | none => none
  | some r => some (m, r)

/-- `empty()`: `node_count == 0`. -/
def Map.isEmpty {K V : Type} (m : Map K V) : Bool := m.node_count == 0

/-- `clearSubtree(node)`: both subtrees are cleared, then the node is deleted. -/
def clearSubtree {K V : Type} : Nat → Heap K V → Option Nat → Option (Heap K V)
  | _, h, none => some h
  | 0, _, some _ => none
  | fuel + 1, h, some a =>
    match h.read a with
    | none => none
    | some n =>
      match clearSubtree fuel h n.left with
      | none => none
      | some h1 =>
        match h1.read a with
        | none => none
        | some n1 =>
          match clearSubtree fuel h1 n1.right with
          | none => none
          | some h2 => some (h2.free a)

/-- `clear()`: `clearSubtree(root); root = nullptr; node_count = 0;`. -/
def Map.clear {K V : Type} (m : Map K V) : Option (Map K V) :=
  match clearSubtree m.heap.length m.heap m.root with
  | none => none
  | some h => some ⟨h, none, 0⟩

/-- The loop `for (auto it = other.begin(); it != other.end(); ++it) insert(*it);` of the copy
constructor and of copy assignment, from the iterator `it` on, inserting into `acc`. -/
def copyLoop {K V : Type} (comp : K → K → Bool) (other : Map K V) :
    Nat → Iterator → Map K V → Option (Map K V)
  | _, none, acc => some acc
  | 0, some _, _ => none
  | fuel + 1, some a, acc =>
    match other.heap.read a with
    | none => none
    | some n =>
      match acc.insertInternal comp id (n.key, n.val) with
      | none => none
      | some (acc1, _, _) =>
        match other.next (some a) with
        | none => none
        | some it => copyLoop comp other fuel it acc1

/-- `Map(const Map& other)`: the new map starts with no root and count zero and owns the
nodes it allocates. -/
def Map.copy {K V : Type} (comp : K → K → Bool) (other : Map K V) : Option (Map K V) :=
  match other.begin_ with
  | none => none
  | some it => copyLoop comp other other.heap.length it Map.empty

/-- `operator=(const Map& other)`; `other = none` stands for `this == &other`, where nothing
is done. -/
def Map.copyAssign {K V : Type} (comp : K → K → Bool) (this : Map K V) :
    Option (Map K V) → Option (Map K V)
  | none => some this
  | some other =>
    match this.clear with
    | none => none
    | some cleared =>
      match other.begin_ with
      | none => none
      | some it => copyLoop comp other other.heap.length it cleared

/-- `Map(Map&& other)`: the new map, and `other` after the call. The nodes are not touched;
the new map takes over the root and the count. -/
def Map.moveCtor {K V : Type} (other : Map K V) : Map K V × Map K V :=
  (⟨other.heap, other.root, other.node_count⟩, ⟨other.heap, none, 0⟩)

/-- `operator=(Map&& other)`: `this` and `other` after the call; `other = none` stands for
`this == &other`, where nothing is done. -/
def Map.moveAssign {K V : Type} (this : Map K V) :
    Option (Map K V) → Option (Map K V × Option (Map K V))
  | none => some (this, none)
  | some other =>
    match this.clear with
    | none => none
    | some _ => some (⟨other.heap, other.root, other.node_count⟩, some ⟨other.heap, none, 0⟩)

/-- The iterator after `n` applications of `operator++`. -/
def Map.advance {K V : Type} (m : Map K V) : Nat → Iterator → Option Iterator
  | 0, it => some it
  | n + 1, it =>
    match m.next it with
    | none => none
    | some it1 => Map.advance m n it1

/-- The insertion of the entries one at a time, in the given order, each by a call
`insert(pair)` on the entry `pair` of the sequence. -/
def insertEach {K V : Type} (comp : K → K → Bool) (m : Map K V) (init : List (K × V)) :
    Option (Map K V) :=
  init.foldl (fun acc p =>
    match acc with
    | none => none
    | some m1 =>
      match m1.insertPair comp p with
      | none => none
      | some r => some r.1) (some m)

/-- The first entry of a sequence whose key is equivalent to `key`. -/
def firstOcc {K V : Type} (comp : K → K → Bool) (key : K) (init : List (K × V)) :
    Option (K × V) :=
  init.find? (fun p => !comp key p.1 && !comp p.1 key)

/-- The subtree rooted at the node at address `x` (empty when there is no such node). -/
def Tree.subAt {K V : Type} (x : Nat) : Tree K V → Tree K V
  | Tree.nil => Tree.nil
  | Tree.node l a k v r =>
    if a = x then Tree.node l a k v r
    else if x ∈ l.addrs then l.subAt x else r.subAt x

/-- The successor of the node at address `x`, read off the tree: the leftmost node of its
right subtree when it has one, else the first ancestor that is reached from its left child
(`up` is that ancestor for the tree as a whole, `none` at the top). -/
def Tree.succOf {K V : Type} (x : Nat) : Tree K V → Option Nat → Option Nat
  | Tree.nil, up => up
  | Tree.node l a _ _ r, up =>
    if a = x then
      match r.minNode with
      | some (s, _, _) => some s
      | none => up
    else if x ∈ l.addrs then l.succOf x (some a) else r.succOf x up

/-- The depth of a tree: the number of nodes on the longest path from the root down. -/
def Tree.depth {K V : Type} : Tree K V → Nat
  | Tree.nil => 0
  | Tree.node l _ _ _ r => 1 + max l.depth r.depth

/-- A right spine: no node of the tree has a left child. -/
def Tree.NoLeft {K V : Type} : Tree K V → Prop
  | Tree.nil => True
  | Tree.node l _ _ _ r => l = Tree.nil ∧ r.NoLeft

/-! ## Counting the calls, and a run that repeats one two-child erase -/

/-- The maps reachable from the empty map by exactly `n` calls of `insert`, `operator[]` and
`erase`. -/
inductive ReachableIn {K V : Type} [Inhabited V] (comp : K → K → Bool) (moved : K → K) :
    Nat → Map K V → Prop where
  | empty : ReachableIn comp moved 0 Map.empty
  | insert {n : Nat} {m m1 : Map K V} {key : K} {value : V} {it : Iterator} {b : Bool} :
      ReachableIn comp moved n m → m.insert comp moved key value = some (m1, it, b) →
      ReachableIn comp moved (n + 1) m1
  | index {n : Nat} {m m1 : Map K V} {key : K} {a : Nat} :
      ReachableIn comp moved n m → m.index comp moved key = some (m1, a) →
      ReachableIn comp moved (n + 1) m1
  | erase {n : Nat} {m m1 : Map K V} {key : K} {c : Nat} :
      ReachableIn comp moved n m → m.erase comp key = some (m1, c) →
      ReachableIn comp moved (n + 1) m1

/-- What the operations of the element type `T` leave behind: `moved x` is the value of an
object that held `x` after it was the source of a move assignment to another object,
`selfMoved x` is its value after `a = std::move(a)`, and `trivial` says that the destructor
does nothing, so that a cell is used after `data[i].~T()` as before (as for `int`). -/
structure ElemOps (T : Type) where
  moved : T → T
  selfMoved : T → T
  trivial : Bool

/-- The element type `int`. -/
def intOps : ElemOps Nat := ⟨id, id, true⟩

/-- The element type `std::string` of the usual libraries: a move leaves the source empty,
also when the source is the target (the move assignment of libstdc++ ends with
`__str.clear()`). -/
def strOps : ElemOps (List Char) := ⟨fun _ => [], fun _ => [], false⟩

/-- The data members of `Vector<T>`: the cells of the storage `data` points to (no cell for
`nullptr`), each holding an object, or `none` once its object has been destroyed; `capacity_`
and `size_`. `alloc` counts the storages the vector has allocated: it tells the storage
`data` points to from the ones deleted before. -/
structure Vector (T : Type) where
  data : List (Option T)
  alloc : Nat
  capacity_ : Nat
  size_ : Nat
deriving DecidableEq, Repr

/-- `Vector()`: `data(nullptr), capacity_(0), size_(0)`. -/
def Vector.empty {T : Type} : Vector T := ⟨[], 0, 0, 0⟩

/-- `size()`. -/
def Vector.size {T : Type} (v : Vector T) : Nat := v.size_

/-- `capacity()`. -/
def Vector.capacity {T : Type} (v : Vector T) : Nat := v.capacity_

/-- The elements of the vector: the first `size_` cells of the storage (`none` for a cell
whose object has been destroyed). -/
def Vector.contents {T : Type} (v : Vector T) : List (Option T) := v.data.take v.size_

/-- A `const T&` argument: a reference to an object outside the vector, which holds `x`, or
to the cell `i` of the storage number `g` of the vector (`v[i]` is `Ref.cell v.alloc i`). -/
inductive Ref (T : Type) where
  | ext (x : T)
  | cell (g i : Nat)
deriving DecidableEq, Repr

/-- Reading through a reference. A cell of a storage that has been deleted, a cell outside
the storage and a cell whose object has been destroyed cannot be read: the result is
`none`. -/
def Vector.deref {T : Type} (v : Vector T) : Ref T → Option T
  | Ref.ext x => some x
  | Ref.cell g i =>
    if g = v.alloc then
      match v.data[i]? with
      | some (some x) => some x
      | _ => none
    else none

/-- The loop `for (size_t i = 0; i < size_; ++i) new_data[i] = std::move(data[i]);` of
`reallocate`, at index `i` with `n` iterations to go: both cells must hold an object, and the
source is left moved-from. The result is the old and the new storage. -/
def moveLoop {T : Type} (ops : ElemOps T) :
    Nat → Nat → List (Option T) → List (Option T) → Option (List (Option T) × List (Option T))
  | 0, _, data, new_data => some (data, new_data)
  | n + 1, i, data, new_data =>
    match data[i]?, new_data[i]? with
    | some (some x), some (some _) =>
      moveLoop ops n (i + 1) (data.set i (some (ops.moved x))) (new_data.set i (some x))
    | _, _ => none

/-- `delete[] data`: the destructor runs on every cell of the storage, which is invalid on a
cell whose object has been destroyed before, unless the destructor does nothing. -/
def deleteArray {T : Type} (ops : ElemOps T) (data : List (Option T)) : Option Unit :=
  if ops.trivial || data.all Option.isSome then some () else none

/-- `reallocate(new_capacity)`: `new T[new_capacity]` holds default-constructed elements; the
old storage is deleted. -/
def Vector.reallocate {T : Type} [Inhabited T] (ops : ElemOps T) (v : Vector T)
    (new_capacity : Nat) : Option (Vector T) :=
  match moveLoop ops v.size_ 0 v.data (List.replicate new_capacity (some default)) with
  | none => none
  | some (old, new_data) =>
    match deleteArray ops old with
    | none => none
    | some _ => some ⟨new_data, v.alloc + 1, new_capacity, v.size_⟩

/-- `reserve(new_capacity)`. -/
def Vector.reserve {T : Type} [Inhabited T] (ops : ElemOps T) (v : Vector T)
    (new_capacity : Nat) : Option (Vector T) :=
  if new_capacity > v.capacity_ then v.reallocate ops new_capacity else some v

/-- `push_back(const T& value)`; `capacity_ * 2` and `++size_` are `size_t` operations. The
argument is read in `data[size_] = value`, after `reserve` has run, and the assignment needs
an object in the cell `size_`. -/
def Vector.push_back {T : Type} [Inhabited T] (ops : ElemOps T) (v : Vector T)
    (value : Ref T) : Option (Vector T) :=
  match (if v.size_ = v.capacity_ then
      v.reserve ops (if v.capacity_ = 0 then 1 else (v.capacity_ * 2) % SIZE_MOD)
    else some v) with
  | none => none
  | some v1 =>
    match v1.deref value, v1.data[v1.size_]? with
    | some x, some (some _) =>
      some ⟨v1.data.set v1.size_ (some x), v1.alloc, v1.capacity_, (v1.size_ + 1) % SIZE_MOD⟩
    | _, _ => none

/-- `Vector(std::initializer_list<T> init)`: `reserve(init.size())`, then `push_back(item)`
for every item of the list, an object outside the vector. -/
def Vector.ofList {T : Type} [Inhabited T] (ops : ElemOps T) (init : List T) :
    Option (Vector T) :=
  init.foldl (fun acc item =>
    match acc with
    | none => none
    | some v => v.push_back ops (Ref.ext item)) ((Vector.empty : Vector T).reserve ops init.length)

/-- The largest size of an array object, `PTRDIFF_MAX`. -/
@[irreducible] def PTRDIFF_MAX : Nat := 2 ^ 63 - 1

/-- The class invariant of `Vector`: the storage has `capacity_` cells, it is an array
object, so it has at most `PTRDIFF_MAX` cells, and `size_` is at most `capacity_`. -/
def Vector.WF {T : Type} (v : Vector T) : Prop :=
  v.data.length = v.capacity_ ∧ v.size_ ≤ v.capacity_ ∧ v.capacity_ ≤ PTRDIFF_MAX

/-- Every cell of the storage holds an object: no destructor has run on a cell yet (or the
destructor does nothing). -/
def Vector.Live {T : Type} (v : Vector T) : Prop :=
  ∀ c, c ∈ v.data → c ≠ none

/-! ## `Vector::erase` -/

/-- What a call of `erase` yields: the exception `std::out_of_range`, or the iterator it
returns, as an offset from `data`. -/
inductive EraseResult where
  | out_of_range
  | pos (index : Nat)
deriving DecidableEq, Repr

/-- The loop `for (size_t i = start_idx; i + count < size_; ++i) data[i] = std::move(data[i + count]);`
of `erase`, at index `i`; `i + count` and `++i` are `size_t` operations. Both cells must hold
an object. With `count = 0` the assignment moves every element onto itself. -/
def shiftLoop {T : Type} (ops : ElemOps T) (count size_ : Nat) :
    Nat → Nat → List (Option T) → Option (List (Option T))
  | 0, i, data => if (i + count) % SIZE_MOD < size_ then none else some data
  | fuel + 1, i, data =>
    if (i + count) % SIZE_MOD < size_ then
      match data[(i + count) % SIZE_MOD]?, data[i]? with
      | some (some x), some (some _) =>
        shiftLoop ops count size_ fuel ((i + 1) % SIZE_MOD)
          (if (i + count) % SIZE_MOD = i then data.set i (some (ops.selfMoved x))
            else (data.set i (some x)).set ((i + count) % SIZE_MOD) (some (ops.moved x)))
      | _, _ => none
    else some data

/-- The loop `for (size_t i = size_ - count; i < size_; ++i) data[i].~T();` of `erase`, at
index `i`: the object of each cell is destroyed (the cell must hold one), which leaves the
cell as it is only when the destructor does nothing. -/
def destroyLoop {T : Type} (ops : ElemOps T) (size_ : Nat) :
    Nat → Nat → List (Option T) → Option (List (Option T))
  | 0, i, data => if i < size_ then none else some data
  | fuel + 1, i, data =>
    if i < size_ then
      match data[i]? with
      | some (some _) =>
        destroyLoop ops size_ fuel ((i + 1) % SIZE_MOD)
          (if ops.trivial then data else data.set i none)
      | _ => none
    else some data

/-- `erase(first, last)`. An iterator is a pointer into the storage, given by its offset from
`data`: `begin()` is `0` and `end()` is `size_`. The vector is handed back with the result,
also when the call throws. -/
def Vector.erase {T : Type} (ops : ElemOps T) (v : Vector T) (first last : Int) :
    Option (Vector T × EraseResult) :=
  if first > last ∨ first < 0 ∨ last > (v.size_ : Int) then some (v, EraseResult.out_of_range)
  else
    let start_idx := first.toNat % SIZE_MOD
    let end_idx := last.toNat % SIZE_MOD
    let count := (end_idx + SIZE_MOD - start_idx) % SIZE_MOD
    match shiftLoop ops count v.size_ v.size_ start_idx v.data with
    | none => none
    | some data1 =>
      match destroyLoop ops v.size_ v.size_ ((v.size_ + SIZE_MOD - count) % SIZE_MOD) data1 with
      | none => none
      | some data2 =>
        some (⟨data2, v.alloc, v.capacity_, (v.size_ + SIZE_MOD - count) % SIZE_MOD⟩,
          EraseResult.pos start_idx)

/-- `erase(pos)`: `return erase(pos, pos + 1);`. -/
def Vector.erase1 {T : Type} (ops : ElemOps T) (v : Vector T) (pos : Int) :
    Option (Vector T × EraseResult) :=
  v.erase ops pos (pos + 1)

/-- `Vector<int> v{1, 2};`: the storage is full. -/
def exFull : Vector Nat := ⟨[some 1, some 2], 1, 2, 2⟩

/-- `Vector<std::string> v{"a", "b"};`. -/
def exStrings : Vector (List Char) := ⟨[some ['a'], some ['b']], 1, 2, 2⟩

/-! ## `split_line` of `shell.cpp` -/

/-- A `std::string` is the list of its characters. -/
abbrev Str := List Char

/-- The scan of `std::string::find(ch, pos)` over the characters from index `i` on. -/
def findIn (c : Char) : List Char → Nat → Option Nat
  | [], _ => none
  | x :: xs, i => if x = c then some i else findIn c xs (i + 1)

/-- `line.find(ch, pos)`: the index of the first `ch` at or after `pos`; `none` is
`string::npos`. -/
def strFind (line : Str) (ch : Char) (pos : Nat) : Option Nat :=
  findIn ch (line.drop pos) pos

/-- `line.substr(pos, len)`: at most `len` characters from `pos` on; `none` is the exception
`std::out_of_range` of a `pos` beyond the end. -/
def substr (line : Str) (pos len : Nat) : Option Str :=
  if pos > line.length then none else some ((line.drop pos).take len)

/-- `line.substr(pos)`: the characters from `pos` on. -/
def substrFrom (line : Str) (pos : Nat) : Option Str :=
  if pos > line.length then none else some (line.drop pos)

/-- The loop `while (end != string::npos)` of `split_line` and the `push_back` after it;
`end - start` and `end + 1` are `size_t` operations. -/
def splitLoop (line : Str) : Nat → List Str → Nat → Option Nat → Option (List Str)
  | _, args, start, none =>
    match substrFrom line start with
    | none => none
    | some tok => some (args ++ [tok])
  | 0, _, _, some _ => none
  | fuel + 1, args, start, some end_ =>
    match substr line start ((end_ + SIZE_MOD - start) % SIZE_MOD) with
    | none => none
    | some tok =>
      splitLoop line fuel (args ++ [tok]) ((end_ + 1) % SIZE_MOD)
        (strFind line ' ' ((end_ + 1) % SIZE_MOD))

/-- `split_line(line)`. -/
def split_line (line : Str) : Option (List Str) :=
  splitLoop line line.length [] 0 (strFind line ' ' 0)

/-- The test `args.empty()` at the head of `execute`, whose branch returns at once. -/
def executeReturnsEarly (args : List Str) : Bool := args.isEmpty

/-- One turn of `shell_loop` up to the test at the head of `execute`: whether
`execute(split_line(line))` takes the `args.empty()` branch. -/
def shellLoopTakesEmptyBranch (line : Str) : Option Bool :=
  match split_line line with
  | none => none
  | some args => some (executeReturnsEarly args)

/-! ## Auxiliary definitions of the proofs -/

/-- The heap after the last steps of `insertInternal`: the new node is allocated below `p`
and linked as the left or right child of `p`, whose node is `pn`. -/
def attach {K V : Type} (comp : K → K → Bool) (h : Heap K V) (key : K) (val : V) (p : Nat)
    (pn : Node K V) : Heap K V :=
  if comp key pn.key then
    (h.alloc ⟨key, val, none, none, some p⟩).1.write p { pn with left := some h.length }
  else
    (h.alloc ⟨key, val, none, none, some p⟩).1.write p { pn with right := some h.length }

/-- The tree after the attach step of `insertInternal` has put a new leaf at address `a` below
the node at address `q`, as its left child when `left` holds and as its right child otherwise,
in the place of what hung there. -/
def Tree.graft {K V : Type} (q : Nat) (left : Bool) (a : Nat) (key : K) (val : V) :
    Tree K V → Tree K V
  | Tree.nil => Tree.nil
  | Tree.node l b k v r =>
    if b = q then
      if left then Tree.node (Tree.node Tree.nil a key val Tree.nil) b k v r
      else Tree.node l b k v (Tree.node Tree.nil a key val Tree.nil)
    else Tree.node (l.graft q left a key val) b k v (r.graft q left a key val)

/-- The `child->parent = node->parent` step of the one-child cases of `eraseNode` (nothing to
do when there is no child). -/
def reparent {K V : Type} (h : Heap K V) (child : Option Nat) (par : Option Nat) :
    Option (Heap K V) :=
  match child with
  | none => some h
  | some c =>
    match h.read c with
    | none => none
    | some cn => some (h.write c { cn with parent := par })

/-- The common form of the three cases of `eraseNode` on a node `n` at address `x` with at
most one child: `child` (its only child, or `nullptr`) takes its place. -/
def spliceOut {K V : Type} (m : Map K V) (x : Nat) (n : Node K V) (child : Option Nat) :
    Option (Map K V) :=
  match reparent m.heap child n.parent with
  | none => none
  | some h1 =>
    if some x = m.root then some ⟨h1.free x, child, m.node_count⟩
    else
      match relink h1 n.parent x child with
      | none => none
      | some h2 => some ⟨h2.free x, m.root, m.node_count⟩

/-- The node at address `x` has two children. -/
def Tree.hasTwo {K V : Type} (x : Nat) : Tree K V → Prop
  | Tree.nil => False
  | Tree.node l a _ _ r =>
    if a = x then l ≠ Tree.nil ∧ r ≠ Tree.nil else l.hasTwo x ∨ r.hasTwo x

/-- The nodes of the tree in in-order, each with its address and entry. -/
def Tree.cells {K V : Type} : Tree K V → List (Nat × K × V)
  | Tree.nil => []
  | Tree.node l a k v r => l.cells ++ (a, k, v) :: r.cells

/-- The first address of a list, or `d` when the list is empty. -/
def headOr (l : List Nat) (d : Option Nat) : Option Nat :=
  match l with
  | [] => d
  | z :: _ => some z

/-- The address that follows `x` in the list `l`, or `d` when `x` is the last one. -/
def succIn : List Nat → Nat → Option Nat → Option Nat
  | [], _, d => d
  | y :: ys, x, d => if y = x then headOr ys d else succIn ys x d

/-! # Proofs -/

variable {K V : Type}

/-! ## The free store -/

theorem read_lt {h : Heap K V} {a : Nat} {n : Node K V} (e : h.read a = some n) :
    a < h.length := by
  by_contra hlt
  have : h[a]? = none := List.getElem?_eq_none (Nat.le_of_not_lt hlt)
  simp [Heap.read, this] at e

theorem read_write_same {h : Heap K V} {a : Nat} (n : Node K V) (hlt : a < h.length) :
    (h.write a n).read a = some n := by
  simp [Heap.read, Heap.write, List.getElem?_set, hlt]

theorem read_write_ne {h : Heap K V} {a b : Nat} (n : Node K V) (hne : a ≠ b) :
    (h.write a n).read b = h.read b := by
  simp [Heap.read, Heap.write, List.getElem?_set, hne]

theorem read_free_same (h : Heap K V) (a : Nat) : (h.free a).read a = none := by
  by_cases hlt : a < h.length
  · simp [Heap.read, Heap.free, List.getElem?_set, hlt]
  · have e : (h.set a none)[a]? = none :=
      List.getElem?_eq_none (by simpa using Nat.le_of_not_lt hlt)
    simp [Heap.read, Heap.free, e]

theorem read_free_ne {h : Heap K V} {a b : Nat} (hne : a ≠ b) :
    (h.free a).read b = h.read b := by
  simp [Heap.read, Heap.free, List.getElem?_set, hne]

theorem read_alloc_new (h : Heap K V) (n : Node K V) :
    (h.alloc n).1.read h.length = some n := by
  simp [Heap.read, Heap.alloc]

theorem read_alloc_old {h : Heap K V} {b : Nat} (n : Node K V) (hlt : b < h.length) :
    (h.alloc n).1.read b = h.read b := by
  simp [Heap.read, Heap.alloc, List.getElem?_append_left hlt]

theorem length_write (h : Heap K V) (a : Nat) (n : Node K V) :
    (h.write a n).length = h.length := by
  simp [Heap.write]

theorem length_free (h : Heap K V) (a : Nat) : (h.free a).length = h.length := by
  simp [Heap.free]

theorem length_alloc (h : Heap K V) (n : Node K V) :
    (h.alloc n).1.length = h.length + 1 := by
  simp [Heap.alloc]

/-! ## Trees in the free store -/

theorem size_eq_length_addrs (t : Tree K V) : t.size = t.addrs.length := by
  induction t with
  | nil => rfl
  | node l a k v r ihl ihr => simp [Tree.size, Tree.addrs, ihl, ihr]; omega

theorem length_entries (t : Tree K V) : t.entries.length = t.size := by
  induction t with
  | nil => rfl
  | node l a k v r ihl ihr => simp [Tree.size, Tree.entries, ihl, ihr]; omega

theorem rootPtr_mem_addrs {t : Tree K V} {a : Nat} (e : t.rootPtr = some a) : a ∈ t.addrs := by
  cases t with
  | nil => simp [Tree.rootPtr] at e
  | node l b k v r =>
    simp only [Tree.rootPtr, Option.some.injEq] at e
    simp [Tree.addrs, e]

/-- A heap that agrees with `h` on the nodes of `t` holds `t` as well. -/
theorem Shape.frame {h h1 : Heap K V} {t : Tree K V} {par : Option Nat}
    (s : Shape h t par) (agree : ∀ a ∈ t.addrs, h1.read a = h.read a) : Shape h1 t par := by
  induction t generalizing par with
  | nil => trivial
  | node l a k v r ihl ihr =>
    obtain ⟨e, sl, sr⟩ := s
    refine ⟨?_, ihl sl ?_, ihr sr ?_⟩
    · rw [agree a (by simp [Tree.addrs]), e]
    · intro b hb; exact agree b (by simp [Tree.addrs, hb])
    · intro b hb; exact agree b (by simp [Tree.addrs, hb])

/-- The parent pointer of the root of `t` is the only thing `Shape` says about `par`. -/
theorem Shape.live {h : Heap K V} {t : Tree K V} {par : Option Nat}
    (s : Shape h t par) : ∀ a ∈ t.addrs, ∃ n, h.read a = some n := by
  induction t generalizing par with
  | nil => intro a ha; simp [Tree.addrs] at ha
  | node l b k v r ihl ihr =>
    obtain ⟨e, sl, sr⟩ := s
    intro a ha
    simp only [Tree.addrs, List.mem_append, List.mem_cons] at ha
    rcases ha with ha | rfl | ha
    · exact ihl sl a ha
    · exact ⟨_, e⟩
    · exact ihr sr a ha

theorem Shape.lt_length {h : Heap K V} {t : Tree K V} {par : Option Nat}
    (s : Shape h t par) : ∀ a ∈ t.addrs, a < h.length := by
  intro a ha
  obtain ⟨n, e⟩ := s.live a ha
  exact read_lt e

/-- A list of distinct addresses below `n` has at most `n` elements. -/
theorem length_le_of_nodup_lt {l : List Nat} {n : Nat} (nd : l.Nodup)
    (lt : ∀ a ∈ l, a < n) : l.length ≤ n := by
  have sub : l ⊆ List.range n := fun a ha => List.mem_range.mpr (lt a ha)
  have := (List.subperm_of_subset nd sub).length_le
  simpa using this

/-- A tree held by the heap has at most as many nodes as the heap has cells. -/
theorem Shape.size_le {h : Heap K V} {t : Tree K V} {par : Option Nat}
    (s : Shape h t par) (nd : t.addrs.Nodup) : t.size ≤ h.length := by
  rw [size_eq_length_addrs]
  exact length_le_of_nodup_lt nd s.lt_length

theorem Map.IsTree.tree_size_le {m : Map K V} {t : Tree K V} (w : m.IsTree t) :
    t.size ≤ m.heap.length :=
  w.2.1.size_le w.2.2

/-! ## The loops on a tree -/

theorem findLoop_eq (comp : K → K → Bool) (key : K) {h : Heap K V} {t : Tree K V}
    {par : Option Nat} (s : Shape h t par) {fuel : Nat} (hf : t.size ≤ fuel) :
    findLoop comp h key fuel t.rootPtr = some (t.lookup comp key) := by
  induction t generalizing par fuel with
  | nil => cases fuel <;> simp [findLoop, Tree.rootPtr, Tree.lookup]
  | node l a k v r ihl ihr =>
    obtain ⟨e, sl, sr⟩ := s
    simp only [Tree.size] at hf
    obtain ⟨f, rfl⟩ : ∃ f, fuel = f + 1 := ⟨fuel - 1, by omega⟩
    simp only [Tree.rootPtr, findLoop, e, Tree.lookup]
    split
    · exact ihl sl (by omega)
    · split
      · exact ihr sr (by omega)
      · rfl

theorem eraseLoop_eq (comp : K → K → Bool) (key : K) {h : Heap K V} {t : Tree K V}
    {par : Option Nat} (s : Shape h t par) {fuel : Nat} (hf : t.size ≤ fuel) :
    eraseLoop comp h key fuel t.rootPtr = some (t.lookup comp key) := by
  induction t generalizing par fuel with
  | nil => cases fuel <;> simp [eraseLoop, Tree.rootPtr, Tree.lookup]
  | node l a k v r ihl ihr =>
    obtain ⟨e, sl, sr⟩ := s
    simp only [Tree.size] at hf
    obtain ⟨f, rfl⟩ : ∃ f, fuel = f + 1 := ⟨fuel - 1, by omega⟩
    simp only [Tree.rootPtr, eraseLoop, e, Tree.lookup]
    split
    · exact ihl sl (by omega)
    · split
      · exact ihr sr (by omega)
      · rfl

theorem insertLoop_eq (comp : K → K → Bool) (key : K) {h : Heap K V} {t : Tree K V}
    {par : Option Nat} (s : Shape h t par) {fuel : Nat} (hf : t.size ≤ fuel) :
    insertLoop comp h key fuel t.rootPtr par = some (t.walk comp key par) := by
  induction t generalizing par fuel with
  | nil => cases fuel <;> simp [insertLoop, Tree.rootPtr, Tree.walk]
  | node l a k v r ihl ihr =>
    obtain ⟨e, sl, sr⟩ := s
    simp only [Tree.size] at hf
    obtain ⟨f, rfl⟩ : ∃ f, fuel = f + 1 := ⟨fuel - 1, by omega⟩
    simp only [Tree.rootPtr, insertLoop, e, Tree.walk]
    split
    · exact ihl sl (by omega)
    · split
      · exact ihr sr (by omega)
      · rfl

theorem findMin_eq {h : Heap K V} {t : Tree K V} {par : Option Nat} (s : Shape h t par)
    {fuel : Nat} (hf : t.size ≤ fuel) :
    findMin h fuel t.rootPtr = some (t.minNode.map (fun x => x.1)) := by
  induction t generalizing par fuel with
  | nil => simp [findMin, Tree.rootPtr, Tree.minNode]
  | node l a k v r ihl _ =>
    obtain ⟨e, sl, _⟩ := s
    simp only [Tree.size] at hf
    obtain ⟨f, rfl⟩ : ∃ f, fuel = f + 1 := ⟨fuel - 1, by omega⟩
    cases l with
    | nil => simp [findMin, findMinLoop, Tree.rootPtr, Tree.minNode, e]
    | node ll la lk lv lr =>
      have ih := @ihl _ sl f (by omega)
      simp only [Tree.rootPtr, findMin] at ih
      simp only [findMin, findMinLoop, Tree.rootPtr, e, Tree.minNode]
      exact ih

/-! ## Insertion -/

theorem walk_of_lookup_some (comp : K → K → Bool) (key : K) {t : Tree K V} {c : Nat}
    (par : Option Nat) (e : t.lookup comp key = some c) : t.walk comp key par = Walk.found c := by
  induction t generalizing par with
  | nil => simp [Tree.lookup] at e
  | node l a k v r ihl ihr =>
    simp only [Tree.lookup] at e
    simp only [Tree.walk]
    by_cases c1 : comp key k = true
    · simp only [c1, ↓reduceIte] at e ⊢
      exact ihl _ e
    · by_cases c2 : comp k key = true
      · simp only [c1, c2, ↓reduceIte, Bool.false_eq_true] at e ⊢
        exact ihr _ e
      · simp only [c1, c2, ↓reduceIte, Bool.false_eq_true, Option.some.injEq] at e ⊢
        rw [e]

/-- Where the walk falls off: below `par` on the empty tree, below one of its nodes else. -/
theorem walk_fell (comp : K → K → Bool) (key : K) {t : Tree K V} {par p : Option Nat}
    (hw : t.walk comp key par = Walk.fell p) :
    t.lookup comp key = none ∧
      ((t = Tree.nil ∧ p = par) ∨ (∃ q, p = some q ∧ q ∈ t.addrs)) := by
  induction t generalizing par with
  | nil =>
    simp only [Tree.walk, Walk.fell.injEq] at hw
    exact ⟨rfl, Or.inl ⟨rfl, hw.symm⟩⟩
  | node l a k v r ihl ihr =>
    simp only [Tree.walk] at hw
    simp only [Tree.lookup]
    by_cases c1 : comp key k = true
    · simp only [c1, ↓reduceIte] at hw ⊢
      obtain ⟨h0, h1⟩ := ihl hw
      refine ⟨h0, Or.inr ?_⟩
      rcases h1 with ⟨_, rfl⟩ | ⟨q, rfl, hq⟩
      · exact ⟨a, rfl, by simp [Tree.addrs]⟩
      · exact ⟨q, rfl, by simp [Tree.addrs, hq]⟩
    · by_cases c2 : comp k key = true
      · simp only [c1, c2, ↓reduceIte, Bool.false_eq_true] at hw ⊢
        obtain ⟨h0, h1⟩ := ihr hw
        refine ⟨h0, Or.inr ?_⟩
        rcases h1 with ⟨_, rfl⟩ | ⟨q, rfl, hq⟩
        · exact ⟨a, rfl, by simp [Tree.addrs]⟩
        · exact ⟨q, rfl, by simp [Tree.addrs, hq]⟩
      · simp only [c1, c2, ↓reduceIte, Bool.false_eq_true] at hw
        cases hw

theorem walk_of_lookup_none (comp : K → K → Bool) (key : K) {t : Tree K V}
    (par : Option Nat) (e : t.lookup comp key = none) :
    ∃ p, t.walk comp key par = Walk.fell p := by
  cases hw : t.walk comp key par with
  | fell p => exact ⟨p, rfl⟩
  | found c =>
    exfalso
    induction t generalizing par with
    | nil => simp [Tree.walk] at hw
    | node l a k v r ihl ihr =>
      simp only [Tree.walk] at hw
      simp only [Tree.lookup] at e
      by_cases c1 : comp key k = true
      · simp only [c1, ↓reduceIte] at hw e
        exact ihl _ e hw
      · by_cases c2 : comp k key = true
        · simp only [c1, c2, ↓reduceIte, Bool.false_eq_true] at hw e
          exact ihr _ e hw
        · simp only [c1, c2, ↓reduceIte, Bool.false_eq_true] at e
          cases e

theorem attach_read_other (comp : K → K → Bool) {h : Heap K V} (key : K) (val : V) {p b : Nat}
    (pn : Node K V) (hne : p ≠ b) (hlt : b < h.length) :
    (attach comp h key val p pn).read b = h.read b := by
  unfold attach
  split <;> rw [read_write_ne _ hne, read_alloc_old _ hlt]

theorem attach_read_new (comp : K → K → Bool) {h : Heap K V} (key : K) (val : V) {p : Nat}
    (pn : Node K V) (hlt : p < h.length) :
    (attach comp h key val p pn).read h.length = some ⟨key, val, none, none, some p⟩ := by
  unfold attach
  split <;> rw [read_write_ne _ (Nat.ne_of_lt hlt), read_alloc_new]

theorem attach_read_parent (comp : K → K → Bool) {h : Heap K V} (key : K) (val : V) {p : Nat}
    (pn : Node K V) (hlt : p < h.length) :
    (attach comp h key val p pn).read p =
      some (if comp key pn.key then { pn with left := some h.length }
        else { pn with right := some h.length }) := by
  unfold attach
  split <;> rw [read_write_same _ (by rw [length_alloc]; omega)]

theorem length_attach (comp : K → K → Bool) (h : Heap K V) (key : K) (val : V) (p : Nat)
    (pn : Node K V) : (attach comp h key val p pn).length = h.length + 1 := by
  unfold attach
  split <;> rw [length_write, length_alloc]

theorem rootPtr_ins (comp : K → K → Bool) (key : K) (val : V) (a : Nat) {t : Tree K V}
    (hne : t ≠ Tree.nil) : (t.ins comp key val a).rootPtr = t.rootPtr := by
  cases t with
  | nil => exact absurd rfl hne
  | node l b k v r =>
    simp only [Tree.ins]
    split
    · rfl
    · split <;> rfl

theorem ne_nil_of_mem_addrs {t : Tree K V} {q : Nat} (hq : q ∈ t.addrs) : t ≠ Tree.nil := by
  intro hh
  subst hh
  simp [Tree.addrs] at hq

/-- The heap after the attach step holds the tree with the new leaf. -/
theorem Shape.ins (comp : K → K → Bool) (key : K) (val : V) {h : Heap K V} {t : Tree K V}
    {par : Option Nat} (s : Shape h t par) (nd : t.addrs.Nodup) {p : Nat} {pn : Node K V}
    (hw : t.walk comp key par = Walk.fell (some p)) (hp : h.read p = some pn) :
    Shape (attach comp h key val p pn) (t.ins comp key val h.length) par := by
  have plt : p < h.length := read_lt hp
  induction t generalizing par with
  | nil =>
    simp only [Tree.walk, Walk.fell.injEq] at hw
    subst hw
    exact ⟨by rw [attach_read_new _ _ _ _ plt]; rfl, trivial, trivial⟩
  | node l a k v r ihl ihr =>
    obtain ⟨e, sl, sr⟩ := s
    simp only [Tree.addrs] at nd
    have ndl : l.addrs.Nodup := (List.nodup_append.mp nd).1
    have ndr : r.addrs.Nodup := (List.nodup_cons.mp (List.nodup_append.mp nd).2.1).2
    have anr : a ∉ r.addrs := (List.nodup_cons.mp (List.nodup_append.mp nd).2.1).1
    have dj : ∀ x, x ∈ l.addrs → x ∈ a :: r.addrs → False :=
      fun x hx hy => (List.nodup_append.mp nd).2.2 hx hy
    have anl : a ∉ l.addrs := fun hx => dj a hx (by simp)
    have alt : a < h.length := read_lt e
    simp only [Tree.walk] at hw
    simp only [Tree.ins]
    by_cases c1 : comp key k = true
    · simp only [c1, ↓reduceIte] at hw ⊢
      have sl1 := ihl sl ndl hw
      refine ⟨?_, sl1, ?_⟩
      · rcases (walk_fell comp key hw).2 with ⟨rfl, hpa⟩ | ⟨q, hq, qm⟩
        · simp only [Option.some.injEq] at hpa
          subst hpa
          rw [attach_read_parent _ _ _ _ plt]
          rw [hp] at e
          simp only [Option.some.injEq] at e
          subst e
          simp [c1, Tree.ins, Tree.rootPtr]
        · simp only [Option.some.injEq] at hq
          subst hq
          have : p ≠ a := fun hh => anl (hh ▸ qm)
          rw [attach_read_other _ _ _ _ this alt, e, rootPtr_ins _ _ _ _ (ne_nil_of_mem_addrs qm)]
      · apply sr.frame
        intro b hb
        have bne : p ≠ b := by
          rcases (walk_fell comp key hw).2 with ⟨_, hpa⟩ | ⟨q, hq, qm⟩
          · simp only [Option.some.injEq] at hpa
            exact fun hh => anr (hpa ▸ hh ▸ hb)
          · simp only [Option.some.injEq] at hq
            exact fun hh => dj b (hh ▸ hq ▸ qm) (by simp [hb])
        exact attach_read_other _ _ _ _ bne (sr.lt_length b hb)
    · by_cases c2 : comp k key = true
      · simp only [c1, c2, ↓reduceIte, Bool.false_eq_true] at hw ⊢
        have sr1 := ihr sr ndr hw
        refine ⟨?_, ?_, sr1⟩
        · rcases (walk_fell comp key hw).2 with ⟨rfl, hpa⟩ | ⟨q, hq, qm⟩
          · simp only [Option.some.injEq] at hpa
            subst hpa
            rw [attach_read_parent _ _ _ _ plt]
            rw [hp] at e
            simp only [Option.some.injEq] at e
            subst e
            simp [c1, Tree.ins, Tree.rootPtr]
          · simp only [Option.some.injEq] at hq
            subst hq
            have : p ≠ a := fun hh => anr (hh ▸ qm)
            rw [attach_read_other _ _ _ _ this alt, e,
              rootPtr_ins _ _ _ _ (ne_nil_of_mem_addrs qm)]
        · apply sl.frame
          intro b hb
          have bne : p ≠ b := by
            rcases (walk_fell comp key hw).2 with ⟨_, hpa⟩ | ⟨q, hq, qm⟩
            · simp only [Option.some.injEq] at hpa
              exact fun hh => anl (hpa ▸ hh ▸ hb)
            · simp only [Option.some.injEq] at hq
              exact fun hh => dj b hb (by simp [hh ▸ hq ▸ qm])
          exact attach_read_other _ _ _ _ bne (sl.lt_length b hb)
      · simp only [c1, c2, ↓reduceIte, Bool.false_eq_true] at hw
        cases hw

theorem addrs_ins_perm (comp : K → K → Bool) (key : K) (val : V) (a : Nat) {t : Tree K V}
    (e : t.lookup comp key = none) : (t.ins comp key val a).addrs.Perm (a :: t.addrs) := by
  induction t with
  | nil => simp [Tree.ins, Tree.addrs]
  | node l b k v r ihl ihr =>
    simp only [Tree.lookup] at e
    simp only [Tree.ins]
    by_cases c1 : comp key k = true
    · simp only [c1, ↓reduceIte] at e ⊢
      simp only [Tree.addrs]
      exact ((ihl e).append_right _).trans (by simp)
    · by_cases c2 : comp k key = true
      · simp only [c1, c2, ↓reduceIte, Bool.false_eq_true] at e ⊢
        simp only [Tree.addrs]
        have h1 : (b :: (Tree.ins comp key val a r).addrs).Perm (a :: b :: r.addrs) :=
          ((ihr e).cons b).trans (List.Perm.swap a b _)
        exact (h1.append_left l.addrs).trans List.perm_middle
      · simp only [c1, c2, ↓reduceIte, Bool.false_eq_true] at e
        cases e

theorem ins_of_lookup_some (comp : K → K → Bool) (key : K) (val : V) (a : Nat) {t : Tree K V}
    {c : Nat} (e : t.lookup comp key = some c) : t.ins comp key val a = t := by
  induction t with
  | nil => simp [Tree.lookup] at e
  | node l b k v r ihl ihr =>
    simp only [Tree.lookup] at e
    simp only [Tree.ins]
    by_cases c1 : comp key k = true
    · simp only [c1, ↓reduceIte] at e ⊢
      rw [ihl e]
    · by_cases c2 : comp k key = true
      · simp only [c1, c2, ↓reduceIte, Bool.false_eq_true] at e ⊢
        rw [ihr e]
      · simp only [c1, c2, ↓reduceIte, Bool.false_eq_true]

/-- On a duplicate key `insertInternal` returns the node found and changes nothing. -/
theorem insertInternal_found (comp : K → K → Bool) {m : Map K V} {t : Tree K V}
    (w : m.IsTree t) (pair : K × V) {c : Nat} (e : t.lookup comp pair.1 = some c) :
    m.insertInternal comp id pair = some (m, some c, false) := by
  have hl := insertLoop_eq comp pair.1 w.2.1 w.tree_size_le
  rw [walk_of_lookup_some comp pair.1 none e] at hl
  cases t with
  | nil => simp [Tree.lookup] at e
  | node l a k v r =>
    have hr : m.root = some a := w.1
    simp only [Tree.rootPtr] at hl
    simp only [Map.insertInternal, hr, hl]

/-- On a new key `insertInternal` allocates one node and the map holds the tree with the new
leaf; the count is set to one on the empty tree and incremented otherwise. -/
theorem insertInternal_absent (comp : K → K → Bool) {m : Map K V} {t : Tree K V}
    (w : m.IsTree t) (pair : K × V) (e : t.lookup comp pair.1 = none) :
    ∃ m1, m.insertInternal comp id pair = some (m1, some m.heap.length, true) ∧
      m1.IsTree (t.ins comp pair.1 pair.2 m.heap.length) ∧
      m1.heap.length = m.heap.length + 1 ∧
      m1.node_count = (if m.root = none then 1 else (m.node_count + 1) % SIZE_MOD) ∧
      (∀ b, b ∈ t.addrs → ∀ n, m.heap.read b = some n →
        ∃ n1, m1.heap.read b = some n1 ∧ n1.key = n.key ∧ n1.val = n.val) ∧
      (∃ n, m1.heap.read m.heap.length = some n ∧ n.key = pair.1 ∧ n.val = pair.2) := by
  obtain ⟨hr, s, nd⟩ := w
  have fresh : m.heap.length ∉ t.addrs := fun hm => Nat.lt_irrefl _ (s.lt_length _ hm)
  have nd1 : (t.ins comp pair.1 pair.2 m.heap.length).addrs.Nodup :=
    (addrs_ins_perm comp pair.1 pair.2 m.heap.length e).nodup_iff.mpr
      (List.nodup_cons.mpr ⟨fresh, nd⟩)
  cases t with
  | nil =>
    simp only [Tree.rootPtr] at hr
    refine ⟨⟨(m.heap.alloc ⟨pair.1, pair.2, none, none, none⟩).1, some m.heap.length, 1⟩,
      ?_, ⟨rfl, ⟨?_, trivial, trivial⟩, nd1⟩, ?_, ?_, ?_, ?_⟩
    · simp only [Map.insertInternal, hr, Heap.alloc]
    · exact read_alloc_new _ _
    · exact length_alloc _ _
    · simp [hr]
    · intro b hb; simp [Tree.addrs] at hb
    · exact ⟨_, read_alloc_new _ _, rfl, rfl⟩
  | node l a k v r =>
    simp only [Tree.rootPtr] at hr
    have hl := insertLoop_eq comp pair.1 s (s.size_le nd)
    obtain ⟨p, hw⟩ := walk_of_lookup_none comp pair.1 none e
    rw [hw] at hl
    simp only [Tree.rootPtr] at hl
    obtain ⟨q, rfl, qm⟩ : ∃ q, p = some q ∧ q ∈ (Tree.node l a k v r).addrs := by
      rcases (walk_fell comp pair.1 hw).2 with ⟨hn, _⟩ | hq
      · cases hn
      · exact hq
    obtain ⟨pn, hp⟩ := s.live q qm
    have qlt : q < m.heap.length := read_lt hp
    have hs := Shape.ins comp pair.1 pair.2 s nd hw hp
    refine ⟨⟨attach comp m.heap pair.1 pair.2 q pn, m.root, (m.node_count + 1) % SIZE_MOD⟩,
      ?_, ⟨?_, hs, nd1⟩, length_attach _ _ _ _ _ _, ?_, ?_,
      ⟨_, attach_read_new _ _ _ _ qlt, rfl, rfl⟩⟩
    · simp only [Map.insertInternal, hr, hl, attach, id_eq]
      rw [read_alloc_old _ qlt, hp]
      simp only [Heap.alloc]
    · show m.root = _
      rw [rootPtr_ins _ _ _ _ (by simp), hr]; rfl
    · simp [hr]
    · intro b hb n hn
      by_cases hbq : q = b
      · subst hbq
        rw [hp] at hn
        simp only [Option.some.injEq] at hn
        subst hn
        refine ⟨_, attach_read_parent _ _ _ _ qlt, ?_⟩
        split <;> exact ⟨rfl, rfl⟩
      · exact ⟨n, by
          show (attach comp m.heap pair.1 pair.2 q pn).read b = some n
          rw [attach_read_other _ _ _ _ hbq (read_lt hn), hn], rfl, rfl⟩

/-! ## Erase: the one-node cases -/

/-- A node without a left child: `eraseNode` puts its right child (or nothing) in its place. -/
theorem eraseNode_no_left {m : Map K V} {x : Nat} {n : Node K V} (fuel : Nat)
    (e : m.heap.read x = some n) (hl : n.left = none) (hx : n.right ≠ some x) :
    eraseNode (fuel + 1) m x = spliceOut m x n n.right := by
  cases hr : n.right with
  | none =>
    simp only [eraseNode, e, hl, hr, spliceOut, reparent]
  | some c =>
    have hcx : c ≠ x := fun hh => hx (by rw [hr, hh])
    simp only [eraseNode, e, hl, hr, spliceOut, reparent]
    cases hc : m.heap.read c with
    | none => rfl
    | some cn =>
      simp only [read_write_ne _ hcx, e]

/-- A node without a right child: `eraseNode` puts its left child (or nothing) in its place. -/
theorem eraseNode_no_right {m : Map K V} {x : Nat} {n : Node K V} (fuel : Nat)
    (e : m.heap.read x = some n) (hr : n.right = none) (hx : n.left ≠ some x) :
    eraseNode (fuel + 1) m x = spliceOut m x n n.left := by
  cases hl : n.left with
  | none =>
    simp only [eraseNode, e, hl, hr, spliceOut, reparent]
  | some c =>
    have hcx : c ≠ x := fun hh => hx (by rw [hl, hh])
    simp only [eraseNode, e, hl, hr, spliceOut, reparent]
    cases hc : m.heap.read c with
    | none => rfl
    | some cn =>
      simp only [read_write_ne _ hcx, e]

/-- Re-pointing the parent link of the root of a tree. -/
theorem Shape.reparent {h : Heap K V} {c : Tree K V} {par : Option Nat} (s : Shape h c par)
    (nd : c.addrs.Nodup) (par1 : Option Nat) :
    ∃ h1, reparent h c.rootPtr par1 = some h1 ∧ Shape h1 c par1 ∧
      (∀ b, c.rootPtr ≠ some b → h1.read b = h.read b) ∧ h1.length = h.length := by
  cases c with
  | nil => exact ⟨h, rfl, trivial, fun _ _ => rfl, rfl⟩
  | node l a k v r =>
    obtain ⟨e, sl, sr⟩ := s
    simp only [Tree.addrs] at nd
    have anr : a ∉ r.addrs := (List.nodup_cons.mp (List.nodup_append.mp nd).2.1).1
    have anl : a ∉ l.addrs := fun hx => (List.nodup_append.mp nd).2.2 hx (by simp)
    refine ⟨h.write a ⟨k, v, l.rootPtr, r.rootPtr, par1⟩, ?_, ⟨?_, ?_, ?_⟩, ?_, length_write _ _ _⟩
    · show MapModel.reparent h (some a) par1 = _
      simp only [MapModel.reparent, e]
    · exact read_write_same _ (read_lt e)
    · exact sl.frame fun b hb => read_write_ne _ (fun hh => anl (hh ▸ hb))
    · exact sr.frame fun b hb => read_write_ne _ (fun hh => anr (hh ▸ hb))
    · intro b hb
      exact read_write_ne _ (fun hh => hb (by rw [Tree.rootPtr, hh]))

theorem nodup_node {l r : Tree K V} {a : Nat} {k : K} {v : V}
    (nd : (Tree.node l a k v r).addrs.Nodup) :
    l.addrs.Nodup ∧ r.addrs.Nodup ∧ a ∉ l.addrs ∧ a ∉ r.addrs ∧
      (∀ b, b ∈ l.addrs → b ∉ r.addrs) := by
  simp only [Tree.addrs] at nd
  have h1 := List.nodup_append.mp nd
  have h2 := List.nodup_cons.mp h1.2.1
  exact ⟨h1.1, h2.2, fun hx => h1.2.2 hx (by simp), h2.1,
    fun b hb hb1 => h1.2.2 hb (by simp [hb1])⟩

theorem splice_of_not_mem {t : Tree K V} {x : Nat} (hx : x ∉ t.addrs) : t.splice x = t := by
  induction t with
  | nil => rfl
  | node l a k v r ihl ihr =>
    simp only [Tree.addrs, List.mem_append, List.mem_cons, not_or] at hx
    have : ¬ a = x := fun hh => hx.2.1 hh.symm
    simp only [Tree.splice, this, ↓reduceIte, ihl hx.1, ihr hx.2.2]

theorem rootPtr_splice {t : Tree K V} {x : Nat} (hx : t.rootPtr ≠ some x) :
    (t.splice x).rootPtr = t.rootPtr := by
  cases t with
  | nil => rfl
  | node l a k v r =>
    have : ¬ a = x := fun hh => hx (by rw [Tree.rootPtr, hh])
    simp only [Tree.splice, this, ↓reduceIte, Tree.rootPtr]

/-- The replacement of a node with at most one child is one of its subtrees. -/
theorem splice_root {ll lr : Tree K V} {x : Nat} {xk : K} {xv : V}
    (simple : ll = Tree.nil ∨ lr = Tree.nil) :
    ((Tree.node ll x xk xv lr).splice x = lr ∧ ll = Tree.nil) ∨
      ((Tree.node ll x xk xv lr).splice x = ll ∧ lr = Tree.nil) := by
  cases ll with
  | nil => left; simp [Tree.splice]
  | node a b c d e =>
    rcases simple with hh | hh
    · cases hh
    · subst hh; right; simp [Tree.splice]

/-- On a node with at most one child `eraseNode` is the splice step, and the replacement is a
subtree held by the heap below the node. -/
theorem eraseNode_eq_spliceOut {h : Heap K V} {ll lr : Tree K V} {x : Nat} {xk : K} {xv : V}
    {px : Option Nat} (s : Shape h (Tree.node ll x xk xv lr) px)
    (nd : (Tree.node ll x xk xv lr).addrs.Nodup) (simple : ll = Tree.nil ∨ lr = Tree.nil)
    (fuel : Nat) (root : Option Nat) (cnt : Nat) :
    eraseNode (fuel + 1) ⟨h, root, cnt⟩ x =
        spliceOut ⟨h, root, cnt⟩ x ⟨xk, xv, ll.rootPtr, lr.rootPtr, px⟩
          ((Tree.node ll x xk xv lr).splice x).rootPtr ∧
      Shape h ((Tree.node ll x xk xv lr).splice x) (some x) ∧
      ((Tree.node ll x xk xv lr).splice x).addrs.Nodup ∧
      (∀ b, b ∈ ((Tree.node ll x xk xv lr).splice x).addrs →
        b ∈ (Tree.node ll x xk xv lr).addrs ∧ b ≠ x) := by
  obtain ⟨e, sl, sr⟩ := s
  obtain ⟨ndl, ndr, xnl, xnr, _⟩ := nodup_node nd
  rcases @splice_root K V ll lr x xk xv simple with ⟨hc, hnil⟩ | ⟨hc, hnil⟩
  · rw [hc]
    refine ⟨?_, sr, ndr, fun b hb => ⟨by simp [Tree.addrs, hb], fun hh => xnr (hh ▸ hb)⟩⟩
    subst hnil
    exact eraseNode_no_left fuel e rfl (fun hh => xnr (rootPtr_mem_addrs hh))
  · rw [hc]
    refine ⟨?_, sl, ndl, fun b hb => ⟨by simp [Tree.addrs, hb], fun hh => xnl (hh ▸ hb)⟩⟩
    subst hnil
    exact eraseNode_no_right fuel e rfl (fun hh => xnl (rootPtr_mem_addrs hh))

/-- Splicing out a child of the node at address `a`: the child's replacement hangs below `a`
and nothing else changes. -/
theorem splice_child {h : Heap K V} {ll lr : Tree K V} {x a : Nat} {xk : K} {xv : V}
    {pn : Node K V} (s : Shape h (Tree.node ll x xk xv lr) (some a))
    (nd : (Tree.node ll x xk xv lr).addrs.Nodup) (simple : ll = Tree.nil ∨ lr = Tree.nil)
    (ha : h.read a = some pn) (hna : a ∉ (Tree.node ll x xk xv lr).addrs)
    (fuel : Nat) (root : Option Nat) (cnt : Nat) (hroot : root ≠ some x) :
    ∃ h1, eraseNode (fuel + 1) ⟨h, root, cnt⟩ x = some ⟨h1, root, cnt⟩ ∧
      Shape h1 ((Tree.node ll x xk xv lr).splice x) (some a) ∧
      h1.read a = some (if pn.left = some x
        then { pn with left := ((Tree.node ll x xk xv lr).splice x).rootPtr }
        else { pn with right := ((Tree.node ll x xk xv lr).splice x).rootPtr }) ∧
      (∀ b, b ∉ (Tree.node ll x xk xv lr).addrs → b ≠ a → h1.read b = h.read b) ∧
      h1.length = h.length := by
  obtain ⟨he, sc, ndc, hsub⟩ := eraseNode_eq_spliceOut s nd simple fuel root cnt
  generalize (Tree.node ll x xk xv lr).splice x = c at he sc ndc hsub ⊢
  obtain ⟨h1, hrp, s1, fr1, len1⟩ := sc.reparent ndc (some a)
  have hxa : x ≠ a := fun hh => hna (by simp [Tree.addrs, hh])
  have hca : c.rootPtr ≠ some a := fun hh => hna (hsub a (rootPtr_mem_addrs hh)).1
  have hcx : c.rootPtr ≠ some x := fun hh => (hsub x (rootPtr_mem_addrs hh)).2 rfl
  have ha1 : h1.read a = some pn := by rw [fr1 a hca, ha]
  have alt : a < h1.length := read_lt ha1
  have hroot1 : ¬ some x = root := fun hh => hroot hh.symm
  rw [he]
  by_cases hpl : pn.left = some x
  · refine ⟨(h1.write a { pn with left := c.rootPtr }).free x, ?_, ?_, ?_, ?_, ?_⟩
    · simp only [spliceOut, hrp, hroot1, ↓reduceIte, relink, ha1, hpl]
    · exact s1.frame fun b hb => by
        rw [read_free_ne (fun hh => (hsub b hb).2 hh.symm),
          read_write_ne _ (fun hh => hna (by rw [hh]; exact (hsub b hb).1))]
    · rw [read_free_ne hxa, read_write_same _ alt]; simp only [hpl, ↓reduceIte]
    · intro b hb hba
      rw [read_free_ne (fun hh => hb (by simp [Tree.addrs, ← hh])),
        read_write_ne _ (Ne.symm hba)]
      exact fr1 b (fun hh => hb (hsub b (rootPtr_mem_addrs hh)).1)
    · rw [length_free, length_write, len1]
  · refine ⟨(h1.write a { pn with right := c.rootPtr }).free x, ?_, ?_, ?_, ?_, ?_⟩
    · simp only [spliceOut, hrp, hroot1, ↓reduceIte, relink, ha1, hpl]
    · exact s1.frame fun b hb => by
        rw [read_free_ne (fun hh => (hsub b hb).2 hh.symm),
          read_write_ne _ (fun hh => hna (by rw [hh]; exact (hsub b hb).1))]
    · rw [read_free_ne hxa, read_write_same _ alt]; simp only [hpl, ↓reduceIte]
    · intro b hb hba
      rw [read_free_ne (fun hh => hb (by simp [Tree.addrs, ← hh])),
        read_write_ne _ (Ne.symm hba)]
      exact fr1 b (fun hh => hb (hsub b (rootPtr_mem_addrs hh)).1)
    · rw [length_free, length_write, len1]

/-- Splicing out the root of the whole tree: its replacement becomes the root. -/
theorem splice_top {h : Heap K V} {ll lr : Tree K V} {x : Nat} {xk : K} {xv : V}
    (s : Shape h (Tree.node ll x xk xv lr) none)
    (nd : (Tree.node ll x xk xv lr).addrs.Nodup) (simple : ll = Tree.nil ∨ lr = Tree.nil)
    (fuel : Nat) (cnt : Nat) :
    ∃ h1, eraseNode (fuel + 1) ⟨h, some x, cnt⟩ x =
        some ⟨h1, ((Tree.node ll x xk xv lr).splice x).rootPtr, cnt⟩ ∧
      Shape h1 ((Tree.node ll x xk xv lr).splice x) none ∧ h1.length = h.length := by
  obtain ⟨he, sc, ndc, hsub⟩ := eraseNode_eq_spliceOut s nd simple fuel (some x) cnt
  generalize (Tree.node ll x xk xv lr).splice x = c at he sc ndc hsub ⊢
  obtain ⟨h1, hrp, s1, _, len1⟩ := sc.reparent ndc none
  rw [he]
  refine ⟨h1.free x, ?_, ?_, ?_⟩
  · simp only [spliceOut, hrp, ↓reduceIte]
  · exact s1.frame fun b hb => read_free_ne (fun hh => (hsub b hb).2 hh.symm)
  · rw [length_free, len1]

theorem simple_of_not_hasTwo {ll lr : Tree K V} {x : Nat} {xk : K} {xv : V}
    (h2 : ¬ (Tree.node ll x xk xv lr).hasTwo x) : ll = Tree.nil ∨ lr = Tree.nil := by
  simp only [Tree.hasTwo, ↓reduceIte] at h2
  by_contra hc
  exact h2 ⟨fun hh => hc (Or.inl hh), fun hh => hc (Or.inr hh)⟩

/-- Erasing a node with at most one child that is not the root of `t`: `eraseNode` splices it
out of `t` and touches nothing outside `t`. -/
theorem eraseNode_splice {h : Heap K V} {t : Tree K V} {par : Option Nat} {x : Nat}
    (s : Shape h t par) (nd : t.addrs.Nodup) (hx : x ∈ t.addrs) (hrt : t.rootPtr ≠ some x)
    (h2 : ¬ t.hasTwo x) (fuel : Nat) (root : Option Nat) (cnt : Nat) (hroot : root ≠ some x) :
    ∃ h1, eraseNode (fuel + 1) ⟨h, root, cnt⟩ x = some ⟨h1, root, cnt⟩ ∧
      Shape h1 (t.splice x) par ∧ (∀ b, b ∉ t.addrs → h1.read b = h.read b) ∧
      h1.length = h.length := by
  induction t generalizing par with
  | nil => simp [Tree.addrs] at hx
  | node l a k v r ihl ihr =>
    have hax : ¬ a = x := fun hh => hrt (by rw [Tree.rootPtr, hh])
    obtain ⟨ndl, ndr, anl, anr, dj⟩ := nodup_node nd
    obtain ⟨e, sl, sr⟩ := s
    simp only [Tree.hasTwo, hax, ↓reduceIte, not_or] at h2
    simp only [Tree.splice, hax, ↓reduceIte]
    simp only [Tree.addrs, List.mem_append, List.mem_cons] at hx
    have out : ∀ b, b ∉ (Tree.node l a k v r).addrs → b ∉ l.addrs ∧ b ≠ a ∧ b ∉ r.addrs := by
      intro b hb
      simp only [Tree.addrs, List.mem_append, List.mem_cons, not_or] at hb
      exact hb
    rcases hx with hx | hx | hx
    · have xnr : x ∉ r.addrs := dj x hx
      rw [splice_of_not_mem xnr]
      by_cases hlr : l.rootPtr = some x
      · cases l with
        | nil => simp [Tree.addrs] at hx
        | node ll y xk xv lr =>
          simp only [Tree.rootPtr, Option.some.injEq] at hlr
          subst hlr
          obtain ⟨h1, he, s1, ha1, fr, len⟩ :=
            splice_child sl ndl (simple_of_not_hasTwo h2.1) e anl fuel root cnt hroot
          refine ⟨h1, he, ⟨?_, s1, ?_⟩, ?_, len⟩
          · rw [ha1]; simp [Tree.rootPtr]
          · exact sr.frame fun b hb =>
              fr b (fun hh => dj b hh hb) (fun hh => anr (hh ▸ hb))
          · intro b hb
            exact fr b (out b hb).1 (out b hb).2.1
      · obtain ⟨h1, he, s1, fr, len⟩ := ihl sl ndl hx hlr h2.1
        refine ⟨h1, he, ⟨?_, s1, ?_⟩, ?_, len⟩
        · rw [fr a anl, e, rootPtr_splice hlr]
        · exact sr.frame fun b hb => fr b (fun hh => dj b hh hb)
        · intro b hb
          exact fr b (out b hb).1
    · exact absurd hx.symm hax
    · have xnl : x ∉ l.addrs := fun hh => dj x hh hx
      rw [splice_of_not_mem xnl]
      by_cases hrr : r.rootPtr = some x
      · cases r with
        | nil => simp [Tree.addrs] at hx
        | node ll y xk xv lr =>
          simp only [Tree.rootPtr, Option.some.injEq] at hrr
          subst hrr
          obtain ⟨h1, he, s1, ha1, fr, len⟩ :=
            splice_child sr ndr (simple_of_not_hasTwo h2.2) e anr fuel root cnt hroot
          have hl : l.rootPtr ≠ some y := fun hh => xnl (rootPtr_mem_addrs hh)
          refine ⟨h1, he, ⟨?_, ?_, s1⟩, ?_, len⟩
          · rw [ha1]; simp [hl]
          · exact sl.frame fun b hb =>
              fr b (dj b hb) (fun hh => anl (hh ▸ hb))
          · intro b hb
            exact fr b (out b hb).2.2 (out b hb).2.1
      · obtain ⟨h1, he, s1, fr, len⟩ := ihr sr ndr hx hrr h2.2
        refine ⟨h1, he, ⟨?_, ?_, s1⟩, ?_, len⟩
        · rw [fr a anr, e, rootPtr_splice hrr]
        · exact sl.frame fun b hb => fr b (dj b hb)
        · intro b hb
          exact fr b (out b hb).2.2

/-! ## Erase: the two-child case -/

theorem hasTwo_mem {t : Tree K V} {x : Nat} (h2 : t.hasTwo x) : x ∈ t.addrs := by
  induction t with
  | nil => exact absurd h2 (by simp [Tree.hasTwo])
  | node l a k v r ihl ihr =>
    simp only [Tree.hasTwo] at h2
    simp only [Tree.addrs, List.mem_append, List.mem_cons]
    by_cases hax : a = x
    · exact Or.inr (Or.inl hax.symm)
    · simp only [hax, ↓reduceIte] at h2
      rcases h2 with h2 | h2
      · exact Or.inl (ihl h2)
      · exact Or.inr (Or.inr (ihr h2))

theorem splice_node_ne {l r : Tree K V} {a x : Nat} {k : K} {v : V} (hne : ¬ a = x) :
    (Tree.node l a k v r).splice x = Tree.node (l.splice x) a k v (r.splice x) := by
  simp only [Tree.splice, hne, ↓reduceIte]

theorem entries_node (l r : Tree K V) (a : Nat) (k : K) (v : V) :
    (Tree.node l a k v r).entries = l.entries ++ (k, v) :: r.entries := rfl

theorem addrs_node (l r : Tree K V) (a : Nat) (k : K) (v : V) :
    (Tree.node l a k v r).addrs = l.addrs ++ a :: r.addrs := rfl

/-- The leftmost node: it is a node of the tree, the heap holds its entry, and it has no left
child. -/
theorem minNode_spec {h : Heap K V} {t : Tree K V} {par : Option Nat} {s : Nat} {sk : K}
    {sv : V} (sh : Shape h t par) (nd : t.addrs.Nodup) (hm : t.minNode = some (s, sk, sv)) :
    s ∈ t.addrs ∧ (∃ n, h.read s = some n ∧ n.key = sk ∧ n.val = sv) ∧ ¬ t.hasTwo s := by
  induction t generalizing par with
  | nil => simp [Tree.minNode] at hm
  | node l a k v r ihl _ =>
    obtain ⟨ndl, ndr, anl, anr, dj⟩ := nodup_node nd
    obtain ⟨e, sl, sr⟩ := sh
    cases l with
    | nil =>
      simp only [Tree.minNode, Option.some.injEq, Prod.mk.injEq] at hm
      obtain ⟨rfl, rfl, rfl⟩ := hm
      exact ⟨by simp [Tree.addrs], ⟨_, e, rfl, rfl⟩, by simp [Tree.hasTwo]⟩
    | node ll la lk lv lr =>
      simp only [Tree.minNode] at hm
      obtain ⟨hs, hr, h2⟩ := ihl sl ndl hm
      have hsa : ¬ a = s := fun hh => anl (hh ▸ hs)
      have snr : s ∉ r.addrs := dj s hs
      refine ⟨by simp [Tree.addrs] at hs ⊢; tauto, hr, ?_⟩
      simp only [Tree.hasTwo, hsa, ↓reduceIte, not_or]
      exact ⟨h2, fun hh => snr (hasTwo_mem hh)⟩

theorem minNode_of_ne_nil {t : Tree K V} (hne : t ≠ Tree.nil) : ∃ x, t.minNode = some x := by
  induction t with
  | nil => exact absurd rfl hne
  | node l a k v r ihl _ =>
    cases l with
    | nil => exact ⟨_, rfl⟩
    | node ll la lk lv lr =>
      simp only [Tree.minNode]
      exact ihl (by simp)

theorem eraseAt_two {ll lr : Tree K V} {x s : Nat} {xk sk : K} {xv sv : V}
    (hl : ll ≠ Tree.nil) (hr : lr ≠ Tree.nil) (hm : lr.minNode = some (s, sk, sv)) :
    (Tree.node ll x xk xv lr).eraseAt x = Tree.node ll x sk sv (lr.splice s) := by
  cases ll with
  | nil => exact absurd rfl hl
  | node a b c d e =>
    cases lr with
    | nil => exact absurd rfl hr
    | node a1 b1 c1 d1 e1 => simp only [Tree.eraseAt, ↓reduceIte, hm]

/-- Erasing a node with two children: `eraseNode` overwrites its entry with the entry of the
leftmost node of the right subtree, splices that node out and increments the count. -/
theorem eraseNode_two {h : Heap K V} {ll lr : Tree K V} {x : Nat} {xk : K} {xv : V}
    {px : Option Nat} (s : Shape h (Tree.node ll x xk xv lr) px)
    (nd : (Tree.node ll x xk xv lr).addrs.Nodup) (hl : ll ≠ Tree.nil) (hr : lr ≠ Tree.nil)
    (fuel : Nat) (root : Option Nat) (cnt : Nat) (hroot : ∀ b, b ∈ lr.addrs → root ≠ some b) :
    ∃ h1, eraseNode (fuel + 2) ⟨h, root, cnt⟩ x = some ⟨h1, root, (cnt + 1) % SIZE_MOD⟩ ∧
      Shape h1 ((Tree.node ll x xk xv lr).eraseAt x) px ∧
      (∀ b, b ∉ (Tree.node ll x xk xv lr).addrs → h1.read b = h.read b) ∧
      h1.length = h.length := by
  obtain ⟨ndl, ndr, xnl, xnr, dj⟩ := nodup_node nd
  obtain ⟨e, sl, sr⟩ := s
  obtain ⟨⟨sa, sk, sv⟩, hm⟩ := minNode_of_ne_nil hr
  obtain ⟨hs, ⟨sn, hsn, rfl, rfl⟩, h2⟩ := minNode_spec sr ndr hm
  have hfm := findMin_eq sr (sr.size_le ndr)
  rw [hm] at hfm
  simp only [Option.map_some'] at hfm
  obtain ⟨la, hla⟩ : ∃ la, ll.rootPtr = some la := by
    cases ll with
    | nil => exact absurd rfl hl
    | node a b c d e => exact ⟨_, rfl⟩
  obtain ⟨ra, hra⟩ : ∃ ra, lr.rootPtr = some ra := by
    cases lr with
    | nil => exact absurd rfl hr
    | node a b c d e => exact ⟨_, rfl⟩
  have hxs : x ≠ sa := fun hh => xnr (hh ▸ hs)
  have snl : sa ∉ ll.addrs := fun hh => dj sa hh hs
  -- the heap after the entry of the successor has been copied into the node
  have s1 : Shape (h.write x ⟨sn.key, sn.val, ll.rootPtr, lr.rootPtr, px⟩)
      (Tree.node ll x sn.key sn.val lr) px :=
    ⟨read_write_same _ (read_lt e),
      sl.frame fun b hb => read_write_ne _ (fun hh => xnl (hh ▸ hb)),
      sr.frame fun b hb => read_write_ne _ (fun hh => xnr (hh ▸ hb))⟩
  have h21 : ¬ (Tree.node ll x sn.key sn.val lr).hasTwo sa := by
    simp only [Tree.hasTwo, hxs, ↓reduceIte, not_or]
    exact ⟨fun hh => snl (hasTwo_mem hh), h2⟩
  obtain ⟨h1, he, sh1, fr, len⟩ := eraseNode_splice s1 nd (by simp [Tree.addrs, hs])
    (by simp [Tree.rootPtr, hxs]) h21 fuel root cnt (hroot sa hs)
  refine ⟨h1, ?_, ?_, ?_, ?_⟩
  · rw [hra] at hfm
    show eraseNode (fuel + 1 + 1) _ _ = _
    rw [eraseNode]
    simp only [hla, hra] at he
    simp only [e, hla, hra, hfm, hsn, he]
  · rw [eraseAt_two hl hr hm]
    rw [splice_node_ne hxs, splice_of_not_mem snl] at sh1
    exact sh1
  · intro b hb
    rw [fr b hb]
    exact read_write_ne _ (fun hh => hb (by simp [Tree.addrs, ← hh]))
  · rw [len, length_write]

theorem eraseAt_node_ne {l r : Tree K V} {a x : Nat} {k : K} {v : V} (hne : ¬ a = x) :
    (Tree.node l a k v r).eraseAt x = Tree.node (l.eraseAt x) a k v (r.eraseAt x) := by
  simp only [Tree.eraseAt, hne, ↓reduceIte]

theorem eraseAt_of_not_mem {t : Tree K V} {x : Nat} (hx : x ∉ t.addrs) : t.eraseAt x = t := by
  induction t with
  | nil => rfl
  | node l a k v r ihl ihr =>
    simp only [Tree.addrs, List.mem_append, List.mem_cons, not_or] at hx
    have : ¬ a = x := fun hh => hx.2.1 hh.symm
    rw [eraseAt_node_ne this, ihl hx.1, ihr hx.2.2]

/-- On a node with at most one child, `eraseAt` is `splice`. -/
theorem eraseAt_eq_splice {t : Tree K V} {x : Nat} (h2 : ¬ t.hasTwo x) :
    t.eraseAt x = t.splice x := by
  induction t with
  | nil => rfl
  | node l a k v r ihl ihr =>
    by_cases hax : a = x
    · subst hax
      rcases simple_of_not_hasTwo h2 with rfl | rfl
      · simp [Tree.eraseAt, Tree.splice]
      · cases l <;> simp [Tree.eraseAt, Tree.splice]
    · simp only [Tree.hasTwo, hax, ↓reduceIte, not_or] at h2
      rw [eraseAt_node_ne hax, splice_node_ne hax, ihl h2.1, ihr h2.2]

theorem splice_addrs_sublist (t : Tree K V) (x : Nat) : (t.splice x).addrs.Sublist t.addrs := by
  induction t with
  | nil => exact List.Sublist.refl _
  | node l a k v r ihl ihr =>
    by_cases hax : a = x
    · subst hax
      cases l with
      | nil =>
        simp only [Tree.splice, ↓reduceIte, Tree.addrs, List.nil_append]
        exact List.sublist_cons_self _ _
      | node ll la lk lv lr =>
        cases r with
        | nil =>
          simp only [Tree.splice, ↓reduceIte]
          rw [addrs_node _ Tree.nil]
          exact List.sublist_append_left _ _
        | node rl ra rk rv rr =>
          simp only [Tree.splice, ↓reduceIte]
          exact List.Sublist.refl _
    · rw [splice_node_ne hax, addrs_node, addrs_node]
      exact ihl.append (ihr.cons₂ a)

theorem eraseAt_addrs_sublist (t : Tree K V) (x : Nat) :
    (t.eraseAt x).addrs.Sublist t.addrs := by
  induction t with
  | nil => exact List.Sublist.refl _
  | node l a k v r ihl ihr =>
    by_cases hax : a = x
    · subst hax
      by_cases h2 : (Tree.node l a k v r).hasTwo a
      · simp only [Tree.hasTwo, ↓reduceIte] at h2
        obtain ⟨⟨s, sk, sv⟩, hm⟩ := minNode_of_ne_nil h2.2
        rw [eraseAt_two h2.1 h2.2 hm, addrs_node, addrs_node]
        exact (List.Sublist.refl _).append ((splice_addrs_sublist r s).cons₂ a)
      · rw [eraseAt_eq_splice h2]
        exact splice_addrs_sublist _ _
    · rw [eraseAt_node_ne hax, addrs_node, addrs_node]
      exact ihl.append (ihr.cons₂ a)

/-- Erasing a node with two children anywhere in `t`. -/
theorem eraseNode_two_sub {h : Heap K V} {t : Tree K V} {par : Option Nat} {x : Nat}
    (s : Shape h t par) (nd : t.addrs.Nodup) (h2 : t.hasTwo x) (fuel : Nat)
    (root : Option Nat) (cnt : Nat)
    (hroot : ∀ b, b ∈ t.addrs → t.rootPtr ≠ some b → root ≠ some b) :
    ∃ h1, eraseNode (fuel + 2) ⟨h, root, cnt⟩ x = some ⟨h1, root, (cnt + 1) % SIZE_MOD⟩ ∧
      Shape h1 (t.eraseAt x) par ∧ (t.eraseAt x).rootPtr = t.rootPtr ∧
      (∀ b, b ∉ t.addrs → h1.read b = h.read b) ∧ h1.length = h.length := by
  induction t generalizing par with
  | nil => exact absurd h2 (by simp [Tree.hasTwo])
  | node l a k v r ihl ihr =>
    obtain ⟨ndl, ndr, anl, anr, dj⟩ := nodup_node nd
    have out : ∀ b, b ∉ (Tree.node l a k v r).addrs → b ∉ l.addrs ∧ b ≠ a ∧ b ∉ r.addrs := by
      intro b hb
      simp only [Tree.addrs, List.mem_append, List.mem_cons, not_or] at hb
      exact hb
    by_cases hax : a = x
    · subst hax
      simp only [Tree.hasTwo, ↓reduceIte] at h2
      obtain ⟨h1, he, s1, fr, len⟩ := eraseNode_two s nd h2.1 h2.2 fuel root cnt
        (fun b hb => hroot b (by simp [Tree.addrs, hb])
          (by rw [Tree.rootPtr]; exact fun hh => anr (by
            simp only [Option.some.injEq] at hh; exact hh ▸ hb)))
      refine ⟨h1, he, s1, ?_, fr, len⟩
      obtain ⟨⟨sa, sk, sv⟩, hm⟩ := minNode_of_ne_nil h2.2
      rw [eraseAt_two h2.1 h2.2 hm]; rfl
    · obtain ⟨e, sl, sr⟩ := s
      simp only [Tree.hasTwo, hax, ↓reduceIte] at h2
      rw [eraseAt_node_ne hax]
      rcases h2 with h2 | h2
      · have hx : x ∈ l.addrs := hasTwo_mem h2
        obtain ⟨h1, he, s1, hrp, fr, len⟩ := ihl sl ndl h2
          (fun b hb _ => hroot b (by simp [Tree.addrs, hb])
            (by rw [Tree.rootPtr]; exact fun hh => anl (by
              simp only [Option.some.injEq] at hh; exact hh ▸ hb)))
        rw [eraseAt_of_not_mem (dj x hx)]
        refine ⟨h1, he, ⟨?_, s1, ?_⟩, rfl, ?_, len⟩
        · rw [fr a anl, e, hrp]
        · exact sr.frame fun b hb => fr b (fun hh => dj b hh hb)
        · intro b hb
          exact fr b (out b hb).1
      · have hx : x ∈ r.addrs := hasTwo_mem h2
        obtain ⟨h1, he, s1, hrp, fr, len⟩ := ihr sr ndr h2
          (fun b hb _ => hroot b (by simp [Tree.addrs, hb])
            (by rw [Tree.rootPtr]; exact fun hh => anr (by
              simp only [Option.some.injEq] at hh; exact hh ▸ hb)))
        rw [eraseAt_of_not_mem (fun hh => dj x hh hx)]
        refine ⟨h1, he, ⟨?_, ?_, s1⟩, rfl, ?_, len⟩
        · rw [fr a anr, e, hrp]
        · exact sl.frame fun b hb => fr b (dj b hb)
        · intro b hb
          exact fr b (out b hb).2.2

theorem three_le_size_of_hasTwo {t : Tree K V} {x : Nat} (h2 : t.hasTwo x) : 3 ≤ t.size := by
  induction t with
  | nil => exact absurd h2 (by simp [Tree.hasTwo])
  | node l a k v r ihl ihr =>
    simp only [Tree.size]
    by_cases hax : a = x
    · simp only [Tree.hasTwo, hax, ↓reduceIte] at h2
      have hl : 1 ≤ l.size := by
        cases l with
        | nil => exact absurd rfl h2.1
        | node _ _ _ _ _ => simp only [Tree.size]; omega
      have hr : 1 ≤ r.size := by
        cases r with
        | nil => exact absurd rfl h2.2
        | node _ _ _ _ _ => simp only [Tree.size]; omega
      omega
    · simp only [Tree.hasTwo, hax, ↓reduceIte] at h2
      rcases h2 with h2 | h2
      · have := ihl h2; omega
      · have := ihr h2; omega

/-- `eraseNode` on a node of the tree of a map: the map then holds the tree without that
node; the count is incremented in the two-child case and untouched otherwise. -/
theorem eraseNode_spec {m : Map K V} {t : Tree K V} {x : Nat} (w : m.IsTree t)
    (hx : x ∈ t.addrs) :
    ∃ m1, eraseNode m.heap.length m x = some m1 ∧ m1.IsTree (t.eraseAt x) ∧
      m1.heap.length = m.heap.length ∧
      (t.hasTwo x → m1.node_count = (m.node_count + 1) % SIZE_MOD) ∧
      (¬ t.hasTwo x → m1.node_count = m.node_count) := by
  obtain ⟨hroot, s, nd⟩ := w
  have hsz : t.size ≤ m.heap.length := s.size_le nd
  have nd1 : (t.eraseAt x).addrs.Nodup := (eraseAt_addrs_sublist t x).nodup nd
  obtain ⟨mh, mr, mc⟩ := m
  simp only at hroot s hsz ⊢
  by_cases h2 : t.hasTwo x
  · have h3 := three_le_size_of_hasTwo h2
    obtain ⟨f, hf⟩ : ∃ f, mh.length = f + 2 := ⟨mh.length - 2, by omega⟩
    obtain ⟨h1, he, s1, hrp, _, len⟩ := eraseNode_two_sub s nd h2 f mr mc
      (fun b _ hb => by rw [hroot]; exact hb)
    refine ⟨⟨h1, mr, (mc + 1) % SIZE_MOD⟩, by rw [hf]; exact he, ⟨?_, s1, nd1⟩, len,
      fun _ => rfl, fun hh => absurd h2 hh⟩
    show mr = _
    rw [hrp, hroot]
  · have h1 : 1 ≤ t.size := by
      cases t with
      | nil => simp [Tree.addrs] at hx
      | node _ _ _ _ _ => simp only [Tree.size]; omega
    obtain ⟨f, hf⟩ : ∃ f, mh.length = f + 1 := ⟨mh.length - 1, by omega⟩
    rw [eraseAt_eq_splice h2] at nd1 ⊢
    by_cases hrx : t.rootPtr = some x
    · cases t with
      | nil => simp [Tree.addrs] at hx
      | node ll y xk xv lr =>
        simp only [Tree.rootPtr, Option.some.injEq] at hrx
        subst hrx
        obtain ⟨h1, he, s1, len⟩ := splice_top s nd (simple_of_not_hasTwo h2) f mc
        simp only [Tree.rootPtr] at hroot
        subst hroot
        exact ⟨⟨h1, _, mc⟩, by rw [hf]; exact he, ⟨rfl, s1, nd1⟩, len,
          fun hh => absurd hh h2, fun _ => rfl⟩
    · obtain ⟨h1, he, s1, _, len⟩ := eraseNode_splice s nd hx hrx h2 f mr mc
        (by rw [hroot]; exact hrx)
      refine ⟨⟨h1, mr, mc⟩, by rw [hf]; exact he, ⟨?_, s1, nd1⟩, len,
        fun hh => absurd hh h2, fun _ => rfl⟩
      show mr = _
      rw [rootPtr_splice hrx, hroot]

/-! ## `find` and `erase` on the tree of a map -/

theorem lookup_mem (comp : K → K → Bool) (key : K) {t : Tree K V} {x : Nat}
    (e : t.lookup comp key = some x) : x ∈ t.addrs := by
  induction t with
  | nil => simp [Tree.lookup] at e
  | node l a k v r ihl ihr =>
    simp only [Tree.lookup] at e
    simp only [Tree.addrs, List.mem_append, List.mem_cons]
    by_cases c1 : comp key k = true
    · simp only [c1, ↓reduceIte] at e
      exact Or.inl (ihl e)
    · by_cases c2 : comp k key = true
      · simp only [c1, c2, ↓reduceIte, Bool.false_eq_true] at e
        exact Or.inr (Or.inr (ihr e))
      · simp only [c1, c2, ↓reduceIte, Bool.false_eq_true, Option.some.injEq] at e
        exact Or.inr (Or.inl e.symm)

/-- The node the lookup walk stops at holds the entry `lookupEntry` returns. -/
theorem lookup_read (comp : K → K → Bool) (key : K) {h : Heap K V} {t : Tree K V}
    {par : Option Nat} (s : Shape h t par) :
    (t.lookup comp key = none ∧ t.lookupEntry comp key = none) ∨
      (∃ x n, t.lookup comp key = some x ∧ h.read x = some n ∧
        t.lookupEntry comp key = some (n.key, n.val)) := by
  induction t generalizing par with
  | nil => exact Or.inl ⟨rfl, rfl⟩
  | node l a k v r ihl ihr =>
    obtain ⟨e, sl, sr⟩ := s
    simp only [Tree.lookup, Tree.lookupEntry]
    by_cases c1 : comp key k = true
    · simp only [c1, ↓reduceIte]
      exact ihl sl
    · by_cases c2 : comp k key = true
      · simp only [c1, c2, ↓reduceIte, Bool.false_eq_true]
        exact ihr sr
      · simp only [c1, c2, ↓reduceIte, Bool.false_eq_true]
        exact Or.inr ⟨a, _, rfl, e, rfl⟩

theorem find_eq (comp : K → K → Bool) {m : Map K V} {t : Tree K V} (w : m.IsTree t)
    (key : K) : m.find comp key = some (t.lookup comp key) := by
  have := findLoop_eq comp key w.2.1 w.tree_size_le
  rw [← w.1] at this
  exact this

theorem findEntry_eq (comp : K → K → Bool) {m : Map K V} {t : Tree K V} (w : m.IsTree t)
    (key : K) : m.findEntry comp key = some (t.lookupEntry comp key) := by
  unfold Map.findEntry
  rw [find_eq comp w key]
  rcases lookup_read comp key w.2.1 with ⟨h1, h2⟩ | ⟨x, n, h1, h2, h3⟩
  · rw [h1, h2]
  · rw [h1, h3]
    simp only [h2]

/-- `erase` of an absent key: nothing changes and `0` is returned. -/
theorem erase_absent (comp : K → K → Bool) {m : Map K V} {t : Tree K V} (w : m.IsTree t)
    {key : K} (e : t.lookup comp key = none) : m.erase comp key = some (m, 0) := by
  have hl := eraseLoop_eq comp key w.2.1 w.tree_size_le
  rw [← w.1, e] at hl
  simp only [Map.erase, hl]

/-- `erase` of a present key: the node found is erased, `1` is returned, and the count is
decremented after `eraseNode` has incremented it in the two-child case only. -/
theorem erase_present (comp : K → K → Bool) {m : Map K V} {t : Tree K V} (w : m.IsTree t)
    {key : K} {x : Nat} (e : t.lookup comp key = some x) :
    ∃ m1, m.erase comp key = some (m1, 1) ∧ m1.IsTree (t.eraseAt x) ∧
      m1.heap.length = m.heap.length ∧
      (t.hasTwo x →
        m1.node_count = ((m.node_count + 1) % SIZE_MOD + SIZE_MOD - 1) % SIZE_MOD) ∧
      (¬ t.hasTwo x → m1.node_count = (m.node_count + SIZE_MOD - 1) % SIZE_MOD) := by
  have hl := eraseLoop_eq comp key w.2.1 w.tree_size_le
  rw [← w.1, e] at hl
  obtain ⟨m1, he, w1, len, c2, c1⟩ := eraseNode_spec w (lookup_mem comp key e)
  refine ⟨⟨m1.heap, m1.root, (m1.node_count + SIZE_MOD - 1) % SIZE_MOD⟩, ?_,
    ⟨w1.1, w1.2.1, w1.2.2⟩, len, ?_, ?_⟩
  · simp only [Map.erase, hl, he]
  · intro h2; rw [← c2 h2]
  · intro h2; rw [← c1 h2]

/-! ## The comparator -/

theorem StrictWeak.asymm {comp : K → K → Bool} (sw : StrictWeak comp) {a b : K}
    (h : comp a b = true) : comp b a = false := by
  cases hba : comp b a with
  | false => rfl
  | true =>
    have := sw.trans a b a h hba
    rw [sw.irrefl a] at this
    cases this

theorem Equiv.symm {comp : K → K → Bool} {a b : K} (h : Equiv comp a b) : Equiv comp b a :=
  ⟨h.2, h.1⟩

theorem StrictWeak.equiv_refl {comp : K → K → Bool} (sw : StrictWeak comp) (a : K) :
    Equiv comp a a :=
  ⟨sw.irrefl a, sw.irrefl a⟩

/-- An equivalent key can replace the smaller side of a comparison. -/
theorem StrictWeak.lt_of_equiv_lt {comp : K → K → Bool} (sw : StrictWeak comp) {a b c : K}
    (hab : Equiv comp a b) (hbc : comp b c = true) : comp a c = true := by
  cases hac : comp a c with
  | true => rfl
  | false =>
    exfalso
    cases hca : comp c a with
    | true =>
      have := sw.trans b c a hbc hca
      rw [hab.2] at this
      cases this
    | false =>
      have := sw.equiv_trans b a c hab.symm ⟨hac, hca⟩
      rw [this.1] at hbc
      cases hbc

/-- An equivalent key can replace the larger side of a comparison. -/
theorem StrictWeak.lt_of_lt_equiv {comp : K → K → Bool} (sw : StrictWeak comp) {a b c : K}
    (hab : comp a b = true) (hbc : Equiv comp b c) : comp a c = true := by
  cases hac : comp a c with
  | true => rfl
  | false =>
    exfalso
    cases hca : comp c a with
    | true =>
      have := sw.trans c a b hca hab
      rw [hbc.2] at this
      cases this
    | false =>
      have := sw.equiv_trans a c b ⟨hac, hca⟩ hbc.symm
      rw [this.1] at hab
      cases hab

/-! ## Ordered trees -/

theorem allKeys_iff (p : K → Prop) (t : Tree K V) :
    t.AllKeys p ↔ ∀ e, e ∈ t.entries → p e.1 := by
  induction t with
  | nil => simp [Tree.AllKeys, Tree.entries]
  | node l a k v r ihl ihr =>
    simp only [Tree.AllKeys, Tree.entries, List.mem_append, List.mem_cons, ihl, ihr]
    constructor
    · rintro ⟨h1, h2, h3⟩ e (he | rfl | he)
      · exact h1 e he
      · exact h2
      · exact h3 e he
    · intro h
      exact ⟨fun e he => h e (Or.inl he), h (k, v) (Or.inr (Or.inl rfl)),
        fun e he => h e (Or.inr (Or.inr he))⟩

theorem strictlyIncreasing_keys (comp : K → K → Bool) (t : Tree K V) :
    StrictlyIncreasing comp t.keys ↔
      t.entries.Pairwise (fun e1 e2 => comp e1.1 e2.1 = true) := by
  unfold StrictlyIncreasing Tree.keys
  rw [List.pairwise_map]

theorem sorted_node (comp : K → K → Bool) (l r : Tree K V) (a : Nat) (k : K) (v : V) :
    StrictlyIncreasing comp (Tree.node l a k v r).keys ↔
      StrictlyIncreasing comp l.keys ∧ StrictlyIncreasing comp r.keys ∧
      (∀ e, e ∈ l.entries → comp e.1 k = true) ∧ (∀ e, e ∈ r.entries → comp k e.1 = true) ∧
      (∀ e1, e1 ∈ l.entries → ∀ e2, e2 ∈ r.entries → comp e1.1 e2.1 = true) := by
  simp only [strictlyIncreasing_keys, Tree.entries, List.pairwise_append, List.pairwise_cons,
    List.mem_cons]
  constructor
  · rintro ⟨h1, ⟨h2, h3⟩, h4⟩
    exact ⟨h1, h3, fun e he => h4 e he (k, v) (Or.inl rfl), h2,
      fun e1 he1 e2 he2 => h4 e1 he1 e2 (Or.inr he2)⟩
  · rintro ⟨h1, h2, h3, h4, h5⟩
    refine ⟨h1, ⟨h4, h2⟩, ?_⟩
    rintro e1 he1 e2 (rfl | he2)
    · exact h3 e1 he1
    · exact h5 e1 he1 e2 he2

/-- The node-by-node ordering invariant is the same as a strictly increasing in-order key
sequence. -/
theorem bst_iff_strictlyIncreasing {comp : K → K → Bool} (sw : StrictWeak comp)
    (t : Tree K V) : t.BST comp ↔ StrictlyIncreasing comp t.keys := by
  induction t with
  | nil => simp [Tree.BST, StrictlyIncreasing, Tree.keys, Tree.entries]
  | node l a k v r ihl ihr =>
    rw [sorted_node, Tree.BST, allKeys_iff, allKeys_iff, ihl, ihr]
    constructor
    · rintro ⟨h1, h2, h3, h4⟩
      exact ⟨h3, h4, h1, h2, fun e1 he1 e2 he2 => sw.trans _ _ _ (h1 e1 he1) (h2 e2 he2)⟩
    · rintro ⟨h1, h2, h3, h4, _⟩
      exact ⟨h3, h4, h1, h2⟩

/-! ## Lookup in an ordered tree -/

/-- The entry found by the lookup walk is an entry of the tree with an equivalent key. -/
theorem lookupEntry_sound (comp : K → K → Bool) (key : K) {t : Tree K V} {e : K × V}
    (h : t.lookupEntry comp key = some e) : e ∈ t.entries ∧ Equiv comp key e.1 := by
  induction t with
  | nil => simp [Tree.lookupEntry] at h
  | node l a k v r ihl ihr =>
    simp only [Tree.lookupEntry] at h
    simp only [Tree.entries, List.mem_append, List.mem_cons]
    by_cases c1 : comp key k = true
    · simp only [c1, ↓reduceIte] at h
      exact ⟨Or.inl (ihl h).1, (ihl h).2⟩
    · by_cases c2 : comp k key = true
      · simp only [c1, c2, ↓reduceIte, Bool.false_eq_true] at h
        exact ⟨Or.inr (Or.inr (ihr h).1), (ihr h).2⟩
      · simp only [c1, c2, ↓reduceIte, Bool.false_eq_true, Option.some.injEq] at h
        subst h
        exact ⟨Or.inr (Or.inl rfl), by simpa using c1, by simpa using c2⟩

/-- In an ordered tree the lookup walk finds every entry whose key is equivalent to the
target, wherever it is in the tree. -/
theorem lookupEntry_complete {comp : K → K → Bool} (sw : StrictWeak comp) (key : K)
    {t : Tree K V} (so : StrictlyIncreasing comp t.keys) {e : K × V} (he : e ∈ t.entries)
    (heq : Equiv comp key e.1) : t.lookupEntry comp key = some e := by
  induction t with
  | nil => simp [Tree.entries] at he
  | node l a k v r ihl ihr =>
    obtain ⟨sl, sr, hl, hr, _⟩ := (sorted_node comp l r a k v).mp so
    simp only [Tree.entries, List.mem_append, List.mem_cons] at he
    simp only [Tree.lookupEntry]
    rcases he with he | rfl | he
    · have c1 : comp key k = true := sw.lt_of_equiv_lt heq (hl e he)
      simp only [c1, ↓reduceIte]
      exact ihl sl he
    · simp only [heq.1, heq.2, Bool.false_eq_true, ↓reduceIte]
    · have c2 : comp k key = true := sw.lt_of_lt_equiv (hr e he) heq.symm
      have c1 : comp key k = false := sw.asymm c2
      simp only [c1, c2, Bool.false_eq_true, ↓reduceIte]
      exact ihr sr he

theorem lookupEntry_none_iff {comp : K → K → Bool} (sw : StrictWeak comp) (key : K)
    {t : Tree K V} (so : StrictlyIncreasing comp t.keys) :
    t.lookupEntry comp key = none ↔ ∀ e, e ∈ t.entries → ¬ Equiv comp key e.1 := by
  constructor
  · intro h e he heq
    rw [lookupEntry_complete sw key so he heq] at h
    cases h
  · intro h
    cases hl : t.lookupEntry comp key with
    | none => rfl
    | some e => exact absurd (lookupEntry_sound comp key hl).2 (h e (lookupEntry_sound comp key hl).1)

theorem lookup_none_iff (comp : K → K → Bool) (key : K) (t : Tree K V) :
    t.lookup comp key = none ↔ t.lookupEntry comp key = none := by
  induction t with
  | nil => simp [Tree.lookup, Tree.lookupEntry]
  | node l a k v r ihl ihr =>
    simp only [Tree.lookup, Tree.lookupEntry]
    by_cases c1 : comp key k = true
    · simp only [c1, ↓reduceIte]; exact ihl
    · by_cases c2 : comp k key = true
      · simp only [c1, c2, ↓reduceIte, Bool.false_eq_true]; exact ihr
      · simp only [c1, c2, ↓reduceIte, Bool.false_eq_true]
        exact Iff.intro (fun h => nomatch h) (fun h => nomatch h)

/-! ## The in-order sequence after an insertion -/

/-- Inserting a new key into an ordered tree puts the new entry at its sorted position of the
in-order sequence and moves no other entry. -/
theorem entries_ins {comp : K → K → Bool} (sw : StrictWeak comp) (key : K) (val : V) (a : Nat)
    {t : Tree K V} (so : StrictlyIncreasing comp t.keys) (e : t.lookup comp key = none) :
    ∃ pre post, t.entries = pre ++ post ∧
      (t.ins comp key val a).entries = pre ++ (key, val) :: post ∧
      (∀ x, x ∈ pre → comp x.1 key = true) ∧ (∀ x, x ∈ post → comp key x.1 = true) := by
  induction t with
  | nil =>
    refine ⟨[], [], rfl, rfl, ?_, ?_⟩ <;> intro x hx <;> cases hx
  | node l b k v r ihl ihr =>
    obtain ⟨sl, sr, hl, hr, _⟩ := (sorted_node comp l r b k v).mp so
    simp only [Tree.lookup] at e
    simp only [Tree.ins]
    by_cases c1 : comp key k = true
    · simp only [c1, ↓reduceIte] at e ⊢
      obtain ⟨pre, post, h1, h2, h3, h4⟩ := ihl sl e
      refine ⟨pre, post ++ (k, v) :: r.entries, ?_, ?_, h3, ?_⟩
      · rw [entries_node, h1, List.append_assoc]
      · rw [entries_node, h2]; simp
      · intro x hx
        simp only [List.mem_append, List.mem_cons] at hx
        rcases hx with hx | rfl | hx
        · exact h4 x hx
        · exact c1
        · exact sw.trans _ _ _ c1 (hr x hx)
    · by_cases c2 : comp k key = true
      · simp only [c1, c2, ↓reduceIte, Bool.false_eq_true] at e ⊢
        obtain ⟨pre, post, h1, h2, h3, h4⟩ := ihr sr e
        refine ⟨l.entries ++ (k, v) :: pre, post, ?_, ?_, ?_, h4⟩
        · rw [entries_node, h1]; simp
        · rw [entries_node, h2]; simp
        · intro x hx
          simp only [List.mem_append, List.mem_cons] at hx
          rcases hx with hx | rfl | hx
          · exact sw.trans _ _ _ (hl x hx) c2
          · exact c2
          · exact h3 x hx
      · simp only [c1, c2, ↓reduceIte, Bool.false_eq_true] at e
        cases e

/-- Insertion keeps the in-order key sequence strictly increasing. -/
theorem strictlyIncreasing_ins {comp : K → K → Bool} (sw : StrictWeak comp) (key : K) (val : V)
    (a : Nat) {t : Tree K V} (so : StrictlyIncreasing comp t.keys) :
    StrictlyIncreasing comp (t.ins comp key val a).keys := by
  cases e : t.lookup comp key with
  | some c => rw [ins_of_lookup_some comp key val a e]; exact so
  | none =>
    obtain ⟨pre, post, h1, h2, h3, h4⟩ := entries_ins sw key val a so e
    rw [strictlyIncreasing_keys] at so ⊢
    rw [h1, List.pairwise_append] at so
    rw [h2, List.pairwise_append, List.pairwise_cons]
    refine ⟨so.1, ⟨fun x hx => h4 x hx, so.2.1⟩, ?_⟩
    intro x hx y hy
    simp only [List.mem_cons] at hy
    rcases hy with rfl | hy
    · exact h3 x hx
    · exact so.2.2 x hx y hy

/-! ## The in-order sequence after an erase -/

theorem minNode_entries {t : Tree K V} {s : Nat} {sk : K} {sv : V} (nd : t.addrs.Nodup)
    (hm : t.minNode = some (s, sk, sv)) :
    s ∈ t.addrs ∧ t.entries = (sk, sv) :: (t.splice s).entries := by
  induction t with
  | nil => simp [Tree.minNode] at hm
  | node l a k v r ihl _ =>
    obtain ⟨ndl, _, anl, _, dj⟩ := nodup_node nd
    cases l with
    | nil =>
      simp only [Tree.minNode, Option.some.injEq, Prod.mk.injEq] at hm
      obtain ⟨rfl, rfl, rfl⟩ := hm
      exact ⟨by simp [Tree.addrs], by simp [Tree.entries, Tree.splice]⟩
    | node ll la lk lv lr =>
      simp only [Tree.minNode] at hm
      obtain ⟨hs, he⟩ := ihl ndl hm
      have hsa : ¬ a = s := fun hh => anl (hh ▸ hs)
      refine ⟨by rw [addrs_node]; exact List.mem_append_left _ hs, ?_⟩
      rw [splice_node_ne hsa, splice_of_not_mem (dj s hs)]
      show (Tree.node ll la lk lv lr).entries ++ (k, v) :: r.entries =
        (sk, sv) :: ((Tree.splice s (Tree.node ll la lk lv lr)).entries ++ (k, v) :: r.entries)
      rw [he]; rfl

/-- Erasing the node the lookup walk stops at removes exactly that node's entry from the
in-order sequence (also in the two-child case, where the successor's entry is moved). -/
theorem entries_eraseAt (comp : K → K → Bool) (key : K) {t : Tree K V} (nd : t.addrs.Nodup)
    {x : Nat} (e : t.lookup comp key = some x) :
    ∃ pre en post, t.lookupEntry comp key = some en ∧ t.entries = pre ++ en :: post ∧
      (t.eraseAt x).entries = pre ++ post := by
  induction t with
  | nil => simp [Tree.lookup] at e
  | node l a k v r ihl ihr =>
    obtain ⟨ndl, ndr, anl, anr, dj⟩ := nodup_node nd
    simp only [Tree.lookup] at e
    simp only [Tree.lookupEntry]
    by_cases c1 : comp key k = true
    · simp only [c1, ↓reduceIte] at e ⊢
      have hx := lookup_mem comp key e
      have hax : ¬ a = x := fun hh => anl (hh ▸ hx)
      obtain ⟨pre, en, post, h1, h2, h3⟩ := ihl ndl e
      refine ⟨pre, en, post ++ (k, v) :: r.entries, h1, ?_, ?_⟩
      · rw [entries_node, h2]; simp
      · rw [eraseAt_node_ne hax, eraseAt_of_not_mem (dj x hx), entries_node, h3]; simp
    · by_cases c2 : comp k key = true
      · simp only [c1, c2, ↓reduceIte, Bool.false_eq_true] at e ⊢
        have hx := lookup_mem comp key e
        have hax : ¬ a = x := fun hh => anr (hh ▸ hx)
        obtain ⟨pre, en, post, h1, h2, h3⟩ := ihr ndr e
        refine ⟨l.entries ++ (k, v) :: pre, en, post, h1, ?_, ?_⟩
        · rw [entries_node, h2]; simp
        · rw [eraseAt_node_ne hax, eraseAt_of_not_mem (fun hh => dj x hh hx), entries_node, h3]
          simp
      · simp only [c1, c2, ↓reduceIte, Bool.false_eq_true, Option.some.injEq] at e ⊢
        subst e
        refine ⟨l.entries, (k, v), r.entries, rfl, rfl, ?_⟩
        by_cases h2 : (Tree.node l a k v r).hasTwo a
        · simp only [Tree.hasTwo, ↓reduceIte] at h2
          obtain ⟨⟨s, sk, sv⟩, hm⟩ := minNode_of_ne_nil h2.2
          rw [eraseAt_two h2.1 h2.2 hm, entries_node, ← (minNode_entries ndr hm).2]
        · rw [eraseAt_eq_splice h2]
          rcases @splice_root K V l r a k v (simple_of_not_hasTwo h2) with
            ⟨hc, hnil⟩ | ⟨hc, hnil⟩
          · rw [hc, hnil]; rfl
          · rw [hc, hnil]; simp [Tree.entries]

/-- Erasing a node keeps the in-order key sequence strictly increasing. -/
theorem strictlyIncreasing_eraseAt (comp : K → K → Bool) (key : K) {t : Tree K V}
    (nd : t.addrs.Nodup) {x : Nat} (e : t.lookup comp key = some x)
    (so : StrictlyIncreasing comp t.keys) : StrictlyIncreasing comp (t.eraseAt x).keys := by
  obtain ⟨pre, en, post, _, h2, h3⟩ := entries_eraseAt comp key nd e
  rw [strictlyIncreasing_keys] at so ⊢
  rw [h2] at so
  rw [h3]
  exact so.sublist (List.Sublist.append (List.Sublist.refl pre) (List.sublist_cons_self en post))

/-! ## Iteration -/

theorem succIn_append_left {l1 : List Nat} {x : Nat} (hx : x ∈ l1) (l2 : List Nat)
    (d : Option Nat) : succIn (l1 ++ l2) x d = succIn l1 x (headOr l2 d) := by
  induction l1 with
  | nil => cases hx
  | cons y ys ih =>
    simp only [List.cons_append, succIn]
    by_cases hyx : y = x
    · simp only [hyx, ↓reduceIte]
      cases ys <;> rfl
    · simp only [hyx, ↓reduceIte]
      rcases List.mem_cons.mp hx with rfl | hx1
      · exact absurd rfl hyx
      · exact ih hx1

theorem succIn_append_right {l1 : List Nat} {x : Nat} (hx : x ∉ l1) (l2 : List Nat)
    (d : Option Nat) : succIn (l1 ++ l2) x d = succIn l2 x d := by
  induction l1 with
  | nil => rfl
  | cons y ys ih =>
    simp only [List.mem_cons, not_or] at hx
    have hyx : ¬ y = x := fun hh => hx.1 hh.symm
    simp only [List.cons_append, succIn, hyx, ↓reduceIte]
    exact ih hx.2

theorem addrs_eq_cells (t : Tree K V) : t.addrs = t.cells.map (fun c => c.1) := by
  induction t with
  | nil => rfl
  | node l a k v r ihl ihr => simp [Tree.addrs, Tree.cells, ihl, ihr]

theorem entries_eq_cells (t : Tree K V) : t.entries = t.cells.map (fun c => c.2) := by
  induction t with
  | nil => rfl
  | node l a k v r ihl ihr => simp [Tree.entries, Tree.cells, ihl, ihr]

theorem Shape.read_cell {h : Heap K V} {t : Tree K V} {par : Option Nat} (s : Shape h t par) :
    ∀ c, c ∈ t.cells → ∃ n, h.read c.1 = some n ∧ n.key = c.2.1 ∧ n.val = c.2.2 := by
  induction t generalizing par with
  | nil => intro c hc; cases hc
  | node l a k v r ihl ihr =>
    obtain ⟨e, sl, sr⟩ := s
    intro c hc
    simp only [Tree.cells, List.mem_append, List.mem_cons] at hc
    rcases hc with hc | rfl | hc
    · exact ihl sl c hc
    · exact ⟨_, e, rfl, rfl⟩
    · exact ihr sr c hc

theorem minNode_eq_headOr (t : Tree K V) (d : Option Nat) (hne : t ≠ Tree.nil) :
    t.minNode.map (fun x => x.1) = headOr t.addrs d := by
  induction t with
  | nil => exact absurd rfl hne
  | node l a k v r ihl _ =>
    cases l with
    | nil => rfl
    | node ll la lk lv lr =>
      have ih := ihl (by simp)
      show (Tree.node ll la lk lv lr).minNode.map _ =
        headOr ((Tree.node ll la lk lv lr).addrs ++ a :: r.addrs) d
      rw [ih]
      have hne1 : (Tree.node ll la lk lv lr).addrs ≠ [] := by simp [Tree.addrs]
      cases hxs : (Tree.node ll la lk lv lr).addrs with
      | nil => exact absurd hxs hne1
      | cons y ys => rfl

/-- The successor of every node of a subtree, given where the climb out of the subtree
ends. -/
theorem findSuccessor_sub {h : Heap K V} {t : Tree K V} {par : Option Nat}
    (s : Shape h t par) (nd : t.addrs.Nodup) (up : Option Nat) (f0 : Nat)
    (hC : ∀ f ra, f0 ≤ f → t.rootPtr = some ra → climbLoop h f ra par = some up) :
    ∀ x, x ∈ t.addrs → ∀ f, f0 + t.size ≤ f →
      findSuccessor h f (some x) = some (succIn t.addrs x up) := by
  induction t generalizing par up f0 with
  | nil => intro x hx; cases hx
  | node l a k v r ihl ihr =>
    obtain ⟨ndl, ndr, anl, anr, dj⟩ := nodup_node nd
    obtain ⟨e, sl, sr⟩ := s
    intro x hx f hf
    simp only [Tree.size] at hf
    simp only [Tree.addrs, List.mem_append, List.mem_cons] at hx
    rw [addrs_node]
    rcases hx with hx | rfl | hx
    · rw [succIn_append_left hx]
      refine ihl sl ndl (some a) 1 ?_ x hx f (by omega)
      intro f1 ra hf1 hra
      obtain ⟨f2, rfl⟩ : ∃ f2, f1 = f2 + 1 := ⟨f1 - 1, by omega⟩
      have hne : ¬ some ra = r.rootPtr := fun hh =>
        dj ra (rootPtr_mem_addrs hra) (rootPtr_mem_addrs hh.symm)
      simp only [climbLoop, e, hne, ↓reduceIte]
    · rw [succIn_append_right anl]
      simp only [succIn, ↓reduceIte]
      cases r with
      | nil =>
        simp only [findSuccessor, e, Tree.rootPtr]
        exact hC f x (by omega) rfl
      | node rl ra rk rv rr =>
        have hfm := @findMin_eq _ _ _ _ _ sr f (by simp only [Tree.size] at hf ⊢; omega)
        rw [minNode_eq_headOr _ up (by simp)] at hfm
        simp only [findSuccessor, e]
        exact hfm
    · have hax : ¬ a = x := fun hh => anr (hh ▸ hx)
      have xnl : x ∉ l.addrs := fun hh => dj x hh hx
      rw [succIn_append_right xnl]
      simp only [succIn, hax, ↓reduceIte]
      refine ihr sr ndr up (f0 + 1) ?_ x hx f (by omega)
      intro f1 ra hf1 hra
      obtain ⟨f2, rfl⟩ : ∃ f2, f1 = f2 + 1 := ⟨f1 - 1, by omega⟩
      simp only [climbLoop, e, hra, ↓reduceIte]
      exact hC f2 a (by omega) rfl

/-- `operator++` on the tree of a map: the next node in in-order, or `end()`. -/
theorem next_eq {m : Map K V} {t : Tree K V} (w : m.IsTree t) {x : Nat} (hx : x ∈ t.addrs) :
    m.next (some x) = some (succIn t.addrs x none) := by
  refine findSuccessor_sub w.2.1 w.2.2 none 0 ?_ x hx m.heap.length (by
    have := w.tree_size_le; omega)
  intro f ra _ _
  cases f <;> rfl

/-- `begin()` on the tree of a map: the first node in in-order, or `end()`. -/
theorem begin_eq {m : Map K V} {t : Tree K V} (w : m.IsTree t) :
    m.begin_ = some (headOr t.addrs none) := by
  have := findMin_eq w.2.1 w.tree_size_le
  rw [← w.1] at this
  unfold Map.begin_
  rw [this]
  cases t with
  | nil => rfl
  | node l a k v r => rw [minNode_eq_headOr _ none (by simp)]

theorem iterateFrom_eq {m : Map K V} {t : Tree K V} (w : m.IsTree t) :
    ∀ (suf pre : List (Nat × K × V)), t.cells = pre ++ suf → ∀ f, suf.length ≤ f →
      iterateFrom m f (headOr (suf.map (fun c => c.1)) none) =
        some (suf.map (fun c => c.2)) := by
  intro suf
  induction suf with
  | nil => intro pre _ f _; cases f <;> rfl
  | cons c rest ih =>
    intro pre hc f hf
    simp only [List.length_cons] at hf
    obtain ⟨f1, rfl⟩ : ∃ f1, f = f1 + 1 := ⟨f - 1, by omega⟩
    have hcm : c ∈ t.cells := by rw [hc]; simp
    obtain ⟨n, hn, hk, hv⟩ := w.2.1.read_cell c hcm
    have had : t.addrs = pre.map (fun c => c.1) ++ c.1 :: rest.map (fun c => c.1) := by
      rw [addrs_eq_cells, hc]; simp
    have hcx : c.1 ∈ t.addrs := by rw [had]; simp
    have hnp : c.1 ∉ pre.map (fun c => c.1) := by
      have nd := w.2.2
      rw [had] at nd
      exact fun hh => (List.nodup_append.mp nd).2.2 hh (by simp)
    have hnext : m.next (some c.1) = some (headOr (rest.map (fun c => c.1)) none) := by
      rw [next_eq w hcx, had, succIn_append_right hnp]
      simp only [succIn, ↓reduceIte]
    have ih1 := ih (pre ++ [c]) (by rw [hc]; simp) f1 (by omega)
    show iterateFrom m (f1 + 1) (some c.1) = _
    simp only [List.map_cons, iterateFrom, hn, hnext, ih1, hk, hv]

/-- A full traversal visits the entries of the tree in in-order. -/
theorem traverse_eq {m : Map K V} {t : Tree K V} (w : m.IsTree t) :
    m.traverse = some t.entries := by
  unfold Map.traverse
  rw [begin_eq w]
  have := iterateFrom_eq w t.cells [] rfl m.heap.length (by
    have h1 := w.tree_size_le
    rw [size_eq_length_addrs, addrs_eq_cells, List.length_map] at h1
    exact h1)
  rw [← addrs_eq_cells, ← entries_eq_cells] at this
  exact this

/-! ## `operator[]` -/

/-- `operator[]` on a key the lookup walk finds: the node found, the map unchanged. -/
theorem index_present [Inhabited V] (comp : K → K → Bool) {m : Map K V} {t : Tree K V}
    (w : m.IsTree t) {key : K} {a : Nat} (e : t.lookup comp key = some a) :
    m.index comp id key = some (m, a) := by
  obtain ⟨n, hn⟩ := w.2.1.live a (lookup_mem comp key e)
  simp only [Map.index, find_eq comp w key, e, hn]

/-- `operator[]` on a key the lookup walk does not find: `insert(key, Value())`. -/
theorem index_absent [Inhabited V] (comp : K → K → Bool) {m : Map K V} {t : Tree K V}
    (w : m.IsTree t) {key : K} (e : t.lookup comp key = none) :
    ∃ m1 n, m.index comp id key = some (m1, m.heap.length) ∧
      m.insert comp id key default = some (m1, some m.heap.length, true) ∧
      m1.IsTree (t.ins comp key default m.heap.length) ∧
      m1.heap.read m.heap.length = some n ∧ n.key = key ∧ n.val = default := by
  obtain ⟨m1, hi, w1, _, _, _, n, hn, hk, hv⟩ :=
    insertInternal_absent comp w (key, (default : V)) e
  refine ⟨m1, n, ?_, hi, w1, hn, hk, hv⟩
  have hi1 : m.insert comp id key default = some (m1, some m.heap.length, true) := hi
  simp only [Map.index, find_eq comp w key, e, hi1, hn]

/-! ## Reachable maps -/

theorem isTree_empty : (Map.empty : Map K V).IsTree Tree.nil :=
  ⟨rfl, trivial, List.nodup_nil⟩

/-- Every operation keeps the map a tree with a strictly increasing in-order key sequence. -/
theorem insert_inv {comp : K → K → Bool} (sw : StrictWeak comp) {m m1 : Map K V}
    {t : Tree K V} (w : m.IsTree t) (so : StrictlyIncreasing comp t.keys) {key : K} {value : V}
    {it : Iterator} {b : Bool} (h : m.insert comp id key value = some (m1, it, b)) :
    ∃ t1, m1.IsTree t1 ∧ StrictlyIncreasing comp t1.keys := by
  cases e : t.lookup comp key with
  | some c =>
    have := insertInternal_found comp w (key, value) e
    rw [Map.insert, this] at h
    simp only [Option.some.injEq, Prod.mk.injEq] at h
    rw [← h.1]
    exact ⟨t, w, so⟩
  | none =>
    obtain ⟨m2, hi, w2, _⟩ := insertInternal_absent comp w (key, value) e
    rw [Map.insert, hi] at h
    simp only [Option.some.injEq, Prod.mk.injEq] at h
    rw [← h.1]
    exact ⟨_, w2, strictlyIncreasing_ins sw key value _ so⟩

theorem erase_inv {comp : K → K → Bool} {m m1 : Map K V}
    {t : Tree K V} (w : m.IsTree t) (so : StrictlyIncreasing comp t.keys) {key : K}
    {n : Nat} (h : m.erase comp key = some (m1, n)) :
    ∃ t1, m1.IsTree t1 ∧ StrictlyIncreasing comp t1.keys := by
  cases e : t.lookup comp key with
  | none =>
    rw [erase_absent comp w e] at h
    simp only [Option.some.injEq, Prod.mk.injEq] at h
    rw [← h.1]
    exact ⟨t, w, so⟩
  | some x =>
    obtain ⟨m2, he, w2, _⟩ := erase_present comp w e
    rw [he] at h
    simp only [Option.some.injEq, Prod.mk.injEq] at h
    rw [← h.1]
    exact ⟨_, w2, strictlyIncreasing_eraseAt comp key w.2.2 e so⟩

theorem index_inv [Inhabited V] {comp : K → K → Bool} (sw : StrictWeak comp) {m m1 : Map K V}
    {t : Tree K V} (w : m.IsTree t) (so : StrictlyIncreasing comp t.keys) {key : K}
    {a : Nat} (h : m.index comp id key = some (m1, a)) :
    ∃ t1, m1.IsTree t1 ∧ StrictlyIncreasing comp t1.keys := by
  cases e : t.lookup comp key with
  | some c =>
    rw [index_present comp w e] at h
    simp only [Option.some.injEq, Prod.mk.injEq] at h
    rw [← h.1]
    exact ⟨t, w, so⟩
  | none =>
    obtain ⟨m2, n, hi, _, w2, _⟩ := index_absent comp w e
    rw [hi] at h
    simp only [Option.some.injEq, Prod.mk.injEq] at h
    rw [← h.1]
    exact ⟨_, w2, strictlyIncreasing_ins sw key default _ so⟩

/-- Every reachable map is a tree with a strictly increasing in-order key sequence. -/
theorem reachable_inv [Inhabited V] {comp : K → K → Bool} (sw : StrictWeak comp)
    {m : Map K V} (hr : Reachable comp id m) :
    ∃ t, m.IsTree t ∧ StrictlyIncreasing comp t.keys := by
  induction hr with
  | empty => exact ⟨Tree.nil, isTree_empty, List.Pairwise.nil⟩
  | insert _ h ih =>
    obtain ⟨t, w, so⟩ := ih
    exact insert_inv sw w so h
  | index _ h ih =>
    obtain ⟨t, w, so⟩ := ih
    exact index_inv sw w so h
  | erase _ h ih =>
    obtain ⟨t, w, so⟩ := ih
    exact erase_inv w so h

/-- A map reachable by `insert` and `erase` calls is reachable. -/
theorem reachable_of_reachableIE [Inhabited V] {comp : K → K → Bool} {m : Map K V}
    (hr : ReachableIE comp id m) : Reachable comp id m := by
  induction hr with
  | empty => exact Reachable.empty
  | insert _ h ih => exact Reachable.insert ih h
  | erase _ h ih => exact Reachable.erase ih h

/-- On the tree of a map every operation runs to completion: no loop runs out of fuel and no
invalid pointer is dereferenced. -/
theorem isTree_total [Inhabited V] (comp : K → K → Bool) {m : Map K V} {t : Tree K V}
    (w : m.IsTree t) :
    (∀ k v, ∃ r, m.insert comp id k v = some r) ∧ (∀ k, ∃ r, m.index comp id k = some r) ∧
      (∀ k, ∃ r, m.erase comp k = some r) := by
  refine ⟨fun k v => ?_, fun k => ?_, fun k => ?_⟩
  · cases e : t.lookup comp k with
    | some c => exact ⟨_, insertInternal_found comp w (k, v) e⟩
    | none =>
      obtain ⟨m1, hi, _⟩ := insertInternal_absent comp w (k, v) e
      exact ⟨_, hi⟩
  · cases e : t.lookup comp k with
    | some c => exact ⟨_, index_present comp w e⟩
    | none =>
      obtain ⟨m1, n, hi, _⟩ := index_absent comp w e
      exact ⟨_, hi⟩
  · cases e : t.lookup comp k with
    | none => exact ⟨_, erase_absent comp w e⟩
    | some x =>
      obtain ⟨m1, he, _⟩ := erase_present comp w e
      exact ⟨_, he⟩

theorem strictWeak_ltInt : StrictWeak ltInt where
  irrefl := fun a => by simp [ltInt]
  trans := fun a b c h1 h2 => by
    simp only [ltInt, decide_eq_true_eq] at h1 h2 ⊢
    omega
  equiv_trans := fun a b c h1 h2 => by
    obtain ⟨h11, h12⟩ := h1
    obtain ⟨h21, h22⟩ := h2
    simp only [ltInt, decide_eq_false_iff_not] at h11 h12 h21 h22
    constructor <;> simp only [ltInt, decide_eq_false_iff_not] <;> omega

theorem isTree_exMap : exMap.IsTree exTree :=
  ⟨rfl, ⟨rfl, ⟨rfl, trivial, trivial⟩, ⟨rfl, trivial, trivial⟩⟩, by decide⟩

theorem bst_exTree : exTree.BST ltInt := by
  simp [exTree, Tree.BST, Tree.AllKeys, ltInt]

theorem reachableIE_exMap : ReachableIE ltInt id exMap := by
  have h1 : (Map.empty : Map Int Nat).insert ltInt id 2 20 =
      some (⟨[some ⟨2, 20, none, none, none⟩], some 0, 1⟩, some 0, true) := by
    with_unfolding_all rfl
  have h2 : (⟨[some ⟨2, 20, none, none, none⟩], some 0, 1⟩ : Map Int Nat).insert ltInt id 1 10 =
      some (⟨[some ⟨2, 20, some 1, none, none⟩, some ⟨1, 10, none, none, some 0⟩], some 0, 2⟩,
        some 1, true) := by
    with_unfolding_all rfl
  have h3 : (⟨[some ⟨2, 20, some 1, none, none⟩, some ⟨1, 10, none, none, some 0⟩], some 0, 2⟩ :
      Map Int Nat).insert ltInt id 3 30 = some (exMap, some 2, true) := by
    with_unfolding_all rfl
  exact ReachableIE.insert (ReachableIE.insert (ReachableIE.insert ReachableIE.empty h1) h2) h3

theorem reachable_exMap : Reachable ltInt id exMap :=
  reachable_of_reachableIE reachableIE_exMap

/-! ## String keys -/

theorem strLess_irrefl : ∀ a : List Char, strLess a a = false := by
  intro a
  induction a with
  | nil => rfl
  | cons x xs ih => simp [strLess, ih]

theorem strLess_trans : ∀ a b c : List Char, strLess a b = true → strLess b c = true →
    strLess a c = true := by
  intro a
  induction a with
  | nil =>
    intro b c h1 h2
    cases b with
    | nil => simp [strLess] at h1
    | cons y ys =>
      cases c with
      | nil => simp [strLess] at h2
      | cons z zs => rfl
  | cons x xs ih =>
    intro b c h1 h2
    cases b with
    | nil => simp [strLess] at h1
    | cons y ys =>
      cases c with
      | nil => simp [strLess] at h2
      | cons z zs =>
        simp only [strLess] at h1 h2 ⊢
        by_cases xy : x.toNat < y.toNat
        · by_cases yz : y.toNat < z.toNat
          · rw [if_pos (by omega)]
          · rw [if_neg yz] at h2
            by_cases zy : z.toNat < y.toNat
            · rw [if_pos zy] at h2; cases h2
            · rw [if_pos (by omega)]
        · rw [if_neg xy] at h1
          by_cases yx : y.toNat < x.toNat
          · rw [if_pos yx] at h1; cases h1
          · rw [if_neg yx] at h1
            by_cases yz : y.toNat < z.toNat
            · rw [if_pos (by omega)]
            · rw [if_neg yz] at h2
              by_cases zy : z.toNat < y.toNat
              · rw [if_pos zy] at h2; cases h2
              · rw [if_neg zy] at h2
                rw [if_neg (by omega), if_neg (by omega)]
                exact ih ys zs h1 h2

theorem strLess_equiv_iff : ∀ a b : List Char,
    Equiv strLess a b ↔ a.map Char.toNat = b.map Char.toNat := by
  intro a
  induction a with
  | nil =>
    intro b
    cases b with
    | nil => simp [Equiv, strLess]
    | cons y ys => simp [Equiv, strLess]
  | cons x xs ih =>
    intro b
    cases b with
    | nil => simp [Equiv, strLess]
    | cons y ys =>
      have ih1 := ih ys
      simp only [Equiv] at ih1 ⊢
      simp only [strLess, List.map_cons, List.cons.injEq]
      by_cases xy : x.toNat < y.toNat
      · simp only [xy, if_true]
        constructor
        · intro h; cases h.1
        · intro h; omega
      · by_cases yx : y.toNat < x.toNat
        · simp only [xy, yx, if_true, if_false]
          constructor
          · intro h; cases h.2
          · intro h; omega
        · simp only [xy, yx, if_false]
          rw [ih1]
          constructor
          · intro h; exact ⟨by omega, h⟩
          · intro h; exact h.2

theorem strictWeak_strLess : StrictWeak strLess where
  irrefl := strLess_irrefl
  trans := strLess_trans
  equiv_trans := fun a b c h1 h2 => by
    rw [strLess_equiv_iff] at h1 h2 ⊢
    rw [h1, h2]

theorem isTree_strMapAB : strMapAB.IsTree strTreeAB :=
  ⟨rfl, ⟨rfl, ⟨rfl, trivial, trivial⟩, trivial⟩, by decide⟩

theorem reachableIE_strMapABB : ReachableIE strLess movedStr strMapABB := by
  have h1 : (Map.empty : Map (List Char) Nat).insert strLess movedStr ['a'] 0 =
      some (strMapA, some 0, true) := by
    decide
  have h2 : strMapA.insert strLess movedStr ['b'] 0 = some (strMapAB, some 1, true) := by
    with_unfolding_all rfl
  have h3 : strMapAB.insert strLess movedStr ['b'] 0 = some (strMapABB, some 2, true) := by
    with_unfolding_all rfl
  exact ReachableIE.insert (ReachableIE.insert (ReachableIE.insert ReachableIE.empty h1) h2) h3

theorem index_strMapA :
    (Map.empty : Map (List Char) Nat).index strLess movedStr ['a'] = some (strMapA, 0) := by
  decide

theorem index_strMapAB : strMapA.index strLess movedStr ['b'] = some (strMapAB, 1) := by
  with_unfolding_all rfl

theorem index_strMapABB : strMapAB.index strLess movedStr ['b'] = some (strMapABB, 2) := by
  with_unfolding_all rfl

/-! # The claims -/

theorem not_equiv_of_lt {comp : K → K → Bool} {a b : K} (h : comp a b = true) :
    ¬ Equiv comp a b := by
  intro he
  rw [he.1] at h
  cases h

/-- For a key type whose move leaves the key as it was (`moved` is the identity, as for
`int`): every map reachable from the empty map by `insert`, `operator[]` and `erase` calls,
under a strict weak ordering, holds a tree that satisfies the BST ordering invariant node by
node (every key of a left subtree strictly less than the node's key, every key of a right
subtree strictly greater); a full traversal yields the in-order sequence of that tree, its
keys are strictly increasing, and no two entries hold equivalent keys. Every further
`insert`, `operator[]` and `erase` call on such a map runs to completion. -/
theorem reachable_bst_intact [Inhabited V] {comp : K → K → Bool} (sw : StrictWeak comp)
    {m : Map K V} (hr : Reachable comp id m) :
    (∃ t, m.IsTree t ∧ t.BST comp ∧ m.traverse = some t.entries ∧
      StrictlyIncreasing comp t.keys ∧
      t.entries.Pairwise (fun e1 e2 => ¬ Equiv comp e1.1 e2.1)) ∧
    (∀ k v, ∃ r, m.insert comp id k v = some r) ∧ (∀ k, ∃ r, m.index comp id k = some r) ∧
      (∀ k, ∃ r, m.erase comp k = some r) := by
  obtain ⟨t, w, so⟩ := reachable_inv sw hr
  refine ⟨⟨t, w, (bst_iff_strictlyIncreasing sw t).mpr so, traverse_eq w, so, ?_⟩,
    isTree_total comp w⟩
  exact ((strictlyIncreasing_keys comp t).mp so).imp (fun h => not_equiv_of_lt h)

/-- C1, failing input: `Map<std::string, int> m; m["a"]; m["b"];`. The walk of the second call
ends to the right of `"a"`; the key is moved into the new node before the comparison that
picks the side, the moved-from key is empty and less than `"a"`, and the node of `"b"` is
hung to the left. The map is reachable, its tree breaks the ordering invariant, and a full
traversal yields `"b"` before `"a"`. -/
theorem C1_moved_key_order :
    StrictWeak strLess ∧
    (Map.empty : Map (List Char) Nat).index strLess movedStr ['a'] = some (strMapA, 0) ∧
    strMapA.index strLess movedStr ['b'] = some (strMapAB, 1) ∧
    Reachable strLess movedStr strMapAB ∧
    strMapAB.IsTree strTreeAB ∧ ¬ strTreeAB.BST strLess ∧
    strMapAB.traverse = some [(['b'], 0), (['a'], 0)] ∧
    strLess ['a'] ['b'] = true ∧
    ¬ StrictlyIncreasing strLess [['b'], ['a']] := by
  refine ⟨strictWeak_strLess, index_strMapA, index_strMapAB,
    Reachable.index (Reachable.index Reachable.empty index_strMapA) index_strMapAB,
    isTree_strMapAB, ?_, by decide, by decide, ?_⟩
  · intro h
    have := h.1.2.1
    revert this
    decide
  · intro h
    have := List.rel_of_pairwise_cons h (List.mem_singleton.mpr rfl)
    revert this
    decide

/-- The map after `erase(2)` on `exMap`: the root took over the entry `(3, 30)`, the node of
`3` is deleted, and `node_count` is still `3`. -/
theorem erase_exMap :
    exMap.erase ltInt 2 =
      some (⟨[some ⟨3, 30, some 1, none, none⟩, some ⟨1, 10, none, none, some 0⟩, none],
        some 0, 3⟩, 1) := by
  with_unfolding_all rfl

/-- C2, failing input: after `insert(2, 20)`, `insert(1, 10)`, `insert(3, 30)`, `erase(2)` the
map is reachable, a full traversal visits two entries, and `size()` is `3`. -/
theorem C2_size_mismatch :
    ∃ m : Map Int Nat, ReachableIE ltInt id m ∧ m.traverse = some [(1, 10), (3, 30)] ∧
      m.size = 3 :=
  ⟨_, ReachableIE.erase reachableIE_exMap erase_exMap, by with_unfolding_all rfl, rfl⟩

/-- C3, failing input: `erase(2)` on the reachable map with keys `2, 1, 3`, where the node of
`2` has two children, returns `1` and leaves `size()` at `3`. -/
theorem C3_erase_two_children_size :
    ∃ m m1 : Map Int Nat, ReachableIE ltInt id m ∧ m.findEntry ltInt 2 = some (some (2, 20)) ∧
      m.size = 3 ∧ m.erase ltInt 2 = some (m1, 1) ∧ m1.size = 3 :=
  ⟨exMap, _, reachableIE_exMap, by with_unfolding_all rfl, rfl, erase_exMap, rfl⟩

theorem lookup_some_of_entry {comp : K → K → Bool} (sw : StrictWeak comp) {t : Tree K V}
    (so : StrictlyIncreasing comp t.keys) {k : K} {e : K × V} (he : e ∈ t.entries)
    (hk : Equiv comp k e.1) :
    t.lookupEntry comp k = some e ∧ ∃ x, t.lookup comp k = some x := by
  have h1 := lookupEntry_complete sw k so he hk
  refine ⟨h1, ?_⟩
  cases hl : t.lookup comp k with
  | some x => exact ⟨x, rfl⟩
  | none =>
    rw [(lookup_none_iff comp k t).mp hl] at h1
    cases h1

/-- C4: on a map satisfying the BST ordering invariant, `erase(k)` of a present key returns
`1`; afterwards `find(k)` returns `end()`, and every other key `j` that was present is still
found with the entry (key and value) it had before, whatever the number of children of the
erased node. -/
theorem C4_erase_completeness {comp : K → K → Bool} (sw : StrictWeak comp) {m : Map K V}
    {t : Tree K V} (w : m.IsTree t) (bst : t.BST comp) {k : K} {e : K × V}
    (he : e ∈ t.entries) (hk : Equiv comp k e.1) :
    ∃ m1, m.erase comp k = some (m1, 1) ∧ m1.find comp k = some m1.end_ ∧
      ∀ j ej, ej ∈ t.entries → Equiv comp j ej.1 → ¬ Equiv comp j k →
        m1.findEntry comp j = some (some ej) := by
  have so := (bst_iff_strictlyIncreasing sw t).mp bst
  obtain ⟨hle, x, hx⟩ := lookup_some_of_entry sw so he hk
  obtain ⟨m1, hm1, w1, _⟩ := erase_present comp w hx
  obtain ⟨pre, en, post, h1, h2, h3⟩ := entries_eraseAt comp k w.2.2 hx
  rw [hle] at h1
  simp only [Option.some.injEq] at h1
  subst h1
  have so1 := strictlyIncreasing_eraseAt comp k w.2.2 hx so
  have sp := (strictlyIncreasing_keys comp t).mp so
  rw [h2, List.pairwise_append, List.pairwise_cons] at sp
  refine ⟨m1, hm1, ?_, ?_⟩
  · rw [find_eq comp w1 k]
    show some _ = some none
    rw [(lookup_none_iff comp k _).mpr]
    rw [lookupEntry_none_iff sw k so1, h3]
    intro e1 he1 heq
    rcases List.mem_append.mp he1 with hp | hp
    · have := sp.2.2 e1 hp e (by simp)
      exact not_equiv_of_lt this (sw.equiv_trans _ _ _ heq.symm hk)
    · have := sp.2.1.1 e1 hp
      exact not_equiv_of_lt this (sw.equiv_trans _ _ _ hk.symm heq)
  · intro j ej hej hj hjk
    rw [findEntry_eq comp w1 j]
    have hmem : ej ∈ (t.eraseAt x).entries := by
      rw [h3]
      rw [h2] at hej
      simp only [List.mem_append, List.mem_cons] at hej ⊢
      rcases hej with hp | rfl | hp
      · exact Or.inl hp
      · exact absurd (sw.equiv_trans _ _ _ hj hk.symm) hjk
      · exact Or.inr hp
    rw [lookupEntry_complete sw j so1 hmem hj]

/-- C4 at `erase(2)` on the map with keys `2, 1, 3` (the two-child case). -/
theorem C4_erase_completeness_witness :
    StrictWeak ltInt ∧ exMap.IsTree exTree ∧ exTree.BST ltInt ∧
      ((2 : Int), (20 : Nat)) ∈ exTree.entries ∧ Equiv ltInt 2 ((2 : Int), (20 : Nat)).1 ∧
      ∃ m1, exMap.erase ltInt 2 = some (m1, 1) ∧ m1.find ltInt 2 = some m1.end_ ∧
        ∀ j ej, ej ∈ exTree.entries → Equiv ltInt j ej.1 → ¬ Equiv ltInt j 2 →
          m1.findEntry ltInt j = some (some ej) :=
  ⟨strictWeak_ltInt, isTree_exMap, bst_exTree, by simp [exTree, Tree.entries],
    strictWeak_ltInt.equiv_refl 2,
    C4_erase_completeness strictWeak_ltInt isTree_exMap bst_exTree
      (show ((2 : Int), (20 : Nat)) ∈ exTree.entries by simp [exTree, Tree.entries])
      (strictWeak_ltInt.equiv_refl 2)⟩

/-- `erase` from the results of its loop and of `eraseNode`. -/
theorem erase_of_eraseNode (comp : K → K → Bool) {m m1 : Map K V} {key : K} {c n : Nat}
    (hl : eraseLoop comp m.heap key m.heap.length m.root = some (some c))
    (hn : eraseNode m.heap.length m c = some m1)
    (hc : (m1.node_count + SIZE_MOD - 1) % SIZE_MOD = n) :
    m.erase comp key = some (⟨m1.heap, m1.root, n⟩, 1) := by
  simp only [Map.erase, hl, hn, hc]

/-- C5: inserting the keys `5, 3, 8, 1, 4, 7, 9` in that order, with any values, into the
empty `Map<int, V>` and iterating yields the keys `1, 3, 4, 5, 7, 8, 9` with their values;
the node of `5` is the root and has two children, the leftmost node of its right subtree
holds `7`; `erase(5)` returns `1` and iterating then yields `1, 3, 4, 7, 8, 9`, each key with
the value inserted for it. -/
theorem C5_round_trip {V : Type} (v5 v3 v8 v1 v4 v7 v9 : V) :
    Map.ofList ltInt [(5, v5), (3, v3), (8, v8), (1, v1), (4, v4), (7, v7), (9, v9)] =
        some (roundTripMap v5 v3 v8 v1 v4 v7 v9) ∧
      (roundTripMap v5 v3 v8 v1 v4 v7 v9).traverse =
        some [(1, v1), (3, v3), (4, v4), (5, v5), (7, v7), (8, v8), (9, v9)] ∧
      (roundTripMap v5 v3 v8 v1 v4 v7 v9).find ltInt 5 = some (some 0) ∧
      (roundTripMap v5 v3 v8 v1 v4 v7 v9).heap.read 0 = some ⟨5, v5, some 1, some 2, none⟩ ∧
      findMin (roundTripMap v5 v3 v8 v1 v4 v7 v9).heap 7 (some 2) = some (some 5) ∧
      (roundTripMap v5 v3 v8 v1 v4 v7 v9).heap.read 5 = some ⟨7, v7, none, none, some 2⟩ ∧
      (roundTripMap v5 v3 v8 v1 v4 v7 v9).erase ltInt 5 =
        some (roundTripErased v3 v8 v1 v4 v7 v9, 1) ∧
      (roundTripErased v3 v8 v1 v4 v7 v9).traverse =
        some [(1, v1), (3, v3), (4, v4), (7, v7), (8, v8), (9, v9)] := by
  refine ⟨?_, ?_, ?_, rfl, ?_, rfl, ?_, ?_⟩
  · with_unfolding_all rfl
  · with_unfolding_all rfl
  · with_unfolding_all rfl
  · with_unfolding_all rfl
  · have hl : eraseLoop ltInt (roundTripMap v5 v3 v8 v1 v4 v7 v9).heap 5
        (roundTripMap v5 v3 v8 v1 v4 v7 v9).heap.length
        (roundTripMap v5 v3 v8 v1 v4 v7 v9).root = some (some 0) := by
      with_unfolding_all rfl
    have hn : eraseNode (roundTripMap v5 v3 v8 v1 v4 v7 v9).heap.length
        (roundTripMap v5 v3 v8 v1 v4 v7 v9) 0 =
        some ⟨(roundTripErased v3 v8 v1 v4 v7 v9).heap, some 0, 8⟩ := by
      with_unfolding_all rfl
    have hc : (8 + SIZE_MOD - 1) % SIZE_MOD = 7 := by unfold SIZE_MOD; rfl
    exact erase_of_eraseNode ltInt hl hn hc
  · with_unfolding_all rfl

/-- C6: on a map satisfying the BST ordering invariant under a strict weak ordering,
`find(k)` returns an iterator to the entry whose key is equivalent to `k` when such an entry
exists anywhere in the tree, and `count(k)` is `1`; otherwise `find(k)` returns `end()` and
`count(k)` is `0`. -/
theorem C6_find_spec {comp : K → K → Bool} (sw : StrictWeak comp) {m : Map K V}
    {t : Tree K V} (w : m.IsTree t) (bst : t.BST comp) (k : K) :
    (∀ e, e ∈ t.entries → Equiv comp k e.1 →
      ∃ a n, m.find comp k = some (some a) ∧ m.heap.read a = some n ∧ (n.key, n.val) = e ∧
        m.count comp k = some 1) ∧
    ((∀ e, e ∈ t.entries → ¬ Equiv comp k e.1) →
      m.find comp k = some m.end_ ∧ m.count comp k = some 0) := by
  have so := (bst_iff_strictlyIncreasing sw t).mp bst
  constructor
  · intro e he hk
    have hle := lookupEntry_complete sw k so he hk
    rcases lookup_read comp k w.2.1 with ⟨_, h2⟩ | ⟨x, n, h1, h2, h3⟩
    · rw [h2] at hle; cases hle
    · rw [hle] at h3
      simp only [Option.some.injEq] at h3
      refine ⟨x, n, ?_, h2, h3.symm, ?_⟩
      · rw [find_eq comp w k, h1]
      · simp [Map.count, find_eq comp w k, h1, Map.end_]
  · intro habs
    have h1 := (lookup_none_iff comp k t).mpr ((lookupEntry_none_iff sw k so).mpr habs)
    constructor
    · rw [find_eq comp w k, h1]; rfl
    · simp [Map.count, find_eq comp w k, h1, Map.end_]

/-- C6 at the key `3` of the map with keys `2, 1, 3`. -/
theorem C6_find_spec_witness :
    StrictWeak ltInt ∧ exMap.IsTree exTree ∧ exTree.BST ltInt ∧
      ((∀ e, e ∈ exTree.entries → Equiv ltInt 3 e.1 →
        ∃ a n, exMap.find ltInt 3 = some (some a) ∧ exMap.heap.read a = some n ∧
          (n.key, n.val) = e ∧ exMap.count ltInt 3 = some 1) ∧
      ((∀ e, e ∈ exTree.entries → ¬ Equiv ltInt 3 e.1) →
        exMap.find ltInt 3 = some exMap.end_ ∧ exMap.count ltInt 3 = some 0)) :=
  ⟨strictWeak_ltInt, isTree_exMap, bst_exTree,
    C6_find_spec strictWeak_ltInt isTree_exMap bst_exTree 3⟩

/-- For a key type whose move leaves the key as it was (`moved` is the identity, as for
`int`): on a map satisfying the BST ordering invariant, `insert(k, v)` of a key that is not
present returns an iterator to a node holding `(k, v)` and `true`; afterwards `find(k)`
yields `(k, v)`, every key present before is found with its unchanged entry, and a full
traversal yields the old sequence with `(k, v)` inserted at its sorted position. -/
theorem insert_new_intact {comp : K → K → Bool} (sw : StrictWeak comp) {m : Map K V}
    {t : Tree K V} (w : m.IsTree t) (bst : t.BST comp) {k : K}
    (habs : ∀ e, e ∈ t.entries → ¬ Equiv comp k e.1) (v : V) :
    ∃ m1 a n, m.insert comp id k v = some (m1, some a, true) ∧
      m1.heap.read a = some n ∧ n.key = k ∧ n.val = v ∧
      m1.findEntry comp k = some (some (k, v)) ∧
      (∀ e j, e ∈ t.entries → Equiv comp j e.1 → m1.findEntry comp j = some (some e)) ∧
      ∃ pre post, m.traverse = some (pre ++ post) ∧
        m1.traverse = some (pre ++ (k, v) :: post) ∧
        (∀ x, x ∈ pre → comp x.1 k = true) ∧ (∀ x, x ∈ post → comp k x.1 = true) := by
  have so := (bst_iff_strictlyIncreasing sw t).mp bst
  have hl := (lookup_none_iff comp k t).mpr ((lookupEntry_none_iff sw k so).mpr habs)
  obtain ⟨m1, hi, w1, _, _, _, n, hn, hnk, hnv⟩ := insertInternal_absent comp w (k, v) hl
  obtain ⟨pre, post, h1, h2, h3, h4⟩ := entries_ins sw k v m.heap.length so hl
  have so1 := strictlyIncreasing_ins sw k v m.heap.length so
  refine ⟨m1, m.heap.length, n, hi, hn, hnk, hnv, ?_, ?_, pre, post, ?_, ?_, h3, h4⟩
  · have hmem : (k, v) ∈ (t.ins comp k v m.heap.length).entries := by rw [h2]; simp
    rw [findEntry_eq comp w1 k]
    exact congrArg some (lookupEntry_complete sw k so1 hmem (sw.equiv_refl k))
  · intro e j he hj
    have hmem : e ∈ (t.ins comp k v m.heap.length).entries := by
      rw [h2]
      rw [h1] at he
      simp only [List.mem_append, List.mem_cons] at he ⊢
      tauto
    rw [findEntry_eq comp w1 j]
    exact congrArg some (lookupEntry_complete sw j so1 hmem hj)
  · rw [traverse_eq w, h1]
  · rw [traverse_eq w1, h2]

/-- C8, failing input: `insert("b", 2)` on the map holding the one key `"a"`, which satisfies
the ordering invariant and does not hold `"b"`. The call returns the new node and `true`, the
node holds `("b", 2)`, but it hangs to the left of `"a"`: `find("b")` returns `end()` and a
full traversal yields `("b", 2)` before `("a", 0)`. -/
theorem C8_insert_moved_key :
    StrictWeak strLess ∧
    strMapA.IsTree (Tree.node Tree.nil 0 ['a'] 0 Tree.nil) ∧
    (Tree.node Tree.nil 0 ['a'] 0 Tree.nil : Tree (List Char) Nat).BST strLess ∧
    strMapA.find strLess ['b'] = some strMapA.end_ ∧
    ∃ m1, strMapA.insert strLess movedStr ['b'] 2 = some (m1, some 1, true) ∧
      m1.heap.read 1 = some ⟨['b'], 2, none, none, some 0⟩ ∧
      m1.find strLess ['b'] = some m1.end_ ∧
      m1.findEntry strLess ['b'] = some none ∧
      strMapA.traverse = some [(['a'], 0)] ∧
      m1.traverse = some [(['b'], 2), (['a'], 0)] ∧
      strLess ['a'] ['b'] = true :=
  ⟨strictWeak_strLess, ⟨rfl, ⟨rfl, trivial, trivial⟩, by decide⟩,
    ⟨trivial, trivial, trivial, trivial⟩, by decide,
    ⟨[some ⟨['a'], 0, some 1, none, none⟩, some ⟨['b'], 2, none, none, some 0⟩], some 0, 2⟩,
    by with_unfolding_all rfl, by decide, by decide, by decide, by decide,
    by with_unfolding_all rfl, by decide⟩

/-- The map after `erase(2)`, `erase(1)`, `erase(3)` on `exMap`: no node is left and
`node_count` is `1`. -/
theorem erase_all_exMap :
    ∃ m1 m2 : Map Int Nat, exMap.erase ltInt 2 = some (m1, 1) ∧
      m1.erase ltInt 1 = some (m2, 1) ∧
      m2.erase ltInt 3 = some (⟨[none, none, none], none, 1⟩, 1) :=
  ⟨_, _, erase_exMap, by with_unfolding_all rfl, by with_unfolding_all rfl⟩

/-- C9, failing input: after `insert(2, 20)`, `insert(1, 10)`, `insert(3, 30)`, `erase(2)`,
`erase(1)`, `erase(3)` the map is reachable and has no key; `insert(7, 70)` succeeds, and
`size()` is `1` before and `1` after. -/
theorem C9_insert_size_unchanged :
    ∃ m m1 : Map Int Nat, ReachableIE ltInt id m ∧ m.find ltInt 7 = some m.end_ ∧ m.size = 1 ∧
      m.insert ltInt id 7 70 = some (m1, some 3, true) ∧ m1.size = 1 := by
  obtain ⟨m1, m2, h1, h2, h3⟩ := erase_all_exMap
  exact ⟨⟨[none, none, none], none, 1⟩,
    ⟨[none, none, none, some ⟨7, 70, none, none, none⟩], some 3, 1⟩,
    ReachableIE.erase (ReachableIE.erase (ReachableIE.erase reachableIE_exMap h1) h2) h3,
    by decide, rfl, by with_unfolding_all rfl, rfl⟩

theorem lookup_ins_self {comp : K → K → Bool} (irr : ∀ a, comp a a = false) (key : K)
    (val : V) (a : Nat) {t : Tree K V} (e : t.lookup comp key = none) :
    (t.ins comp key val a).lookup comp key = some a := by
  induction t with
  | nil => simp [Tree.ins, Tree.lookup, irr]
  | node l b k v r ihl ihr =>
    simp only [Tree.lookup] at e
    simp only [Tree.ins]
    by_cases c1 : comp key k = true
    · simp only [c1, ↓reduceIte] at e ⊢
      simp only [Tree.lookup, c1, ↓reduceIte]
      exact ihl e
    · by_cases c2 : comp k key = true
      · simp only [c1, c2, ↓reduceIte, Bool.false_eq_true] at e ⊢
        simp only [Tree.lookup, c1, c2, ↓reduceIte, Bool.false_eq_true]
        exact ihr e
      · simp only [c1, c2, ↓reduceIte, Bool.false_eq_true] at e
        cases e

/-- For a key type whose move leaves the key as it was (`moved` is the identity, as for
`int`): on a map satisfying the BST ordering invariant, `operator[](k)` on an absent key
inserts exactly the entry `(k, Value())` and returns the node that holds it; on a present
key it returns the node of the existing entry and leaves the map unchanged; a second
`operator[](k)` returns the same node and the same map as the first; and on the empty map,
`at(k)` after `operator[](k)` returns the default value. -/
theorem index_intact [Inhabited V] {comp : K → K → Bool} (sw : StrictWeak comp) {m : Map K V}
    {t : Tree K V} (w : m.IsTree t) (bst : t.BST comp) (k : K) :
    ((∀ e, e ∈ t.entries → ¬ Equiv comp k e.1) →
      ∃ m1 a n pre post, m.index comp id k = some (m1, a) ∧ m1.heap.read a = some n ∧
        n.key = k ∧ n.val = default ∧ m.traverse = some (pre ++ post) ∧
        m1.traverse = some (pre ++ (k, default) :: post)) ∧
    (∀ e, e ∈ t.entries → Equiv comp k e.1 →
      ∃ a n, m.index comp id k = some (m, a) ∧ m.heap.read a = some n ∧ (n.key, n.val) = e) ∧
    (∃ m1 a, m.index comp id k = some (m1, a) ∧ m1.index comp id k = some (m1, a)) ∧
    (∃ m0 a, (Map.empty : Map K V).index comp id k = some (m0, a) ∧
      m0.at_ comp k = some (AtResult.value default)) := by
  have so := (bst_iff_strictlyIncreasing sw t).mp bst
  refine ⟨?_, ?_, ?_, ?_⟩
  · intro habs
    have hl := (lookup_none_iff comp k t).mpr ((lookupEntry_none_iff sw k so).mpr habs)
    obtain ⟨m1, n, hi, _, w1, hn, hnk, hnv⟩ := index_absent comp w hl
    obtain ⟨pre, post, h1, h2, _, _⟩ := entries_ins sw k (default : V) m.heap.length so hl
    exact ⟨m1, _, n, pre, post, hi, hn, hnk, hnv, by rw [traverse_eq w, h1],
      by rw [traverse_eq w1, h2]⟩
  · intro e he hk
    have hle := lookupEntry_complete sw k so he hk
    rcases lookup_read comp k w.2.1 with ⟨_, h2⟩ | ⟨x, n, h1, h2, h3⟩
    · rw [h2] at hle; cases hle
    · rw [hle] at h3
      simp only [Option.some.injEq] at h3
      exact ⟨x, n, index_present comp w h1, h2, h3.symm⟩
  · cases hl : t.lookup comp k with
    | some x => exact ⟨m, x, index_present comp w hl, index_present comp w hl⟩
    | none =>
      obtain ⟨m1, n, hi, _, w1, _⟩ := index_absent comp w hl
      exact ⟨m1, _, hi, index_present comp w1 (lookup_ins_self sw.irrefl k default _ hl)⟩
  · obtain ⟨m1, n, hi, _, w1, hn, _, hnv⟩ :=
      index_absent comp (@isTree_empty K V)
        (show (Tree.nil : Tree K V).lookup comp k = none from rfl)
    refine ⟨m1, _, hi, ?_⟩
    have hlk := lookup_ins_self sw.irrefl k (default : V) (Map.empty : Map K V).heap.length
      (show (Tree.nil : Tree K V).lookup comp k = none from rfl)
    simp only [Map.at_, find_eq comp w1 k, hlk, hn, hnv]

/-- C10, failing input: `m["b"]; m["b"];` on the map holding the one key `"a"`, which
satisfies the ordering invariant. The first call hangs the node of `"b"` to the left of `"a"`,
where `find("b")` does not look; the second call therefore allocates another node, and the
map after two calls is not the map after one: `size()` is `3`, and `at("b")` throws. -/
theorem C10_index_moved_key :
    StrictWeak strLess ∧
    strMapA.IsTree (Tree.node Tree.nil 0 ['a'] 0 Tree.nil) ∧
    (Tree.node Tree.nil 0 ['a'] 0 Tree.nil : Tree (List Char) Nat).BST strLess ∧
    strMapA.index strLess movedStr ['b'] = some (strMapAB, 1) ∧
    strMapAB.index strLess movedStr ['b'] = some (strMapABB, 2) ∧
    strMapABB ≠ strMapAB ∧
    strMapAB.size = 2 ∧ strMapABB.size = 3 ∧
    strMapABB.traverse = some [(['b'], 0), (['a'], 0)] ∧
    strMapAB.find strLess ['b'] = some strMapAB.end_ ∧
    strMapAB.at_ strLess ['b'] = some AtResult.out_of_range :=
  ⟨strictWeak_strLess, ⟨rfl, ⟨rfl, trivial, trivial⟩, by decide⟩,
    ⟨trivial, trivial, trivial, trivial⟩, index_strMapAB, index_strMapABB, by decide, rfl, rfl,
    by with_unfolding_all rfl, by decide, by decide⟩

/-! # The claims, continued -/

/-- `at(key)` on the tree of a map: the value of the entry the lookup walk stops at. -/
theorem at_eq (comp : K → K → Bool) {m : Map K V} {t : Tree K V} (w : m.IsTree t) (key : K) :
    m.at_ comp key = some (match t.lookupEntry comp key with
      | none => AtResult.out_of_range
      | some e => AtResult.value e.2) := by
  unfold Map.at_
  rw [find_eq comp w key]
  rcases lookup_read comp key w.2.1 with ⟨h1, h2⟩ | ⟨x, n, h1, h2, h3⟩
  · rw [h1, h2]
  · rw [h1, h3]
    simp only [h2]

/-- C11: on a map satisfying the BST ordering invariant, `at(k)` fails with
`std::out_of_range` exactly when no entry has a key equivalent to `k`; when an entry has one,
`at(k)` returns the value of that entry; the map after the call is the map before it. -/
theorem C11_at_spec {comp : K → K → Bool} (sw : StrictWeak comp) {m : Map K V}
    {t : Tree K V} (w : m.IsTree t) (bst : t.BST comp) (k : K) :
    (∃ r, m.atCall comp k = some (m, r)) ∧
    (m.atCall comp k = some (m, AtResult.out_of_range) ↔
      ∀ e, e ∈ t.entries → ¬ Equiv comp k e.1) ∧
    (∀ e, e ∈ t.entries → Equiv comp k e.1 →
      m.atCall comp k = some (m, AtResult.value e.2)) := by
  have so := (bst_iff_strictlyIncreasing sw t).mp bst
  have hat := at_eq comp w k
  refine ⟨?_, ?_, ?_⟩
  · rw [Map.atCall, hat]
    exact ⟨_, rfl⟩
  · rw [← lookupEntry_none_iff sw k so]
    cases hl : t.lookupEntry comp k with
    | none => simp [Map.atCall, hat, hl]
    | some e => simp [Map.atCall, hat, hl]
  · intro e he hk
    simp only [Map.atCall, hat, lookupEntry_complete sw k so he hk]

/-- C11 at the keys of the map with keys `2, 1, 3`. -/
theorem C11_at_spec_witness :
    StrictWeak ltInt ∧ exMap.IsTree exTree ∧ exTree.BST ltInt ∧
      ((∃ r, exMap.atCall ltInt 3 = some (exMap, r)) ∧
      (exMap.atCall ltInt 3 = some (exMap, AtResult.out_of_range) ↔
        ∀ e, e ∈ exTree.entries → ¬ Equiv ltInt 3 e.1) ∧
      (∀ e, e ∈ exTree.entries → Equiv ltInt 3 e.1 →
        exMap.atCall ltInt 3 = some (exMap, AtResult.value e.2))) :=
  ⟨strictWeak_ltInt, isTree_exMap, bst_exTree,
    C11_at_spec strictWeak_ltInt isTree_exMap bst_exTree 3⟩

/-- C13: on a map satisfying the BST ordering invariant, `erase(k)` of a key without an
equivalent key in the map returns `0`, and the map after the call is the map before it: same
nodes, same links, same entries, same `size()`. -/
theorem C13_erase_absent {comp : K → K → Bool} (sw : StrictWeak comp) {m : Map K V}
    {t : Tree K V} (w : m.IsTree t) (bst : t.BST comp) {k : K}
    (habs : ∀ e, e ∈ t.entries → ¬ Equiv comp k e.1) :
    ∃ m1, m.erase comp k = some (m1, 0) ∧ m1 = m ∧ m1.IsTree t ∧
      m1.traverse = m.traverse ∧ m1.size = m.size := by
  have so := (bst_iff_strictlyIncreasing sw t).mp bst
  have hl := (lookup_none_iff comp k t).mpr ((lookupEntry_none_iff sw k so).mpr habs)
  exact ⟨m, erase_absent comp w hl, rfl, w, rfl, rfl⟩

/-- C13 at `erase(5)` on the map with keys `2, 1, 3`. -/
theorem C13_erase_absent_witness :
    StrictWeak ltInt ∧ exMap.IsTree exTree ∧ exTree.BST ltInt ∧
      (∀ e, e ∈ exTree.entries → ¬ Equiv ltInt 5 e.1) ∧
      ∃ m1, exMap.erase ltInt 5 = some (m1, 0) ∧ m1 = exMap ∧ m1.IsTree exTree ∧
        m1.traverse = exMap.traverse ∧ m1.size = exMap.size :=
  ⟨strictWeak_ltInt, isTree_exMap, bst_exTree,
    by simp [exTree, Tree.entries, Equiv, ltInt],
    C13_erase_absent strictWeak_ltInt isTree_exMap bst_exTree
      (by simp [exTree, Tree.entries, Equiv, ltInt])⟩

theorem headOr_none (l : List Nat) : headOr l none = l.head? := by
  cases l <;> rfl

/-- The in-order successor is the successor read off the tree. -/
theorem succIn_eq_succOf {t : Tree K V} (nd : t.addrs.Nodup) {x : Nat} (hx : x ∈ t.addrs)
    (up : Option Nat) : succIn t.addrs x up = t.succOf x up := by
  induction t generalizing up with
  | nil => cases hx
  | node l a k v r ihl ihr =>
    obtain ⟨ndl, ndr, anl, anr, dj⟩ := nodup_node nd
    rw [addrs_node]
    simp only [Tree.succOf]
    by_cases hax : a = x
    · subst hax
      rw [succIn_append_right anl]
      simp only [succIn, ↓reduceIte]
      cases r with
      | nil => rfl
      | node rl ra rk rv rr =>
        have h1 := minNode_eq_headOr (Tree.node rl ra rk rv rr) up (by simp)
        obtain ⟨⟨s, sk, sv⟩, hm⟩ := minNode_of_ne_nil
          (show Tree.node rl ra rk rv rr ≠ Tree.nil by simp)
        rw [hm] at h1
        simp only [hm]
        exact h1.symm
    · simp only [hax, ↓reduceIte]
      by_cases hxl : x ∈ l.addrs
      · simp only [hxl, ↓reduceIte]
        rw [succIn_append_left hxl]
        exact ihl ndl hxl (some a)
      · simp only [hxl, ↓reduceIte]
        have hxr : x ∈ r.addrs := by
          simp only [Tree.addrs, List.mem_append, List.mem_cons] at hx
          rcases hx with h | h | h
          · exact absurd h hxl
          · exact absurd h.symm hax
          · exact h
        rw [succIn_append_right hxl]
        simp only [succIn, hax, ↓reduceIte]
        exact ihr ndr hxr up

/-- The iterator after `i` applications of `operator++`, started on the first node of a
suffix of the in-order sequence. -/
theorem advance_eq {m : Map K V} {t : Tree K V} (w : m.IsTree t) :
    ∀ (i : Nat) (pre suf : List Nat), t.addrs = pre ++ suf → i ≤ suf.length →
      m.advance i (headOr suf none) = some (suf[i]?) := by
  intro i
  induction i with
  | zero =>
    intro pre suf _ _
    cases suf <;> simp [Map.advance, headOr]
  | succ i ih =>
    intro pre suf had hi
    cases suf with
    | nil => simp at hi
    | cons x rest =>
      simp only [List.length_cons] at hi
      have hx : x ∈ t.addrs := by rw [had]; simp
      have hnp : x ∉ pre := by
        have nd := w.2.2
        rw [had] at nd
        exact fun hh => (List.nodup_append.mp nd).2.2 hh (by simp)
      have hnext : m.next (some x) = some (headOr rest none) := by
        rw [next_eq w hx, had, succIn_append_right hnp]
        simp only [succIn, ↓reduceIte]
      have ih1 := ih (pre ++ [x]) rest (by rw [had]; simp) (by omega)
      show m.advance (i + 1) (some x) = _
      simp only [Map.advance, hnext, ih1, List.getElem?_cons_succ]

/-- C12: on a map with mutually consistent parent and child links, `begin()` is the first
node of the in-order sequence of the tree; after `i` applications of `operator++` the iterator
is on the `i`-th node of that sequence for every `i` below the number `n` of nodes, and it is
`end()` after exactly `n` applications; the nodes are pairwise distinct, so each is visited
once, and the entries visited are the in-order entries. `findSuccessor` returns the leftmost
node of the right subtree when there is a right child, else the first ancestor reached from a
left child, or `end()` when there is none. -/
theorem C12_iteration {m : Map K V} {t : Tree K V} (w : m.IsTree t) :
    m.begin_ = some t.addrs.head? ∧
    (∀ i, i ≤ t.size → m.begin_.bind (m.advance i) = some (t.addrs[i]?)) ∧
    t.addrs.length = t.size ∧ t.addrs.Nodup ∧
    m.begin_.bind (m.advance t.size) = some m.end_ ∧
    m.traverse = some t.entries ∧
    (∀ x, x ∈ t.addrs → m.next (some x) = some (succIn t.addrs x none) ∧
      succIn t.addrs x none = t.succOf x none) ∧
    m.next m.end_ = some m.end_ := by
  have hb : m.begin_ = some t.addrs.head? := by rw [begin_eq w, headOr_none]
  have hlen : t.addrs.length = t.size := (size_eq_length_addrs t).symm
  have hadv : ∀ i, i ≤ t.size → m.begin_.bind (m.advance i) = some (t.addrs[i]?) := by
    intro i hi
    rw [begin_eq w]
    exact advance_eq w i [] t.addrs rfl (by omega)
  refine ⟨hb, hadv, hlen, w.2.2, ?_, traverse_eq w, ?_, ?_⟩
  · rw [hadv t.size (Nat.le_refl _), List.getElem?_eq_none (by omega)]
    rfl
  · intro x hx
    exact ⟨next_eq w hx, succIn_eq_succOf w.2.2 hx none⟩
  · rfl

/-- C12 at the map with keys `2, 1, 3`. -/
theorem C12_iteration_witness :
    exMap.IsTree exTree ∧
      (exMap.begin_ = some exTree.addrs.head? ∧
      (∀ i, i ≤ exTree.size → exMap.begin_.bind (exMap.advance i) = some (exTree.addrs[i]?)) ∧
      exTree.addrs.length = exTree.size ∧ exTree.addrs.Nodup ∧
      exMap.begin_.bind (exMap.advance exTree.size) = some exMap.end_ ∧
      exMap.traverse = some exTree.entries ∧
      (∀ x, x ∈ exTree.addrs → exMap.next (some x) = some (succIn exTree.addrs x none) ∧
        succIn exTree.addrs x none = exTree.succOf x none) ∧
      exMap.next exMap.end_ = some exMap.end_) :=
  ⟨isTree_exMap, C12_iteration isTree_exMap⟩

/-! ## Construction from a sequence -/

theorem equivb_iff (comp : K → K → Bool) (a b : K) :
    (!comp a b && !comp b a) = true ↔ Equiv comp a b := by
  unfold Equiv
  cases comp a b <;> cases comp b a <;> simp

/-- The lookup walk after the insertion of a new key. -/
theorem lookupEntry_ins {comp : K → K → Bool} (sw : StrictWeak comp) (k : K) (v : V) (a : Nat)
    {t : Tree K V} (so : StrictlyIncreasing comp t.keys) (hl : t.lookup comp k = none)
    (j : K) :
    (t.ins comp k v a).lookupEntry comp j =
      match t.lookupEntry comp j with
      | some e => some e
      | none => if (!comp j k && !comp k j) = true then some (k, v) else none := by
  obtain ⟨pre, post, h1, h2, _, _⟩ := entries_ins sw k v a so hl
  have so1 := strictlyIncreasing_ins sw k v a so
  cases hj : t.lookupEntry comp j with
  | some e =>
    obtain ⟨he, hje⟩ := lookupEntry_sound comp j hj
    have hmem : e ∈ (t.ins comp k v a).entries := by
      rw [h2]
      rw [h1] at he
      simp only [List.mem_append, List.mem_cons] at he ⊢
      tauto
    exact lookupEntry_complete sw j so1 hmem hje
  | none =>
    have hnone := (lookupEntry_none_iff sw j so).mp hj
    by_cases hjk : Equiv comp j k
    · have hmem : (k, v) ∈ (t.ins comp k v a).entries := by rw [h2]; simp
      show _ = if (!comp j k && !comp k j) = true then some (k, v) else none
      rw [if_pos ((equivb_iff comp j k).mpr hjk)]
      exact lookupEntry_complete sw j so1 hmem hjk
    · have hb : ¬ (!comp j k && !comp k j) = true := fun hh => hjk ((equivb_iff comp j k).mp hh)
      show _ = if (!comp j k && !comp k j) = true then some (k, v) else none
      rw [if_neg hb, lookupEntry_none_iff sw j so1]
      intro e he
      rw [h2] at he
      simp only [List.mem_append, List.mem_cons] at he
      rcases he with he | rfl | he
      · exact hnone e (by rw [h1]; simp [he])
      · exact hjk
      · exact hnone e (by rw [h1]; simp [he])

theorem mem_entries_ins (comp : K → K → Bool) (k : K) (v : V) (a : Nat) (t : Tree K V)
    {e : K × V} (he : e ∈ (t.ins comp k v a).entries) : e ∈ t.entries ∨ e = (k, v) := by
  induction t with
  | nil => simp [Tree.ins, Tree.entries] at he; exact Or.inr he
  | node l b k0 v0 r ihl ihr =>
    simp only [Tree.ins] at he
    by_cases c1 : comp k k0 = true
    · simp only [c1, ↓reduceIte, Tree.entries, List.mem_append, List.mem_cons] at he ⊢
      rcases he with he | he | he
      · rcases ihl he with h | h
        · exact Or.inl (Or.inl h)
        · exact Or.inr h
      · exact Or.inl (Or.inr (Or.inl he))
      · exact Or.inl (Or.inr (Or.inr he))
    · by_cases c2 : comp k0 k = true
      · simp only [c1, c2, ↓reduceIte, Bool.false_eq_true, Tree.entries, List.mem_append,
          List.mem_cons] at he ⊢
        rcases he with he | he | he
        · exact Or.inl (Or.inl he)
        · exact Or.inl (Or.inr (Or.inl he))
        · rcases ihr he with h | h
          · exact Or.inl (Or.inr (Or.inr h))
          · exact Or.inr h
      · simp only [c1, c2, ↓reduceIte, Bool.false_eq_true] at he
        exact Or.inl he

/-- The insertion of a sequence of entries into the tree of a map: the result is an ordered
tree in which a key already present keeps its entry and a new key gets the entry of its first
occurrence in the sequence. -/
theorem insertAll_spec {comp : K → K → Bool} (sw : StrictWeak comp) (init : List (K × V)) :
    ∀ (m : Map K V) (t : Tree K V), m.IsTree t → StrictlyIncreasing comp t.keys →
      ∃ m1 t1, Map.insertAll comp m init = some m1 ∧ m1.IsTree t1 ∧
        StrictlyIncreasing comp t1.keys ∧
        (∀ e, e ∈ t1.entries → e ∈ t.entries ∨ e ∈ init) ∧
        ∀ j, t1.lookupEntry comp j =
          match t.lookupEntry comp j with
          | some e => some e
          | none => firstOcc comp j init := by
  induction init with
  | nil =>
    intro m t w so
    refine ⟨m, t, rfl, w, so, fun e he => Or.inl he, fun j => ?_⟩
    cases t.lookupEntry comp j <;> rfl
  | cons p rest ih =>
    intro m t w so
    cases hl : t.lookup comp p.1 with
    | some c =>
      have hi := insertInternal_found comp w p hl
      obtain ⟨m1, t1, h1, w1, so1, hsub, hlk⟩ := ih m t w so
      refine ⟨m1, t1, by simp only [Map.insertAll, hi, h1], w1, so1, ?_, fun j => ?_⟩
      · intro e he
        rcases hsub e he with h | h
        · exact Or.inl h
        · exact Or.inr (List.mem_cons_of_mem _ h)
      · rw [hlk j]
        cases hj : t.lookupEntry comp j with
        | some e => rfl
        | none =>
          have hne : t.lookupEntry comp p.1 ≠ none := fun hh =>
            by rw [(lookup_none_iff comp p.1 t).mpr hh] at hl; cases hl
          obtain ⟨e, he⟩ := Option.ne_none_iff_exists'.mp hne
          obtain ⟨hem, hpe⟩ := lookupEntry_sound comp p.1 he
          have hjp : ¬ (!comp j p.1 && !comp p.1 j) = true := by
            intro hh
            have := sw.equiv_trans _ _ _ ((equivb_iff comp j p.1).mp hh) hpe
            exact (lookupEntry_none_iff sw j so).mp hj e hem this
          simp only [firstOcc, List.find?_cons, hjp]
    | none =>
      obtain ⟨m2, hi, w2, _⟩ := insertInternal_absent comp w p hl
      have so2 := strictlyIncreasing_ins sw p.1 p.2 m.heap.length so
      obtain ⟨m1, t1, h1, w1, so1, hsub, hlk⟩ := ih m2 _ w2 so2
      refine ⟨m1, t1, by simp only [Map.insertAll, hi, h1], w1, so1, ?_, fun j => ?_⟩
      · intro e he
        rcases hsub e he with h | h
        · rcases mem_entries_ins comp _ _ _ _ h with h0 | h0
          · exact Or.inl h0
          · exact Or.inr (by rw [h0]; simp)
        · exact Or.inr (List.mem_cons_of_mem _ h)
      · rw [hlk j, lookupEntry_ins sw p.1 p.2 m.heap.length so hl j]
        cases hj : t.lookupEntry comp j with
        | some e => rfl
        | none =>
          by_cases hjp : (!comp j p.1 && !comp p.1 j) = true
          · simp only [hjp, ↓reduceIte, firstOcc, List.find?_cons]
          · simp only [hjp, Bool.false_eq_true, ↓reduceIte, firstOcc, List.find?_cons]

theorem insertEach_eq_insertAll (comp : K → K → Bool) (init : List (K × V)) :
    ∀ m : Map K V, insertEach comp m init = Map.insertAll comp m init := by
  have hnone : ∀ l : List (K × V), l.foldl (fun acc p =>
      match acc with
      | none => none
      | some m1 =>
        match m1.insertPair comp p with
        | none => none
        | some r => some r.1) (none : Option (Map K V)) = none := by
    intro l
    induction l with
    | nil => rfl
    | cons p rest ih => exact ih
  induction init with
  | nil => intro m; rfl
  | cons p rest ih =>
    intro m
    unfold insertEach
    simp only [List.foldl_cons, Map.insertAll, Map.insertPair]
    cases hi : m.insertInternal comp id p with
    | none => exact hnone rest
    | some r => exact ih r.1

/-- C14: for every finite sequence of entries and a strict weak ordering, the map constructed
from the sequence is the map obtained by inserting the entries one at a time, in the given
order, by `insert(pair)`, into the empty map; its traversal is in strictly increasing key order (so no two of its
entries have equivalent keys), every entry of it is an entry of the sequence, every key of the
sequence has an entry, and the entry found for a key is the first entry of the sequence with
an equivalent key. -/
theorem C14_ofList {comp : K → K → Bool} (sw : StrictWeak comp) (init : List (K × V)) :
    ∃ m es, Map.ofList comp init = some m ∧ insertEach comp Map.empty init = some m ∧
      m.traverse = some es ∧ StrictlyIncreasing comp (es.map Prod.fst) ∧
      (∀ e, e ∈ es → e ∈ init) ∧
      (∀ p, p ∈ init → ∃ e, e ∈ es ∧ Equiv comp p.1 e.1) ∧
      (∀ j, m.findEntry comp j = some (firstOcc comp j init)) ∧
      (∀ e, e ∈ es → firstOcc comp e.1 init = some e) := by
  obtain ⟨m, t, h1, w, so, hsub, hlk⟩ :=
    insertAll_spec sw init (Map.empty : Map K V) Tree.nil isTree_empty List.Pairwise.nil
  have hfind : ∀ j, t.lookupEntry comp j = firstOcc comp j init := fun j => by
    rw [hlk j]; rfl
  refine ⟨m, t.entries, h1, ?_, traverse_eq w, so, ?_, ?_, ?_, ?_⟩
  · rw [insertEach_eq_insertAll]; exact h1
  · intro e he
    rcases hsub e he with h | h
    · cases h
    · exact h
  · intro p hp
    have hpp : (!comp p.1 p.1 && !comp p.1 p.1) = true :=
      (equivb_iff comp p.1 p.1).mpr (sw.equiv_refl p.1)
    cases hf : firstOcc comp p.1 init with
    | none =>
      have := List.find?_eq_none.mp hf p hp
      exact absurd hpp this
    | some e =>
      rw [← hfind] at hf
      exact ⟨e, (lookupEntry_sound comp p.1 hf).1, (lookupEntry_sound comp p.1 hf).2⟩
  · intro j
    rw [findEntry_eq comp w j, hfind]
  · intro e he
    rw [← hfind]
    exact lookupEntry_complete sw e.1 so he (sw.equiv_refl e.1)

/-- C14 at the sequence `(2, 20), (1, 10), (2, 99), (3, 30)`. -/
theorem C14_ofList_witness :
    StrictWeak ltInt ∧
      ∃ m es, Map.ofList ltInt [((2 : Int), (20 : Nat)), (1, 10), (2, 99), (3, 30)] = some m ∧
        insertEach ltInt Map.empty [((2 : Int), (20 : Nat)), (1, 10), (2, 99), (3, 30)] =
          some m ∧
        m.traverse = some es ∧ StrictlyIncreasing ltInt (es.map Prod.fst) ∧
        (∀ e, e ∈ es → e ∈ [((2 : Int), (20 : Nat)), (1, 10), (2, 99), (3, 30)]) ∧
        (∀ p, p ∈ [((2 : Int), (20 : Nat)), (1, 10), (2, 99), (3, 30)] →
          ∃ e, e ∈ es ∧ Equiv ltInt p.1 e.1) ∧
        (∀ j, m.findEntry ltInt j =
          some (firstOcc ltInt j [((2 : Int), (20 : Nat)), (1, 10), (2, 99), (3, 30)])) ∧
        (∀ e, e ∈ es →
          firstOcc ltInt e.1 [((2 : Int), (20 : Nat)), (1, 10), (2, 99), (3, 30)] = some e) :=
  ⟨strictWeak_ltInt, C14_ofList strictWeak_ltInt _⟩

/-! ## Clearing and copying -/

/-- `clearSubtree` on a tree held by the heap deletes exactly the nodes of the tree. -/
theorem clearSubtree_spec {t : Tree K V} :
    ∀ {h : Heap K V} {par : Option Nat} {fuel : Nat}, Shape h t par → t.addrs.Nodup →
      t.size ≤ fuel →
      ∃ h1, clearSubtree fuel h t.rootPtr = some h1 ∧
        (∀ b, b ∉ t.addrs → h1.read b = h.read b) ∧ (∀ b, b ∈ t.addrs → h1.read b = none) ∧
        h1.length = h.length := by
  induction t with
  | nil =>
    intro h par fuel _ _ _
    refine ⟨h, ?_, fun _ _ => rfl, ?_, rfl⟩
    · cases fuel <;> rfl
    · intro b hb
      cases hb
  | node l a k v r ihl ihr =>
    intro h par fuel s nd hf
    obtain ⟨ndl, ndr, anl, anr, dj⟩ := nodup_node nd
    obtain ⟨e, sl, sr⟩ := s
    simp only [Tree.size] at hf
    obtain ⟨f, rfl⟩ : ∃ f, fuel = f + 1 := ⟨fuel - 1, by omega⟩
    obtain ⟨h1, hc1, fr1, dead1, len1⟩ := @ihl h (some a) f sl ndl (by omega)
    have ha1 : h1.read a = some ⟨k, v, l.rootPtr, r.rootPtr, par⟩ := by rw [fr1 a anl, e]
    have sr1 : Shape h1 r (some a) := sr.frame fun b hb => fr1 b (fun hh => dj b hh hb)
    obtain ⟨h2, hc2, fr2, dead2, len2⟩ := @ihr h1 (some a) f sr1 ndr (by omega)
    refine ⟨h2.free a, ?_, ?_, ?_, ?_⟩
    · show clearSubtree (f + 1) h (some a) = _
      simp only [clearSubtree, e, hc1, ha1, hc2]
    · intro b hb
      simp only [Tree.addrs, List.mem_append, List.mem_cons, not_or] at hb
      rw [read_free_ne (fun hh => hb.2.1 hh.symm), fr2 b hb.2.2, fr1 b hb.1]
    · intro b hb
      simp only [Tree.addrs, List.mem_append, List.mem_cons] at hb
      by_cases hab : a = b
      · rw [← hab]; exact read_free_same _ _
      · rw [read_free_ne hab]
        rcases hb with hb | hb | hb
        · rw [fr2 b (dj b hb)]; exact dead1 b hb
        · exact absurd hb.symm hab
        · exact dead2 b hb
    · rw [length_free, len2, len1]

/-- `clear()` on the tree of a map: every node is deleted, the map has no root and count
zero. -/
theorem clear_spec {m : Map K V} {t : Tree K V} (w : m.IsTree t) :
    ∃ c, m.clear = some c ∧ c.root = none ∧ c.node_count = 0 ∧ c.IsTree Tree.nil ∧
      (∀ b, b ∈ t.addrs → c.heap.read b = none) := by
  obtain ⟨h1, hc, _, dead, _⟩ := clearSubtree_spec w.2.1 w.2.2 w.tree_size_le
  rw [← w.1] at hc
  exact ⟨⟨h1, none, 0⟩, by simp only [Map.clear, hc], rfl, rfl,
    ⟨rfl, trivial, List.nodup_nil⟩, dead⟩

/-- The copy loop inserts the entries of the nodes it visits, in the order of the visit. -/
theorem copyLoop_eq (comp : K → K → Bool) {m : Map K V} {t : Tree K V} (w : m.IsTree t) :
    ∀ (suf pre : List (Nat × K × V)), t.cells = pre ++ suf → ∀ f, suf.length ≤ f →
      ∀ acc : Map K V, copyLoop comp m f (headOr (suf.map (fun c => c.1)) none) acc =
        Map.insertAll comp acc (suf.map (fun c => c.2)) := by
  intro suf
  induction suf with
  | nil => intro pre _ f _ acc; cases f <;> rfl
  | cons c rest ih =>
    intro pre hc f hf acc
    simp only [List.length_cons] at hf
    obtain ⟨f1, rfl⟩ : ∃ f1, f = f1 + 1 := ⟨f - 1, by omega⟩
    have hcm : c ∈ t.cells := by rw [hc]; simp
    obtain ⟨n, hn, hk, hv⟩ := w.2.1.read_cell c hcm
    have had : t.addrs = pre.map (fun c => c.1) ++ c.1 :: rest.map (fun c => c.1) := by
      rw [addrs_eq_cells, hc]; simp
    have hcx : c.1 ∈ t.addrs := by rw [had]; simp
    have hnp : c.1 ∉ pre.map (fun c => c.1) := by
      have nd := w.2.2
      rw [had] at nd
      exact fun hh => (List.nodup_append.mp nd).2.2 hh (by simp)
    have hnext : m.next (some c.1) = some (headOr (rest.map (fun c => c.1)) none) := by
      rw [next_eq w hcx, had, succIn_append_right hnp]
      simp only [succIn, ↓reduceIte]
    have hpair : (n.key, n.val) = c.2 := by rw [hk, hv]
    show copyLoop comp m (f1 + 1) (some c.1) acc = _
    simp only [copyLoop, hn, hpair, List.map_cons, Map.insertAll]
    cases hi : acc.insertInternal comp id c.2 with
    | none => rfl
    | some r =>
      obtain ⟨acc1, it, b⟩ := r
      simp only [hnext]
      exact ih (pre ++ [c]) (by rw [hc]; simp) f1 (by omega) acc1

/-- Inserting, in order, entries whose keys increase and are all greater than the keys of the
map appends them to the in-order sequence. -/
theorem insertAll_sorted {comp : K → K → Bool} (sw : StrictWeak comp) (es : List (K × V)) :
    ∀ (m : Map K V) (t : Tree K V), m.IsTree t →
      (t.entries ++ es).Pairwise (fun e1 e2 => comp e1.1 e2.1 = true) →
      ∃ m1 t1, Map.insertAll comp m es = some m1 ∧ m1.IsTree t1 ∧
        t1.entries = t.entries ++ es := by
  induction es with
  | nil => intro m t w _; exact ⟨m, t, rfl, w, by simp⟩
  | cons p rest ih =>
    intro m t w hp
    have hp1 := List.pairwise_append.mp hp
    have so : StrictlyIncreasing comp t.keys := (strictlyIncreasing_keys comp t).mpr hp1.1
    have hlt : ∀ x, x ∈ t.entries → comp x.1 p.1 = true := fun x hx =>
      hp1.2.2 x hx p (by simp)
    have hl : t.lookup comp p.1 = none := by
      rw [lookup_none_iff, lookupEntry_none_iff sw p.1 so]
      intro e he heq
      exact not_equiv_of_lt (hlt e he) heq.symm
    obtain ⟨m2, hi, w2, _⟩ := insertInternal_absent comp w p hl
    obtain ⟨pre, post, h1, h2, _, h4⟩ := entries_ins sw p.1 p.2 m.heap.length so hl
    have hpost : post = [] := by
      cases post with
      | nil => rfl
      | cons x xs =>
        have hx : x ∈ t.entries := by rw [h1]; simp
        have := sw.asymm (hlt x hx)
        rw [h4 x (by simp)] at this
        cases this
    subst hpost
    simp only [List.append_nil] at h1
    have he2 : (t.ins comp p.1 p.2 m.heap.length).entries = t.entries ++ [p] := by
      rw [h2, h1]
    obtain ⟨m1, t1, hm1, w1, ht1⟩ := ih m2 _ w2 (by rw [he2]; simpa using hp)
    exact ⟨m1, t1, by simp only [Map.insertAll, hi, hm1], w1, by rw [ht1, he2]; simp⟩

/-- The copy loop started at `begin()` on an ordered tree, into a map without nodes: the map
obtained holds a tree with the same in-order sequence. -/
theorem copy_into_empty {comp : K → K → Bool} (sw : StrictWeak comp) {m : Map K V}
    {t : Tree K V} (w : m.IsTree t) (so : StrictlyIncreasing comp t.keys) {acc : Map K V}
    (wa : acc.IsTree Tree.nil) :
    ∃ c tc it, m.begin_ = some it ∧ copyLoop comp m m.heap.length it acc = some c ∧
      c.IsTree tc ∧ tc.entries = t.entries := by
  have hlen : t.cells.length ≤ m.heap.length := by
    have h1 := w.tree_size_le
    rw [size_eq_length_addrs, addrs_eq_cells, List.length_map] at h1
    exact h1
  have hloop := copyLoop_eq comp w t.cells [] rfl m.heap.length hlen acc
  rw [← addrs_eq_cells, ← entries_eq_cells] at hloop
  obtain ⟨c, tc, hc, wc, htc⟩ := insertAll_sorted sw t.entries acc Tree.nil wa
    (by simpa [Tree.entries] using (strictlyIncreasing_keys comp t).mp so)
  exact ⟨c, tc, _, begin_eq w, by rw [hloop, hc], wc, by simpa [Tree.entries] using htc⟩

/-- C15: for a map satisfying the BST ordering and parent-link invariants, the copy
constructed from it, and the result of copy assignment from it to any map, hold a tree whose
full traversal yields exactly the sequence of entries that a full traversal of the source
yields; assigning a map to itself leaves it as it is. -/
theorem C15_copy {comp : K → K → Bool} (sw : StrictWeak comp) {m : Map K V} {t : Tree K V}
    (w : m.IsTree t) (bst : t.BST comp) {this : Map K V} {tt : Tree K V}
    (wt : this.IsTree tt) :
    (∃ c, Map.copy comp m = some c ∧ c.traverse = m.traverse ∧
      c.traverse = some t.entries) ∧
    (∃ c, this.copyAssign comp (some m) = some c ∧ c.traverse = m.traverse ∧
      c.traverse = some t.entries) ∧
    m.copyAssign comp none = some m := by
  have so := (bst_iff_strictlyIncreasing sw t).mp bst
  refine ⟨?_, ?_, rfl⟩
  · obtain ⟨c, tc, it, hb, hc, wc, htc⟩ := copy_into_empty sw w so (@isTree_empty K V)
    refine ⟨c, by simp only [Map.copy, hb, hc], ?_, ?_⟩
    · rw [traverse_eq wc, traverse_eq w, htc]
    · rw [traverse_eq wc, htc]
  · obtain ⟨cl, hcl, _, _, wcl, _⟩ := clear_spec wt
    obtain ⟨c, tc, it, hb, hc, wc, htc⟩ := copy_into_empty sw w so wcl
    refine ⟨c, by simp only [Map.copyAssign, hcl, hb, hc], ?_, ?_⟩
    · rw [traverse_eq wc, traverse_eq w, htc]
    · rw [traverse_eq wc, htc]

/-- C15 at the map with keys `2, 1, 3`, copied, and assigned to the empty map. -/
theorem C15_copy_witness :
    StrictWeak ltInt ∧ exMap.IsTree exTree ∧ exTree.BST ltInt ∧
      (Map.empty : Map Int Nat).IsTree Tree.nil ∧
      ((∃ c, Map.copy ltInt exMap = some c ∧ c.traverse = exMap.traverse ∧
        c.traverse = some exTree.entries) ∧
      (∃ c, (Map.empty : Map Int Nat).copyAssign ltInt (some exMap) = some c ∧
        c.traverse = exMap.traverse ∧ c.traverse = some exTree.entries) ∧
      exMap.copyAssign ltInt none = some exMap) :=
  ⟨strictWeak_ltInt, isTree_exMap, bst_exTree, isTree_empty,
    C15_copy strictWeak_ltInt isTree_exMap bst_exTree isTree_empty⟩

/-! ## Parent and child links -/

theorem Shape.root_parent {h : Heap K V} {t : Tree K V} {par : Option Nat} (s : Shape h t par)
    {c : Nat} (hc : t.rootPtr = some c) : ∃ cn, h.read c = some cn ∧ cn.parent = par := by
  cases t with
  | nil => cases hc
  | node l a k v r =>
    simp only [Tree.rootPtr, Option.some.injEq] at hc
    subst hc
    exact ⟨_, s.1, rfl⟩

/-- In a tree held by the heap, the `parent` of every child points back to its node. -/
theorem Shape.links {h : Heap K V} {t : Tree K V} {par : Option Nat} (s : Shape h t par) :
    ∀ a, a ∈ t.addrs → ∃ n, h.read a = some n ∧
      (∀ c, n.left = some c → ∃ cn, h.read c = some cn ∧ cn.parent = some a) ∧
      (∀ c, n.right = some c → ∃ cn, h.read c = some cn ∧ cn.parent = some a) := by
  induction t generalizing par with
  | nil => intro a ha; cases ha
  | node l b k v r ihl ihr =>
    obtain ⟨e, sl, sr⟩ := s
    intro a ha
    simp only [Tree.addrs, List.mem_append, List.mem_cons] at ha
    rcases ha with ha | rfl | ha
    · exact ihl sl a ha
    · exact ⟨_, e, fun c hc => sl.root_parent hc, fun c hc => sr.root_parent hc⟩
    · exact ihr sr a ha

/-! ## Insertion of a temporary pair -/

/-- On a duplicate key `insertInternal` returns before the pair is forwarded. -/
theorem insertInternal_found_any (comp : K → K → Bool) (moved : K → K) {m : Map K V}
    {t : Tree K V} (w : m.IsTree t) (pair : K × V) {c : Nat}
    (e : t.lookup comp pair.1 = some c) :
    m.insertInternal comp moved pair = some (m, some c, false) := by
  have hl := insertLoop_eq comp pair.1 w.2.1 w.tree_size_le
  rw [walk_of_lookup_some comp pair.1 none e] at hl
  cases t with
  | nil => simp [Tree.lookup] at e
  | node l a k v r =>
    have hr : m.root = some a := w.1
    simp only [Tree.rootPtr] at hl
    simp only [Map.insertInternal, hr, hl]

theorem graft_of_not_mem (q : Nat) (left : Bool) (a : Nat) (key : K) (val : V) {t : Tree K V}
    (hq : q ∉ t.addrs) : t.graft q left a key val = t := by
  induction t with
  | nil => rfl
  | node l b k v r ihl ihr =>
    simp only [Tree.addrs, List.mem_append, List.mem_cons, not_or] at hq
    have hb : ¬ b = q := fun e => hq.2.1 e.symm
    simp only [Tree.graft, hb, if_false, ihl hq.1, ihr hq.2.2]

theorem rootPtr_graft (q : Nat) (left : Bool) (a : Nat) (key : K) (val : V) (t : Tree K V) :
    (t.graft q left a key val).rootPtr = t.rootPtr := by
  cases t with
  | nil => rfl
  | node l b k v r =>
    simp only [Tree.graft]
    split
    · split <;> rfl
    · rfl

theorem mem_addrs_graft (q : Nat) (left : Bool) (a : Nat) (key : K) (val : V) {t : Tree K V}
    {x : Nat} (hx : x ∈ (t.graft q left a key val).addrs) : x = a ∨ x ∈ t.addrs := by
  induction t with
  | nil => simp [Tree.graft, Tree.addrs] at hx
  | node l b k v r ihl ihr =>
    simp only [Tree.graft] at hx
    by_cases hb : b = q
    · simp only [hb, if_true] at hx
      cases left with
      | true =>
        simp only [if_true, Tree.addrs, List.nil_append, List.mem_append, List.mem_cons,
          List.mem_singleton, List.cons_append] at hx
        simp only [Tree.addrs, List.mem_append, List.mem_cons, hb]
        rcases hx with h | h | h
        · exact Or.inl h
        · exact Or.inr (Or.inr (Or.inl h))
        · exact Or.inr (Or.inr (Or.inr h))
      | false =>
        simp only [Bool.false_eq_true, if_false, Tree.addrs, List.nil_append, List.mem_append,
          List.mem_cons, List.mem_singleton, List.not_mem_nil, or_false] at hx
        simp only [Tree.addrs, List.mem_append, List.mem_cons, hb]
        rcases hx with h | h | h
        · exact Or.inr (Or.inl h)
        · exact Or.inr (Or.inr (Or.inl h))
        · exact Or.inl h
    · simp only [hb, if_false, Tree.addrs, List.mem_append, List.mem_cons] at hx
      simp only [Tree.addrs, List.mem_append, List.mem_cons]
      rcases hx with h | h | h
      · rcases ihl h with h1 | h1
        · exact Or.inl h1
        · exact Or.inr (Or.inl h1)
      · exact Or.inr (Or.inr (Or.inl h))
      · rcases ihr h with h1 | h1
        · exact Or.inl h1
        · exact Or.inr (Or.inr (Or.inr h1))

theorem nodup_graft (q : Nat) (left : Bool) (a : Nat) (key : K) (val : V) {t : Tree K V}
    (nd : t.addrs.Nodup) (fresh : a ∉ t.addrs) : (t.graft q left a key val).addrs.Nodup := by
  induction t with
  | nil => exact List.nodup_nil
  | node l b k v r ihl ihr =>
    obtain ⟨ndl, ndr, anl, anr, dj⟩ := nodup_node nd
    simp only [Tree.addrs, List.mem_append, List.mem_cons, not_or] at fresh
    obtain ⟨fl, fb, fr⟩ := fresh
    simp only [Tree.graft]
    by_cases hb : b = q
    · simp only [hb, if_true]
      cases left with
      | true =>
        simp only [if_true, Tree.addrs, List.nil_append, List.cons_append]
        refine List.nodup_cons.mpr ⟨?_, List.nodup_cons.mpr ⟨?_, ndr⟩⟩
        · simp only [List.mem_cons, not_or]
          exact ⟨fun e => fb (hb ▸ e), fr⟩
        · exact hb ▸ anr
      | false =>
        simp only [Bool.false_eq_true, if_false, Tree.addrs, List.nil_append]
        refine List.nodup_append.mpr ⟨ndl, ?_, ?_⟩
        · refine List.nodup_cons.mpr ⟨?_, by simp⟩
          simp only [List.mem_singleton]
          exact fun e => fb (hb ▸ e.symm)
        · intro x hx hx1
          simp only [List.mem_cons, List.mem_singleton, List.not_mem_nil, or_false] at hx1
          rcases hx1 with h | h
          · exact anl (hb ▸ h ▸ hx)
          · exact fl (h ▸ hx)
    · simp only [hb, if_false, Tree.addrs]
      refine List.nodup_append.mpr ⟨ihl ndl fl, List.nodup_cons.mpr ⟨?_, ihr ndr fr⟩, ?_⟩
      · intro hx
        rcases mem_addrs_graft q left a key val hx with h | h
        · exact fb h.symm
        · exact anr h
      · intro x hx hx1
        rcases List.mem_cons.mp hx1 with h | h
        · rcases mem_addrs_graft q left a key val hx with h1 | h1
          · exact fb (h1 ▸ h ▸ rfl)
          · exact anl (h ▸ h1)
        · rcases mem_addrs_graft q left a key val hx with h1 | h1
          · rcases mem_addrs_graft q left a key val h with h2 | h2
            · have ql : q ∈ l.addrs := by
                by_contra hq
                rw [graft_of_not_mem q left a key val hq] at hx
                exact fl (h1 ▸ hx)
              have qr : q ∈ r.addrs := by
                by_contra hq
                rw [graft_of_not_mem q left a key val hq] at h
                exact fr (h1 ▸ h)
              exact dj q ql qr
            · exact fr (h1 ▸ h2)
          · rcases mem_addrs_graft q left a key val h with h2 | h2
            · exact fl (h2 ▸ h1)
            · exact dj x h1 h2
/-- The heap after the attach step holds the grafted tree. -/
theorem Shape.graft {h : Heap K V} {t : Tree K V} {par : Option Nat} (s : Shape h t par)
    (nd : t.addrs.Nodup) {q : Nat} {pn : Node K V} (hp : h.read q = some pn) (left : Bool)
    (key : K) (val : V) :
    Shape ((h.alloc ⟨key, val, none, none, some q⟩).1.write q
        (if left then { pn with left := some h.length } else { pn with right := some h.length }))
      (t.graft q left h.length key val) par := by
  have qlt : q < h.length := read_lt hp
  induction t generalizing par with
  | nil => trivial
  | node l b k v r ihl ihr =>
    obtain ⟨e, sl, sr⟩ := s
    obtain ⟨ndl, ndr, anl, anr, dj⟩ := nodup_node nd
    have keep : ∀ (c : Tree K V) (pc : Option Nat), Shape h c pc → q ∉ c.addrs →
        Shape ((h.alloc ⟨key, val, none, none, some q⟩).1.write q
          (if left then { pn with left := some h.length }
            else { pn with right := some h.length })) c pc := by
      intro c pc sc hq
      refine sc.frame ?_
      intro x hx
      have hne : q ≠ x := fun e => hq (e ▸ hx)
      rw [read_write_ne _ hne, read_alloc_old _ (sc.lt_length x hx)]
    simp only [Tree.graft]
    by_cases hb : b = q
    · subst hb
      rw [e] at hp
      simp only [Option.some.injEq] at hp
      subst hp
      simp only [if_true]
      have hnew : ((h.alloc ⟨key, val, none, none, some b⟩).1.write b
          (if left then { (⟨k, v, l.rootPtr, r.rootPtr, par⟩ : Node K V) with
              left := some h.length }
            else { (⟨k, v, l.rootPtr, r.rootPtr, par⟩ : Node K V) with
              right := some h.length })).read h.length
          = some ⟨key, val, none, none, some b⟩ := by
        rw [read_write_ne _ (Nat.ne_of_lt qlt), read_alloc_new]
      cases left with
      | true =>
        simp only [if_true] at hnew ⊢
        refine ⟨?_, ⟨hnew, trivial, trivial⟩, ?_⟩
        · rw [read_write_same _ (by rw [length_alloc]; omega)]
          rfl
        · have := keep r (some b) sr anr
          simpa using this
      | false =>
        simp only [Bool.false_eq_true, if_false] at hnew ⊢
        refine ⟨?_, ?_, ⟨hnew, trivial, trivial⟩⟩
        · rw [read_write_same _ (by rw [length_alloc]; omega)]
          rfl
        · have := keep l (some b) sl anl
          simpa using this
    · simp only [hb, if_false]
      have hbq : q ≠ b := fun e => hb e.symm
      have blt : b < h.length := read_lt e
      refine ⟨?_, ?_, ?_⟩
      · rw [read_write_ne _ hbq, read_alloc_old _ blt, e, rootPtr_graft, rootPtr_graft]
      · by_cases hq : q ∈ l.addrs
        · exact ihl sl ndl
        · rw [graft_of_not_mem q left h.length key val hq]
          exact keep l (some b) sl hq
      · by_cases hq : q ∈ r.addrs
        · exact ihr sr ndr
        · rw [graft_of_not_mem q left h.length key val hq]
          exact keep r (some b) sr hq

/-- On the tree of a map `insertInternal` returns, for every pair and whatever the moved-from
state of the key, and the map it leaves holds a tree again. -/
theorem insertInternal_isTree (comp : K → K → Bool) (moved : K → K) {m : Map K V}
    {t : Tree K V} (w : m.IsTree t) (pair : K × V) :
    ∃ m1 it b t1, m.insertInternal comp moved pair = some (m1, it, b) ∧ m1.IsTree t1 := by
  cases e : t.lookup comp pair.1 with
  | some c => exact ⟨m, some c, false, t, insertInternal_found_any comp moved w pair e, w⟩
  | none =>
    obtain ⟨hr, s, nd⟩ := w
    have fresh : m.heap.length ∉ t.addrs := fun hm => Nat.lt_irrefl _ (s.lt_length _ hm)
    cases t with
    | nil =>
      simp only [Tree.rootPtr] at hr
      refine ⟨⟨(m.heap.alloc ⟨pair.1, pair.2, none, none, none⟩).1, some m.heap.length, 1⟩,
        some m.heap.length, true, Tree.node Tree.nil m.heap.length pair.1 pair.2 Tree.nil,
        ?_, ⟨rfl, ⟨?_, trivial, trivial⟩, by simp [Tree.addrs]⟩⟩
      · simp only [Map.insertInternal, hr, Heap.alloc]
      · exact read_alloc_new _ _
    | node l a k v r =>
      simp only [Tree.rootPtr] at hr
      have hl := insertLoop_eq comp pair.1 s (s.size_le nd)
      obtain ⟨p, hw⟩ := walk_of_lookup_none comp pair.1 none e
      rw [hw] at hl
      simp only [Tree.rootPtr] at hl
      obtain ⟨q, rfl, qm⟩ : ∃ q, p = some q ∧ q ∈ (Tree.node l a k v r).addrs := by
        rcases (walk_fell comp pair.1 hw).2 with ⟨hn, _⟩ | hq
        · cases hn
        · exact hq
      obtain ⟨pn, hp⟩ := s.live q qm
      have qlt : q < m.heap.length := read_lt hp
      have hs := s.graft nd hp (comp (moved pair.1) pn.key) pair.1 pair.2
      refine ⟨⟨_, m.root, (m.node_count + 1) % SIZE_MOD⟩, some m.heap.length, true, _, ?_,
        ⟨?_, hs, nodup_graft _ _ _ _ _ nd fresh⟩⟩
      · simp only [Map.insertInternal, hr, hl]
        rw [read_alloc_old _ qlt, hp]
        simp only [Heap.alloc]
        cases comp (moved pair.1) pn.key <;> rfl
      · show m.root = _
        rw [rootPtr_graft, hr]
        rfl

/-- Every map reachable by `insert` and `erase` calls is a tree, whatever the comparator and
the moved-from state of a key. -/
theorem reachableIE_isTree {comp : K → K → Bool} {moved : K → K} {m : Map K V}
    (hr : ReachableIE comp moved m) : ∃ t, m.IsTree t := by
  induction hr with
  | empty => exact ⟨Tree.nil, isTree_empty⟩
  | @insert m0 m1 key value it b _ h ih =>
    obtain ⟨t, w⟩ := ih
    obtain ⟨m2, it2, b2, t2, hi, w2⟩ := insertInternal_isTree comp moved w (key, value)
    rw [Map.insert, hi] at h
    simp only [Option.some.injEq, Prod.mk.injEq] at h
    rw [← h.1]
    exact ⟨t2, w2⟩
  | @erase m0 m1 key n _ h ih =>
    obtain ⟨t, w⟩ := ih
    cases e : t.lookup comp key with
    | none =>
      rw [erase_absent comp w e] at h
      simp only [Option.some.injEq, Prod.mk.injEq] at h
      rw [← h.1]
      exact ⟨t, w⟩
    | some x =>
      obtain ⟨m2, he, w2, _⟩ := erase_present comp w e
      rw [he] at h
      simp only [Option.some.injEq, Prod.mk.injEq] at h
      rw [← h.1]
      exact ⟨_, w2⟩

/-- C16: in every map reachable from the empty map by `insert` and `erase` calls, whatever
the comparator and whatever a move leaves in a key, the nodes reachable from the root form a
tree in which every node is live, the `parent` of the left child and of the right child of a
node point back to that node, and the root, when there is one, is a node of the tree without
a parent. -/
theorem C16_links {comp : K → K → Bool} {moved : K → K} {m : Map K V}
    (hr : ReachableIE comp moved m) :
    ∃ t, m.IsTree t ∧
      (∀ r, m.root = some r → r ∈ t.addrs ∧ ∃ n, m.heap.read r = some n ∧ n.parent = none) ∧
      (∀ a, a ∈ t.addrs → ∃ n, m.heap.read a = some n ∧
        (∀ c, n.left = some c → ∃ cn, m.heap.read c = some cn ∧ cn.parent = some a) ∧
        (∀ c, n.right = some c → ∃ cn, m.heap.read c = some cn ∧ cn.parent = some a)) := by
  obtain ⟨t, w⟩ := reachableIE_isTree hr
  refine ⟨t, w, ?_, w.2.1.links⟩
  intro r hroot
  have hrp : t.rootPtr = some r := by rw [← w.1, hroot]
  exact ⟨rootPtr_mem_addrs hrp, w.2.1.root_parent hrp⟩

/-- C16 at the map after `insert("a", 0)`, `insert("b", 0)`, `insert("b", 0)` with
`std::string` keys, where each node of `"b"` was hung to the left of `"a"` and the second one
took the place of the first. -/
theorem C16_links_witness :
    ReachableIE strLess movedStr strMapABB ∧
      ∃ t, strMapABB.IsTree t ∧
        (∀ r, strMapABB.root = some r →
          r ∈ t.addrs ∧ ∃ n, strMapABB.heap.read r = some n ∧ n.parent = none) ∧
        (∀ a, a ∈ t.addrs → ∃ n, strMapABB.heap.read a = some n ∧
          (∀ c, n.left = some c →
            ∃ cn, strMapABB.heap.read c = some cn ∧ cn.parent = some a) ∧
          (∀ c, n.right = some c →
            ∃ cn, strMapABB.heap.read c = some cn ∧ cn.parent = some a)) :=
  ⟨reachableIE_strMapABB, C16_links reachableIE_strMapABB⟩

/-- C17: move construction gives the new map the root and the count of the source, hence the
same traversal and `size()`, and leaves the source with no root and count zero, so that its
`size()` is `0`, `empty()` holds and `begin() == end()`; move assignment to a map does the
same after clearing that map, and does nothing when it is the source itself. -/
theorem C17_move (src : Map K V) {this : Map K V} {tt : Tree K V} (wt : this.IsTree tt) :
    ((Map.moveCtor src).1.root = src.root ∧ (Map.moveCtor src).1.node_count = src.node_count ∧
      (Map.moveCtor src).1.traverse = src.traverse ∧ (Map.moveCtor src).1.size = src.size ∧
      (Map.moveCtor src).2.root = none ∧ (Map.moveCtor src).2.node_count = 0 ∧
      (Map.moveCtor src).2.size = 0 ∧ (Map.moveCtor src).2.isEmpty = true ∧
      (Map.moveCtor src).2.begin_ = some (Map.moveCtor src).2.end_) ∧
    (∃ d s, this.moveAssign (some src) = some (d, some s) ∧
      d.root = src.root ∧ d.node_count = src.node_count ∧ d.traverse = src.traverse ∧
      d.size = src.size ∧ s.root = none ∧ s.node_count = 0 ∧ s.size = 0 ∧
      s.isEmpty = true ∧ s.begin_ = some s.end_) ∧
    this.moveAssign none = some (this, none) := by
  refine ⟨⟨rfl, rfl, rfl, rfl, rfl, rfl, rfl, rfl, rfl⟩, ?_, rfl⟩
  obtain ⟨cl, hcl, _⟩ := clear_spec wt
  exact ⟨⟨src.heap, src.root, src.node_count⟩, ⟨src.heap, none, 0⟩,
    by simp only [Map.moveAssign, hcl], rfl, rfl, rfl, rfl, rfl, rfl, rfl, rfl, rfl⟩

/-- C17 at the map with keys `2, 1, 3` as the source, moved, and assigned to the empty
map. -/
theorem C17_move_witness :
    (Map.empty : Map Int Nat).IsTree Tree.nil ∧
    (((Map.moveCtor exMap).1.root = exMap.root ∧
      (Map.moveCtor exMap).1.node_count = exMap.node_count ∧
      (Map.moveCtor exMap).1.traverse = exMap.traverse ∧
      (Map.moveCtor exMap).1.size = exMap.size ∧
      (Map.moveCtor exMap).2.root = none ∧ (Map.moveCtor exMap).2.node_count = 0 ∧
      (Map.moveCtor exMap).2.size = 0 ∧ (Map.moveCtor exMap).2.isEmpty = true ∧
      (Map.moveCtor exMap).2.begin_ = some (Map.moveCtor exMap).2.end_) ∧
    (∃ d s, (Map.empty : Map Int Nat).moveAssign (some exMap) = some (d, some s) ∧
      d.root = exMap.root ∧ d.node_count = exMap.node_count ∧ d.traverse = exMap.traverse ∧
      d.size = exMap.size ∧ s.root = none ∧ s.node_count = 0 ∧ s.size = 0 ∧
      s.isEmpty = true ∧ s.begin_ = some s.end_) ∧
    (Map.empty : Map Int Nat).moveAssign none = some (Map.empty, none)) :=
  ⟨isTree_empty, C17_move exMap isTree_empty⟩

/-! ## The subtree of a node, and the recursion of `eraseNode` -/

/-- The subtree rooted at a node of the tree: it is held by the heap, its nodes are nodes of
the tree, and it is ordered when the tree is. -/
theorem subAt_spec (comp : K → K → Bool) {h : Heap K V} {t : Tree K V} {par : Option Nat}
    (s : Shape h t par) (nd : t.addrs.Nodup) {x : Nat} (hx : x ∈ t.addrs) :
    ∃ l k v r p, t.subAt x = Tree.node l x k v r ∧ Shape h (Tree.node l x k v r) p ∧
      (Tree.node l x k v r).addrs.Nodup ∧
      (∀ b, b ∈ (Tree.node l x k v r).addrs → b ∈ t.addrs) ∧
      (StrictlyIncreasing comp t.keys → StrictlyIncreasing comp (Tree.node l x k v r).keys) := by
  induction t generalizing par with
  | nil => cases hx
  | node l a k v r ihl ihr =>
    obtain ⟨ndl, ndr, anl, anr, dj⟩ := nodup_node nd
    by_cases hax : a = x
    · subst hax
      exact ⟨l, k, v, r, par, by simp only [Tree.subAt, ↓reduceIte], s, nd, fun b hb => hb,
        fun so => so⟩
    · obtain ⟨e, sl, sr⟩ := s
      by_cases hxl : x ∈ l.addrs
      · obtain ⟨l1, k1, v1, r1, p, h1, h2, h3, h4, h5⟩ := ihl sl ndl hxl
        refine ⟨l1, k1, v1, r1, p, by simp only [Tree.subAt, hax, hxl, ↓reduceIte]; exact h1,
          h2, h3, fun b hb => by rw [addrs_node]; exact List.mem_append_left _ (h4 b hb),
          fun so => h5 ((sorted_node comp l r a k v).mp so).1⟩
      · have hxr : x ∈ r.addrs := by
          simp only [Tree.addrs, List.mem_append, List.mem_cons] at hx
          rcases hx with h | h | h
          · exact absurd h hxl
          · exact absurd h.symm hax
          · exact h
        obtain ⟨l1, k1, v1, r1, p, h1, h2, h3, h4, h5⟩ := ihr sr ndr hxr
        refine ⟨l1, k1, v1, r1, p, by simp only [Tree.subAt, hax, hxl, ↓reduceIte]; exact h1,
          h2, h3, fun b hb => by
            rw [addrs_node]
            exact List.mem_append_right _ (List.mem_cons_of_mem _ (h4 b hb)),
          fun so => h5 ((sorted_node comp l r a k v).mp so).2.1⟩

/-- The leftmost node of a tree held by the heap has no left child. -/
theorem minNode_left {h : Heap K V} {t : Tree K V} {par : Option Nat} {s : Nat} {sk : K}
    {sv : V} (sh : Shape h t par) (hm : t.minNode = some (s, sk, sv)) :
    ∃ n, h.read s = some n ∧ n.left = none := by
  induction t generalizing par with
  | nil => simp [Tree.minNode] at hm
  | node l a k v r ihl _ =>
    obtain ⟨e, sl, _⟩ := sh
    cases l with
    | nil =>
      simp only [Tree.minNode, Option.some.injEq, Prod.mk.injEq] at hm
      obtain ⟨rfl, _, _⟩ := hm
      exact ⟨_, e, rfl⟩
    | node ll la lk lv lr =>
      simp only [Tree.minNode] at hm
      exact ihl sl hm

/-- More fuel does not change the result of `eraseNode`. -/
theorem eraseNode_mono : ∀ (fuel : Nat) (m : Map K V) (x : Nat) (m1 : Map K V),
    eraseNode fuel m x = some m1 → eraseNode (fuel + 1) m x = some m1 := by
  intro fuel
  induction fuel with
  | zero => intro m x m1 h; simp [eraseNode] at h
  | succ f ih =>
    intro m x m1 h
    rw [eraseNode] at h ⊢
    cases hread : m.heap.read x with
    | none => simp [hread] at h
    | some n =>
      simp only [hread] at h ⊢
      cases hl : n.left with
      | none =>
        cases hr : n.right with
        | none => simp only [hl, hr] at h ⊢; exact h
        | some r => simp only [hl, hr] at h ⊢; exact h
      | some l =>
        cases hr : n.right with
        | none => simp only [hl, hr] at h ⊢; exact h
        | some r =>
          simp only [hl, hr] at h ⊢
          cases hfm : findMin m.heap m.heap.length (some r) with
          | none => simp [hfm] at h
          | some os =>
            cases os with
            | none => simp [hfm] at h
            | some s =>
              simp only [hfm] at h ⊢
              cases hs : m.heap.read s with
              | none => simp [hs] at h
              | some sn =>
                simp only [hs] at h ⊢
                cases hrec : eraseNode f
                    ⟨m.heap.write x ⟨sn.key, sn.val, some l, some r, n.parent⟩, m.root,
                      m.node_count⟩ s with
                | none => simp [hrec] at h
                | some m2 =>
                  rw [hrec] at h
                  rw [ih _ _ _ hrec]
                  exact h

theorem eraseNode_mono_le {fuel fuel1 : Nat} {m : Map K V} {x : Nat} {m1 : Map K V}
    (h : eraseNode fuel m x = some m1) (hle : fuel ≤ fuel1) :
    eraseNode fuel1 m x = some m1 := by
  induction hle with
  | refl => exact h
  | step _ ih => exact eraseNode_mono _ _ _ _ ih

/-- `eraseNode` on a node of the tree of a map returns with fuel `2`: one nested call is
enough. With fuel `1`, which allows no nested call, it returns on every node with at most one
child. -/
theorem eraseNode_small_fuel {m : Map K V} {t : Tree K V} {x : Nat} (w : m.IsTree t)
    (hx : x ∈ t.addrs) :
    (∃ m1, eraseNode 2 m x = some m1 ∧ m1.IsTree (t.eraseAt x)) ∧
      (¬ t.hasTwo x → ∃ m1, eraseNode 1 m x = some m1 ∧ m1.IsTree (t.eraseAt x)) := by
  obtain ⟨hroot, s, nd⟩ := w
  have nd1 : (t.eraseAt x).addrs.Nodup := (eraseAt_addrs_sublist t x).nodup nd
  obtain ⟨mh, mr, mc⟩ := m
  simp only at hroot s ⊢
  have one : ¬ t.hasTwo x →
      ∃ m1, eraseNode 1 ⟨mh, mr, mc⟩ x = some m1 ∧ m1.IsTree (t.eraseAt x) := by
    intro h2
    rw [eraseAt_eq_splice h2] at nd1 ⊢
    by_cases hrx : t.rootPtr = some x
    · cases t with
      | nil => simp [Tree.addrs] at hx
      | node ll y xk xv lr =>
        simp only [Tree.rootPtr, Option.some.injEq] at hrx
        subst hrx
        obtain ⟨h1, he, s1, _⟩ := splice_top s nd (simple_of_not_hasTwo h2) 0 mc
        simp only [Tree.rootPtr] at hroot
        subst hroot
        exact ⟨⟨h1, _, mc⟩, he, ⟨rfl, s1, nd1⟩⟩
    · obtain ⟨h1, he, s1, _, _⟩ := eraseNode_splice s nd hx hrx h2 0 mr mc
        (by rw [hroot]; exact hrx)
      refine ⟨⟨h1, mr, mc⟩, he, ⟨?_, s1, nd1⟩⟩
      show mr = _
      rw [rootPtr_splice hrx, hroot]
  refine ⟨?_, one⟩
  by_cases h2 : t.hasTwo x
  · obtain ⟨h1, he, s1, hrp, _, _⟩ := eraseNode_two_sub s nd h2 0 mr mc
      (fun b _ hb => by rw [hroot]; exact hb)
    refine ⟨⟨h1, mr, (mc + 1) % SIZE_MOD⟩, he, ⟨?_, s1, nd1⟩⟩
    show mr = _
    rw [hrp, hroot]
  · obtain ⟨m1, he, w1⟩ := one h2
    exact ⟨m1, eraseNode_mono _ _ _ _ he, w1⟩

/-- C18: `eraseNode` on any node of the tree of a map returns with fuel for a single nested
call, and more fuel gives the same result; when the node has two children, the successor
chosen (`findMin` of the right subtree) has no left child, and the nested `eraseNode` call on
it returns with fuel that allows no further nested call. -/
theorem C18_erase_recursion {m : Map K V} {t : Tree K V} (w : m.IsTree t) {x : Nat}
    (hx : x ∈ t.addrs) :
    (∃ m1, eraseNode 2 m x = some m1 ∧ ∀ fuel, 2 ≤ fuel → eraseNode fuel m x = some m1) ∧
    (∀ n l r, m.heap.read x = some n → n.left = some l → n.right = some r →
      ∃ s sn, findMin m.heap m.heap.length (some r) = some (some s) ∧
        m.heap.read s = some sn ∧ sn.left = none ∧
        (m.heap.write x ⟨sn.key, sn.val, some l, some r, n.parent⟩).read s = some sn ∧
        ∃ m2, eraseNode 1
          ⟨m.heap.write x ⟨sn.key, sn.val, some l, some r, n.parent⟩, m.root, m.node_count⟩
          s = some m2) := by
  obtain ⟨m1, he, _⟩ := (eraseNode_small_fuel w hx).1
  refine ⟨⟨m1, he, fun fuel hf => eraseNode_mono_le he hf⟩, ?_⟩
  intro n l r hread hl hr
  obtain ⟨l0, k, v, r0, p, _, ⟨e, _, sr⟩, ndsub, _, _⟩ :=
    subAt_spec (fun _ _ => false) w.2.1 w.2.2 hx
  rw [hread] at e
  simp only [Option.some.injEq] at e
  subst e
  simp only at hl hr
  obtain ⟨_, ndr, _, xnr, _⟩ := nodup_node ndsub
  have hne : r0 ≠ Tree.nil := by
    intro hh
    rw [hh] at hr
    cases hr
  obtain ⟨⟨s, sk, sv⟩, hm⟩ := minNode_of_ne_nil hne
  have hfm := findMin_eq sr (le_trans (sr.size_le ndr) (Nat.le_refl _))
  rw [hm, hr] at hfm
  simp only [Option.map_some'] at hfm
  obtain ⟨sn, hs, hsl⟩ := minNode_left sr hm
  have hxs : x ≠ s := fun hh => xnr (hh ▸ (minNode_entries ndr hm).1)
  refine ⟨s, sn, hfm, hs, hsl, by rw [read_write_ne _ hxs, hs], ?_⟩
  have he1 : eraseNode (1 + 1) m x = some m1 := he
  rw [eraseNode] at he1
  simp only [hread, hl, hr, hfm, hs] at he1
  cases hrec : eraseNode 1
      ⟨m.heap.write x ⟨sn.key, sn.val, some l, some r, p⟩, m.root, m.node_count⟩ s with
  | none => rw [hrec] at he1; cases he1
  | some m2 => exact ⟨m2, rfl⟩

/-- C18 at the root of the map with keys `2, 1, 3`, which has two children. -/
theorem C18_erase_recursion_witness :
    exMap.IsTree exTree ∧ 0 ∈ exTree.addrs ∧
      ((∃ m1, eraseNode 2 exMap 0 = some m1 ∧
        ∀ fuel, 2 ≤ fuel → eraseNode fuel exMap 0 = some m1) ∧
      (∀ n l r, exMap.heap.read 0 = some n → n.left = some l → n.right = some r →
        ∃ s sn, findMin exMap.heap exMap.heap.length (some r) = some (some s) ∧
          exMap.heap.read s = some sn ∧ sn.left = none ∧
          (exMap.heap.write 0 ⟨sn.key, sn.val, some l, some r, n.parent⟩).read s = some sn ∧
          ∃ m2, eraseNode 1
            ⟨exMap.heap.write 0 ⟨sn.key, sn.val, some l, some r, n.parent⟩, exMap.root,
              exMap.node_count⟩ s = some m2)) :=
  ⟨isTree_exMap, by decide, C18_erase_recursion isTree_exMap (by decide)⟩

/-- The node `findMin` returns on a non-empty ordered tree holds the first entry of the
in-order sequence, and its key is strictly less than every other key. -/
theorem findMin_min {comp : K → K → Bool} {h : Heap K V} {t : Tree K V} {par : Option Nat}
    (s : Shape h t par) (nd : t.addrs.Nodup) (so : StrictlyIncreasing comp t.keys)
    (hne : t ≠ Tree.nil) {fuel : Nat} (hf : t.size ≤ fuel) :
    ∃ a n rest, findMin h fuel t.rootPtr = some (some a) ∧ h.read a = some n ∧
      t.entries = (n.key, n.val) :: rest ∧ ∀ e, e ∈ rest → comp n.key e.1 = true := by
  obtain ⟨⟨a, sk, sv⟩, hm⟩ := minNode_of_ne_nil hne
  have hfm := findMin_eq s hf
  rw [hm] at hfm
  obtain ⟨_, ⟨n, hn, rfl, rfl⟩, _⟩ := minNode_spec s nd hm
  have hent := (minNode_entries nd hm).2
  refine ⟨a, n, _, hfm, hn, hent, ?_⟩
  have sp := (strictlyIncreasing_keys comp t).mp so
  rw [hent, List.pairwise_cons] at sp
  exact fun e he => sp.1 e he

/-- C19: on a map satisfying the BST ordering invariant, `findMin` on any node returns the
node of its subtree whose key is strictly less than every other key of the subtree; `begin()`
is the entry of the whole map with the least key; and on a node with a right child, the node
`findMin` returns on the right subtree (the successor of the two-child erase) has a key
greater than the node's key and than every key of its left subtree and less than every other
key of its right subtree. -/
theorem C19_findMin {comp : K → K → Bool} (sw : StrictWeak comp) {m : Map K V}
    {t : Tree K V} (w : m.IsTree t) (bst : t.BST comp) :
    (t ≠ Tree.nil → ∃ a n rest, m.begin_ = some (some a) ∧ m.heap.read a = some n ∧
      m.traverse = some ((n.key, n.val) :: rest) ∧ ∀ e, e ∈ rest → comp n.key e.1 = true) ∧
    (∀ x, x ∈ t.addrs → ∃ l k v r, t.subAt x = Tree.node l x k v r ∧
      (∃ a n rest, findMin m.heap m.heap.length (some x) = some (some a) ∧
        m.heap.read a = some n ∧ (Tree.node l x k v r).entries = (n.key, n.val) :: rest ∧
        ∀ e, e ∈ rest → comp n.key e.1 = true) ∧
      (r ≠ Tree.nil → ∃ a n rest, findMin m.heap m.heap.length r.rootPtr = some (some a) ∧
        m.heap.read a = some n ∧ r.entries = (n.key, n.val) :: rest ∧
        (∀ e, e ∈ rest → comp n.key e.1 = true) ∧
        (∀ e, e ∈ l.entries → comp e.1 n.key = true) ∧ comp k n.key = true)) := by
  have so := (bst_iff_strictlyIncreasing sw t).mp bst
  constructor
  · intro hne
    obtain ⟨a, n, rest, h1, h2, h3, h4⟩ := findMin_min w.2.1 w.2.2 so hne w.tree_size_le
    refine ⟨a, n, rest, ?_, h2, by rw [traverse_eq w, h3], h4⟩
    unfold Map.begin_
    rw [w.1]
    exact h1
  · intro x hx
    obtain ⟨l, k, v, r, p, hsub, ssub, ndsub, hmem, hso⟩ := subAt_spec comp w.2.1 w.2.2 hx
    have sosub := hso so
    have hle : (Tree.node l x k v r).size ≤ m.heap.length := ssub.size_le ndsub
    obtain ⟨sl, sr, hlk, hrk, hlr⟩ := (sorted_node comp l r x k v).mp sosub
    obtain ⟨_, ndr, _, _, _⟩ := nodup_node ndsub
    refine ⟨l, k, v, r, hsub, findMin_min ssub ndsub sosub (by simp) hle, ?_⟩
    intro hne
    obtain ⟨a, n, rest, h1, h2, h3, h4⟩ :=
      findMin_min ssub.2.2 ndr sr hne (le_trans (ssub.2.2.size_le ndr) (Nat.le_refl _))
    have hmemr : (n.key, n.val) ∈ r.entries := by rw [h3]; simp
    exact ⟨a, n, rest, h1, h2, h3, h4, fun e he => hlr e he _ hmemr, hrk _ hmemr⟩

/-- C19 at the map with keys `2, 1, 3`. -/
theorem C19_findMin_witness :
    StrictWeak ltInt ∧ exMap.IsTree exTree ∧ exTree.BST ltInt ∧
    ((exTree ≠ Tree.nil → ∃ a n rest, exMap.begin_ = some (some a) ∧
      exMap.heap.read a = some n ∧ exMap.traverse = some ((n.key, n.val) :: rest) ∧
      ∀ e, e ∈ rest → ltInt n.key e.1 = true) ∧
    (∀ x, x ∈ exTree.addrs → ∃ l k v r, exTree.subAt x = Tree.node l x k v r ∧
      (∃ a n rest, findMin exMap.heap exMap.heap.length (some x) = some (some a) ∧
        exMap.heap.read a = some n ∧ (Tree.node l x k v r).entries = (n.key, n.val) :: rest ∧
        ∀ e, e ∈ rest → ltInt n.key e.1 = true) ∧
      (r ≠ Tree.nil → ∃ a n rest,
        findMin exMap.heap exMap.heap.length r.rootPtr = some (some a) ∧
        exMap.heap.read a = some n ∧ r.entries = (n.key, n.val) :: rest ∧
        (∀ e, e ∈ rest → ltInt n.key e.1 = true) ∧
        (∀ e, e ∈ l.entries → ltInt e.1 n.key = true) ∧ ltInt k n.key = true))) :=
  ⟨strictWeak_ltInt, isTree_exMap, bst_exTree,
    C19_findMin strictWeak_ltInt isTree_exMap bst_exTree⟩

/-! ## `Vector::push_back` -/

theorem ptrdiff_max_lt_size_mod : PTRDIFF_MAX + 1 < SIZE_MOD := by
  unfold PTRDIFF_MAX SIZE_MOD
  decide

theorem two_mul_lt_size_mod {c : Nat} (h : c ≤ PTRDIFF_MAX) : c * 2 < SIZE_MOD := by
  unfold PTRDIFF_MAX at h
  unfold SIZE_MOD
  omega

theorem live_set {T : Type} {l : List (Option T)} (h : ∀ c, c ∈ l → c ≠ none) (i : Nat)
    (x : T) : ∀ c, c ∈ l.set i (some x) → c ≠ none := by
  intro c hc
  rcases List.mem_or_eq_of_mem_set hc with h1 | h1
  · exact h c h1
  · rw [h1]; simp

theorem live_getElem {T : Type} {l : List (Option T)} (h : ∀ c, c ∈ l → c ≠ none) {i : Nat}
    (hi : i < l.length) : ∃ x, l[i]? = some (some x) := by
  have hm : l[i] ∈ l := List.getElem_mem hi
  cases hc : l[i] with
  | none => exact absurd hc (h _ hm)
  | some x => exact ⟨x, by rw [List.getElem?_eq_getElem hi, hc]⟩

/-- The loop of `reallocate` moves the cells from `i` on into the new storage and leaves
every cell of the old storage with an object. -/
theorem moveLoop_spec {T : Type} (ops : ElemOps T) :
    ∀ (n i : Nat) (data new_data : List (Option T)),
      (∀ j, i ≤ j → j < i + n → ∃ x, data[j]? = some (some x)) →
      (∀ j, i ≤ j → j < i + n → ∃ y, new_data[j]? = some (some y)) →
      ∃ old nd, moveLoop ops n i data new_data = some (old, nd) ∧
        nd.length = new_data.length ∧
        (∀ j, nd[j]? = if i ≤ j ∧ j < i + n then data[j]? else new_data[j]?) ∧
        ((∀ c, c ∈ data → c ≠ none) → ∀ c, c ∈ old → c ≠ none) := by
  intro n
  induction n with
  | zero =>
    intro i data new_data _ _
    refine ⟨data, new_data, rfl, rfl, ?_, fun h => h⟩
    intro j
    rw [if_neg (by omega)]
  | succ n ih =>
    intro i data new_data hd hn
    obtain ⟨x, hx⟩ := hd i (Nat.le_refl _) (by omega)
    obtain ⟨y, hy⟩ := hn i (Nat.le_refl _) (by omega)
    have hil : i < new_data.length := by
      by_contra hc
      rw [List.getElem?_eq_none (by omega)] at hy
      cases hy
    obtain ⟨old, nd, e, l1, g1, k1⟩ := ih (i + 1) (data.set i (some (ops.moved x)))
      (new_data.set i (some x))
      (fun j h1 h2 => by
        rw [List.getElem?_set_ne (by omega)]
        exact hd j (by omega) (by omega))
      (fun j h1 h2 => by
        rw [List.getElem?_set_ne (by omega)]
        exact hn j (by omega) (by omega))
    refine ⟨old, nd, ?_, by rw [l1, List.length_set], ?_, fun h => k1 (live_set h _ _)⟩
    · simp only [moveLoop, hx, hy]
      exact e
    · intro j
      rw [g1 j]
      by_cases hj : j = i
      · subst hj
        rw [if_neg (by omega), if_pos ⟨Nat.le_refl _, by omega⟩, List.getElem?_set_self hil, hx]
      · by_cases hk : i + 1 ≤ j ∧ j < i + 1 + n
        · rw [if_pos hk, if_pos ⟨by omega, by omega⟩, List.getElem?_set_ne (fun e => hj e.symm)]
        · rw [if_neg hk, if_neg (by omega), List.getElem?_set_ne (fun e => hj e.symm)]

/-- `reallocate(c)` with `size_ <= c` on a vector whose cells all hold an object (or whose
destructor does nothing): the new storage has `c` cells, the first `size_` hold the elements
and the others default-constructed objects. -/
theorem reallocate_spec {T : Type} [Inhabited T] (ops : ElemOps T) (v : Vector T) (c : Nat)
    (hc : v.size_ ≤ c)
    (hel : ∀ j, j < v.size_ → ∃ x, v.data[j]? = some (some x))
    (hlive : ops.trivial = true ∨ v.Live) :
    ∃ nd, v.reallocate ops c = some ⟨nd, v.alloc + 1, c, v.size_⟩ ∧ nd.length = c ∧
      (∀ j, j < v.size_ → nd[j]? = v.data[j]?) ∧
      (∀ j, v.size_ ≤ j → j < c → nd[j]? = some (some default)) ∧
      (∀ x, x ∈ nd → x ≠ none) := by
  obtain ⟨old, nd, e, l1, g1, k1⟩ := moveLoop_spec ops v.size_ 0 v.data
    (List.replicate c (some default))
    (fun j _ h2 => hel j (by omega))
    (fun j _ h2 => ⟨default, by
      rw [List.getElem?_eq_getElem (by rw [List.length_replicate]; omega)]
      simp⟩)
  have hdel : deleteArray ops old = some () := by
    unfold deleteArray
    rcases hlive with h | h
    · simp [h]
    · have := k1 h
      have hall : old.all Option.isSome = true := by
        rw [List.all_eq_true]
        intro x hx
        cases x with
        | none => exact absurd rfl (this _ hx)
        | some _ => rfl
      simp [hall]
  have hlen : nd.length = c := by rw [l1, List.length_replicate]
  have hrep : ∀ j, j < c → (List.replicate c (some (default : T)))[j]? = some (some default) := by
    intro j hj
    rw [List.getElem?_eq_getElem (by rw [List.length_replicate]; exact hj)]
    simp
  refine ⟨nd, ?_, hlen, ?_, ?_, ?_⟩
  · simp only [Vector.reallocate, e, hdel]
  · intro j hj
    rw [g1 j, if_pos ⟨Nat.zero_le _, by omega⟩]
  · intro j h1 h2
    rw [g1 j, if_neg (by omega)]
    exact hrep j h2
  · intro x hx
    obtain ⟨j, hj, rfl⟩ := List.getElem_of_mem hx
    have hj1 : j < c := by omega
    have := g1 j
    rw [List.getElem?_eq_getElem hj] at this
    by_cases hjs : j < v.size_
    · rw [if_pos ⟨Nat.zero_le _, by omega⟩] at this
      obtain ⟨x, hx⟩ := hel j hjs
      rw [hx] at this
      simp only [Option.some.injEq] at this
      rw [this]; simp
    · rw [if_neg (by omega), hrep j hj1] at this
      simp only [Option.some.injEq] at this
      rw [this]; simp
/-- `push_back(value)` on a vector whose cells all hold an object, for an argument that does
not refer to the storage, or for any readable argument when no reallocation is due: the
contents become `xs` followed by the value, the size grows by one, the earlier elements stay
at their index, and the capacity follows the doubling rule. -/
theorem push_back_spec {T : Type} [Inhabited T] (ops : ElemOps T) (v : Vector T) (wf : v.WF)
    (live : v.Live) (value : Ref T) (x : T)
    (hval : value = Ref.ext x ∨ (v.size_ < v.capacity_ ∧ v.deref value = some x)) :
    ∃ v1, v.push_back ops value = some v1 ∧ v1.contents = v.contents ++ [some x] ∧
      v1.size = v.size + 1 ∧ (∀ i, i < v.size → v1.data[i]? = v.data[i]?) ∧
      v1.data[v.size]? = some (some x) ∧
      (v.size < v.capacity → v1.capacity = v.capacity) ∧
      (v.size = v.capacity → v1.capacity = if v.capacity = 0 then 1 else 2 * v.capacity) ∧
      v1.data.length = v1.capacity ∧ v1.size ≤ v1.capacity ∧ v1.Live := by
  obtain ⟨hlen, hsz, hmax⟩ := wf
  have hlt := two_mul_lt_size_mod hmax
  have hpm := ptrdiff_max_lt_size_mod
  have hel : ∀ j, j < v.size_ → ∃ y, v.data[j]? = some (some y) := fun j hj =>
    live_getElem live (by omega)
  -- the vector after the reservation step
  have step : ∃ v0, (if v.size_ = v.capacity_ then
        v.reserve ops (if v.capacity_ = 0 then 1 else (v.capacity_ * 2) % SIZE_MOD)
      else some v) = some v0 ∧ v0.size_ = v.size_ ∧ v0.size_ < v0.data.length ∧
      v0.data.length = v0.capacity_ ∧ (∀ j, j < v.size_ → v0.data[j]? = v.data[j]?) ∧
      (v.size_ < v.capacity_ → v0.capacity_ = v.capacity_) ∧
      (v.size_ = v.capacity_ →
        v0.capacity_ = if v.capacity_ = 0 then 1 else 2 * v.capacity_) ∧
      v0.Live ∧ v0.deref value = some x ∧ v0.capacity_ ≤ 2 * v.capacity_ + 1 := by
    by_cases hfull : v.size_ = v.capacity_
    · have hnew : (if v.capacity_ = 0 then 1 else (v.capacity_ * 2) % SIZE_MOD) =
          if v.capacity_ = 0 then 1 else 2 * v.capacity_ := by
        split
        · rfl
        · rw [Nat.mod_eq_of_lt hlt, Nat.mul_comm]
      have hgt : (if v.capacity_ = 0 then 1 else 2 * v.capacity_) > v.capacity_ := by
        split <;> omega
      obtain ⟨nd, hv0, hl0, hd0, _, hlive0⟩ := reallocate_spec ops v
        (if v.capacity_ = 0 then 1 else 2 * v.capacity_) (by omega) hel (Or.inr live)
      have hx : value = Ref.ext x := by
        rcases hval with h | h
        · exact h
        · omega
      refine ⟨⟨nd, v.alloc + 1, if v.capacity_ = 0 then 1 else 2 * v.capacity_, v.size_⟩, ?_, rfl,
        ?_, hl0, hd0, fun hh => by omega, fun _ => rfl, hlive0, ?_, ?_⟩
      · simp only [hfull, ↓reduceIte, hnew, Vector.reserve, hgt]
        rw [hv0, hfull]
      · show v.size_ < nd.length
        omega
      · rw [hx]; rfl
      · show (if v.capacity_ = 0 then 1 else 2 * v.capacity_) ≤ 2 * v.capacity_ + 1
        split <;> omega
    · refine ⟨v, by simp only [hfull, ↓reduceIte], rfl, by omega, hlen, fun _ _ => rfl,
        fun _ => rfl, fun hh => absurd hh hfull, live, ?_, by omega⟩
      rcases hval with h | h
      · rw [h]; rfl
      · exact h.2
  obtain ⟨v0, hv0, hs0, hlt0, hl0, hd0, hc1, hc2, hlive0, hder, hcap⟩ := step
  obtain ⟨y, hy⟩ := live_getElem hlive0 hlt0
  have hsm : (v0.size_ + 1) % SIZE_MOD = v.size_ + 1 := by
    rw [hs0]
    apply Nat.mod_eq_of_lt
    omega
  refine ⟨⟨v0.data.set v0.size_ (some x), v0.alloc, v0.capacity_, v.size_ + 1⟩, ?_, ?_, rfl,
    ?_, ?_, hc1, hc2, ?_, ?_, live_set hlive0 _ _⟩
  · simp only [Vector.push_back, hv0, hder, hy, hsm]
  · show (v0.data.set v0.size_ (some x)).take (v.size_ + 1) = v.data.take v.size_ ++ [some x]
    apply List.ext_getElem?
    intro j
    rw [List.getElem?_take, List.getElem?_append, hs0]
    simp only [List.length_take, List.getElem?_take]
    have hmin : min v.size_ v.data.length = v.size_ := by omega
    rw [hmin]
    by_cases hj : j < v.size_
    · have hne : v.size_ ≠ j := by omega
      simp only [hj, ↓reduceIte, show j < v.size_ + 1 by omega, List.getElem?_set_ne hne]
      exact hd0 j hj
    · by_cases hje : j = v.size_
      · subst hje
        simp [hs0 ▸ hlt0]
      · have h3 : ¬ j < v.size_ + 1 := by omega
        have h4 : j - v.size_ ≠ 0 := by omega
        simp only [hj, h3, ↓reduceIte]
        cases hk : j - v.size_ with
        | zero => exact absurd hk h4
        | succ k => rfl
  · intro i hi
    have hi1 : i < v.size_ := hi
    have hne : v0.size_ ≠ i := by omega
    show (v0.data.set v0.size_ (some x))[i]? = _
    rw [List.getElem?_set_ne hne]
    exact hd0 i hi
  · show (v0.data.set v0.size_ (some x))[v.size_]? = _
    rw [← hs0, List.getElem?_set_self hlt0]
  · show (v0.data.set v0.size_ (some x)).length = v0.capacity_
    rw [List.length_set, hl0]
  · show v.size_ + 1 ≤ v0.capacity_
    omega

/-- `push_back(value)` on a full vector, for an argument that refers to a cell of its storage:
`reserve` deletes the storage before the argument is read. -/
theorem push_back_alias {T : Type} [Inhabited T] (ops : ElemOps T) (v : Vector T) (wf : v.WF)
    (live : v.Live) (hfull : v.size_ = v.capacity_) (i : Nat) :
    v.push_back ops (Ref.cell v.alloc i) = none := by
  obtain ⟨hlen, hsz, hmax⟩ := wf
  have hlt := two_mul_lt_size_mod hmax
  have hnew : (if v.capacity_ = 0 then 1 else (v.capacity_ * 2) % SIZE_MOD) =
      if v.capacity_ = 0 then 1 else 2 * v.capacity_ := by
    split
    · rfl
    · rw [Nat.mod_eq_of_lt hlt, Nat.mul_comm]
  have hgt : (if v.capacity_ = 0 then 1 else 2 * v.capacity_) > v.capacity_ := by
    split <;> omega
  obtain ⟨nd, hv0, _⟩ := reallocate_spec ops v
    (if v.capacity_ = 0 then 1 else 2 * v.capacity_) (by omega)
    (fun j hj => live_getElem live (by omega)) (Or.inr live)
  have hne : ¬ v.alloc = v.alloc + 1 := by omega
  simp only [Vector.push_back, hfull, ↓reduceIte, hnew, Vector.reserve, hgt]
  rw [hv0]
  simp only [Vector.deref, hne, if_false]

/-- C20, failing input: `Vector<int> v{1, 2}; v.push_back(v[0]);`. The vector is full, so
`push_back` reserves: `reallocate` moves the elements to a new storage and deletes the old
one, to which the argument refers; the read of the argument in `data[size_] = value` is a
read of deleted storage, and no contents `1, 2, 1` result. With an argument outside the
vector the contents become `1, 2, 1`. -/
theorem C20_push_back_alias :
    Vector.ofList intOps [1, 2] = some exFull ∧
    exFull.contents = [some 1, some 2] ∧ exFull.size = exFull.capacity ∧
    exFull.deref (Ref.cell exFull.alloc 0) = some 1 ∧
    (∃ v1, exFull.reserve intOps 4 = some v1 ∧ v1.contents = [some 1, some 2] ∧
      v1.deref (Ref.cell exFull.alloc 0) = none) ∧
    exFull.push_back intOps (Ref.cell exFull.alloc 0) = none ∧
    (∃ v1, exFull.push_back intOps (Ref.ext 1) = some v1 ∧
      v1.contents = [some 1, some 2, some 1]) :=
  ⟨by with_unfolding_all rfl, rfl, rfl, rfl,
    ⟨⟨[some 1, some 2, some 0, some 0], 2, 4, 2⟩, by with_unfolding_all rfl, rfl, rfl⟩,
    push_back_alias intOps exFull ⟨rfl, by decide, by unfold PTRDIFF_MAX; decide⟩
      (by unfold Vector.Live exFull; decide) rfl 0,
    ⟨⟨[some 1, some 2, some 1, some 0], 2, 4, 3⟩, by with_unfolding_all rfl, rfl⟩⟩

/-! # The claims, concluded -/

/-! ## `split_line` -/

theorem findIn_none (c : Char) : ∀ (xs : List Char) (i : Nat), findIn c xs i = none → c ∉ xs := by
  intro xs
  induction xs with
  | nil => intro i _; simp
  | cons x xs ih =>
    intro i h
    by_cases hx : x = c
    · simp [findIn, hx] at h
    · simp only [findIn, hx, if_false] at h
      have := ih (i + 1) h
      simp only [List.mem_cons, not_or]
      exact ⟨fun e => hx e.symm, this⟩

theorem findIn_some (c : Char) : ∀ (xs : List Char) (i e : Nat), findIn c xs i = some e →
    ∃ pre post, xs = pre ++ c :: post ∧ c ∉ pre ∧ e = i + pre.length := by
  intro xs
  induction xs with
  | nil => intro i e h; simp [findIn] at h
  | cons x xs ih =>
    intro i e h
    by_cases hx : x = c
    · simp only [findIn, hx, if_true, Option.some.injEq] at h
      exact ⟨[], xs, by simp [hx], by simp, by simp [h]⟩
    · simp only [findIn, hx, if_false] at h
      obtain ⟨pre, post, e1, e2, e3⟩ := ih (i + 1) e h
      refine ⟨x :: pre, post, by simp [e1], ?_, by simp [e3]; omega⟩
      simp only [List.mem_cons, not_or]
      exact ⟨fun e => hx e.symm, e2⟩

theorem intercalate_cons_of_ne_nil (sep t : List Char) {ts : List (List Char)} (h : ts ≠ []) :
    sep.intercalate (t :: ts) = t ++ sep ++ sep.intercalate ts := by
  cases ts with
  | nil => exact absurd rfl h
  | cons u us => simp [List.intercalate, List.intersperse]

theorem splitLoop_none (line : Str) (fuel : Nat) (args : List Str) (start : Nat) :
    splitLoop line fuel args start none
      = match substrFrom line start with
        | none => none
        | some tok => some (args ++ [tok]) := by
  cases fuel <;> rfl

/-- The loop of `split_line` from a token start `start` on: it appends the tokens of the rest
of the line. -/
theorem splitLoop_spec (line : Str) (hlen : line.length < SIZE_MOD) :
    ∀ (fuel : Nat) (args : List Str) (start : Nat), start ≤ line.length →
      line.length ≤ fuel + start →
      ∃ toks, splitLoop line fuel args start (strFind line ' ' start) = some (args ++ toks)
        ∧ toks ≠ [] ∧ (∀ t ∈ toks, ' ' ∉ t)
        ∧ toks.length = (line.drop start).count ' ' + 1
        ∧ [' '].intercalate toks = line.drop start := by
  intro fuel
  induction fuel with
  | zero =>
    intro args start hs hf
    have hd : line.drop start = [] := List.drop_eq_nil_of_le (by omega)
    have hfind : strFind line ' ' start = none := by simp [strFind, hd, findIn]
    refine ⟨[[]], ?_, by simp, by simp, by simp [hd], by simp [hd, List.intercalate]⟩
    rw [hfind, splitLoop_none]
    simp [substrFrom, hd, Nat.not_lt.mpr hs]
  | succ fuel ih =>
    intro args start hs hf
    cases hfind : strFind line ' ' start with
    | none =>
      have hno := findIn_none ' ' _ _ hfind
      refine ⟨[line.drop start], ?_, by simp, by simpa using hno, ?_, by simp [List.intercalate]⟩
      · rw [splitLoop_none]
        simp [substrFrom, Nat.not_lt.mpr hs]
      · simp [List.count_eq_zero.mpr hno]
    | some e =>
      obtain ⟨pre, post, e1, e2, e3⟩ := findIn_some ' ' _ _ _ hfind
      have hl : (line.drop start).length = pre.length + (post.length + 1) := by
        rw [e1]; simp
      rw [List.length_drop] at hl
      have he1 : (e + 1) % SIZE_MOD = e + 1 := Nat.mod_eq_of_lt (by omega)
      have he2 : (e + SIZE_MOD - start) % SIZE_MOD = pre.length := by
        have : e + SIZE_MOD - start = pre.length + SIZE_MOD := by omega
        rw [this, Nat.add_mod_right]
        exact Nat.mod_eq_of_lt (by omega)
      have hpost : line.drop (e + 1) = post := by
        have : e + 1 = start + (pre.length + 1) := by omega
        rw [this, ← List.drop_drop, e1]
        simp
      obtain ⟨toks, r1, r2, r3, r4, r5⟩ := ih (args ++ [pre]) (e + 1) (by omega) (by omega)
      refine ⟨pre :: toks, ?_, by simp, ?_, ?_, ?_⟩
      · show splitLoop line (fuel + 1) args start (some e) = _
        simp only [splitLoop, substr, Nat.not_lt.mpr hs, if_false, he1, he2, e1,
          List.take_left, gt_iff_lt]
        rw [r1]
        simp
      · intro t ht
        rcases List.mem_cons.mp ht with h | h
        · rw [h]; exact e2
        · exact r3 t h
      · rw [e1, List.length_cons, r4, hpost]
        simp [List.count_append, List.count_eq_zero.mpr e2]
      · rw [intercalate_cons_of_ne_nil _ _ r2, r5, hpost, e1]
        simp

/-- C24: `split_line(line)` returns, for every string `line` (whose length is a `size_t`), a
non-empty list of tokens without space characters, one more token than `line` has spaces,
and joining the tokens with single spaces gives `line` back; the empty line gives the single
empty token, and the `args.empty()` branch of `execute` is never taken on the result. -/
theorem C24_split_line (line : Str) (hlen : line.length < SIZE_MOD) :
    (∃ args, split_line line = some args
      ∧ args ≠ []
      ∧ (∀ t ∈ args, ' ' ∉ t)
      ∧ args.length = line.count ' ' + 1
      ∧ [' '].intercalate args = line)
    ∧ split_line [] = some [[]]
    ∧ shellLoopTakesEmptyBranch line = some false := by
  obtain ⟨toks, r1, r2, r3, r4, r5⟩ := splitLoop_spec line hlen line.length [] 0 (by omega) (by omega)
  have hs : split_line line = some toks := by simpa [split_line] using r1
  refine ⟨⟨toks, hs, r2, r3, by simpa using r4, by simpa using r5⟩, rfl, ?_⟩
  rw [shellLoopTakesEmptyBranch, hs]
  cases toks with
  | nil => exact absurd rfl r2
  | cons t ts => rfl

theorem C24_split_line_witness :
    ("ls -l  src".toList.length < SIZE_MOD)
    ∧ ((∃ args, split_line "ls -l  src".toList = some args
      ∧ args ≠ []
      ∧ (∀ t ∈ args, ' ' ∉ t)
      ∧ args.length = "ls -l  src".toList.count ' ' + 1
      ∧ [' '].intercalate args = "ls -l  src".toList)
    ∧ split_line [] = some [[]]
    ∧ shellLoopTakesEmptyBranch "ls -l  src".toList = some false) :=
  ⟨by unfold SIZE_MOD; decide, C24_split_line _ (by unfold SIZE_MOD; decide)⟩

/-! ## `Vector::erase` -/

/-- The shifting loop of `erase` from index `i` on, on cells that hold objects: every cell
from `i` up to the new end takes the value `count` cells further, or is moved onto itself
when `count` is `0`; the cells before `i` and from `size_` on keep theirs. -/
theorem shiftLoop_spec {T : Type} (ops : ElemOps T) (count size_ : Nat)
    (hsz : size_ < SIZE_MOD) :
    ∀ (fuel i : Nat) (data : List (Option T)), size_ ≤ data.length → i + count ≤ size_ →
      size_ ≤ fuel + (i + count) → (∀ j, j < size_ → ∃ x, data[j]? = some (some x)) →
      ∃ d1, shiftLoop ops count size_ fuel i data = some d1 ∧ d1.length = data.length ∧
        (∀ j, j < i → d1[j]? = data[j]?) ∧
        (∀ j, i ≤ j → j + count < size_ →
          d1[j]? = if count = 0 then (data[j]?).map (Option.map ops.selfMoved)
            else data[j + count]?) ∧
        (∀ j, size_ ≤ j → d1[j]? = data[j]?) ∧
        (∀ j, j < size_ → ∃ x, d1[j]? = some (some x)) := by
  intro fuel
  induction fuel with
  | zero =>
    intro i data _ h1 h2 hl
    have hm : (i + count) % SIZE_MOD = i + count := Nat.mod_eq_of_lt (by omega)
    refine ⟨data, ?_, rfl, fun _ _ => rfl, fun j h3 h4 => by omega, fun _ _ => rfl, hl⟩
    simp only [shiftLoop, hm, show ¬ (i + count < size_) by omega, if_false]
  | succ fuel ih =>
    intro i data hd h1 h2 hl
    have hm : (i + count) % SIZE_MOD = i + count := Nat.mod_eq_of_lt (by omega)
    by_cases hc : i + count < size_
    · have hm1 : (i + 1) % SIZE_MOD = i + 1 := Nat.mod_eq_of_lt (by omega)
      obtain ⟨x, hx⟩ := hl (i + count) hc
      obtain ⟨y, hy⟩ := hl i (by omega)
      have hi : i < data.length := by omega
      by_cases h0 : count = 0
      · subst h0
        simp only [Nat.add_zero] at hx hm hc h1 h2
        obtain ⟨d1, e1, l1, a1, b1, c1, k1⟩ := ih (i + 1) (data.set i (some (ops.selfMoved x)))
          (by rw [List.length_set]; exact hd) (by omega) (by omega)
          (fun j hj => by
            by_cases hji : i = j
            · subst hji
              exact ⟨_, List.getElem?_set_self hi⟩
            · rw [List.getElem?_set_ne hji]
              exact hl j hj)
        refine ⟨d1, ?_, by rw [l1, List.length_set], ?_, ?_, ?_, k1⟩
        · simp only [shiftLoop, Nat.add_zero, hm, hc, if_true, hx, hm1]
          exact e1
        · intro j hj
          rw [a1 j (by omega), List.getElem?_set_ne (by omega)]
        · intro j h3 h4
          rw [if_pos rfl]
          by_cases hji : j = i
          · subst hji
            rw [a1 j (by omega), List.getElem?_set_self hi, hx]
            rfl
          · rw [b1 j (by omega) h4, if_pos rfl, List.getElem?_set_ne (fun e => hji e.symm)]
        · intro j hj
          rw [c1 j hj, List.getElem?_set_ne (by omega)]
      · have hne : ¬ (i + count = i) := by omega
        have hlen2 : i + count < (data.set i (some x)).length := by
          rw [List.length_set]; omega
        obtain ⟨d1, e1, l1, a1, b1, c1, k1⟩ := ih (i + 1)
          ((data.set i (some x)).set (i + count) (some (ops.moved x)))
          (by rw [List.length_set, List.length_set]; exact hd) (by omega) (by omega)
          (fun j hj => by
            by_cases hjc : i + count = j
            · subst hjc
              exact ⟨_, List.getElem?_set_self hlen2⟩
            · rw [List.getElem?_set_ne hjc]
              by_cases hji : i = j
              · subst hji
                exact ⟨_, List.getElem?_set_self hi⟩
              · rw [List.getElem?_set_ne hji]
                exact hl j hj)
        refine ⟨d1, ?_, by rw [l1, List.length_set, List.length_set], ?_, ?_, ?_, k1⟩
        · simp only [shiftLoop, hm, hc, if_true, hx, hy, hm1, hne, if_false]
          exact e1
        · intro j hj
          rw [a1 j (by omega), List.getElem?_set_ne (by omega), List.getElem?_set_ne (by omega)]
        · intro j h3 h4
          rw [if_neg h0]
          by_cases hji : j = i
          · subst hji
            rw [a1 j (by omega), List.getElem?_set_ne (by omega), List.getElem?_set_self hi, hx]
          · rw [b1 j (by omega) h4, if_neg h0, List.getElem?_set_ne (by omega),
              List.getElem?_set_ne (by omega)]
        · intro j hj
          rw [c1 j hj, List.getElem?_set_ne (by omega), List.getElem?_set_ne (by omega)]
    · refine ⟨data, ?_, rfl, fun _ _ => rfl, fun j h3 h4 => by omega, fun _ _ => rfl, hl⟩
      simp only [shiftLoop, hm, hc, if_false]

/-- The destructor loop of `erase` from index `i` on, on cells that hold objects: it ends,
leaves the cells before `i` and from `size_` on as they are, and the cells from `i` to
`size_` without object unless the destructor does nothing. -/
theorem destroyLoop_spec {T : Type} (ops : ElemOps T) (size_ : Nat) (hsz : size_ < SIZE_MOD) :
    ∀ (fuel i : Nat) (data : List (Option T)), size_ ≤ data.length → i ≤ size_ →
      size_ ≤ fuel + i → (∀ j, i ≤ j → j < size_ → ∃ x, data[j]? = some (some x)) →
      ∃ d2, destroyLoop ops size_ fuel i data = some d2 ∧ d2.length = data.length ∧
        (∀ j, j < i → d2[j]? = data[j]?) ∧ (∀ j, size_ ≤ j → d2[j]? = data[j]?) ∧
        (ops.trivial = true → d2 = data) ∧
        (ops.trivial = false → ∀ j, i ≤ j → j < size_ → d2[j]? = some none) := by
  intro fuel
  induction fuel with
  | zero =>
    intro i data _ h1 h2 _
    refine ⟨data, ?_, rfl, fun _ _ => rfl, fun _ _ => rfl, fun _ => rfl,
      fun _ j h3 h4 => by omega⟩
    simp only [destroyLoop, show ¬ (i < size_) by omega, if_false]
  | succ fuel ih =>
    intro i data hd h1 h2 hl
    by_cases hc : i < size_
    · have hm1 : (i + 1) % SIZE_MOD = i + 1 := Nat.mod_eq_of_lt (by omega)
      obtain ⟨x, hx⟩ := hl i (Nat.le_refl _) hc
      have hi : i < data.length := by omega
      cases ht : ops.trivial with
      | true =>
        obtain ⟨d2, e2, l2, a2, b2, c2, _⟩ := ih (i + 1) data hd (by omega) (by omega)
          (fun j h3 h4 => hl j (by omega) h4)
        refine ⟨d2, ?_, l2, fun j hj => a2 j (by omega), b2, fun _ => c2 ht,
          fun h => by cases h⟩
        simp only [destroyLoop, hc, if_true, hx, hm1, ht]
        exact e2
      | false =>
        obtain ⟨d2, e2, l2, a2, b2, _, k2⟩ := ih (i + 1) (data.set i none)
          (by rw [List.length_set]; exact hd) (by omega) (by omega)
          (fun j h3 h4 => by
            rw [List.getElem?_set_ne (by omega)]
            exact hl j (by omega) h4)
        refine ⟨d2, ?_, by rw [l2, List.length_set], ?_, ?_, (fun h => by cases h), ?_⟩
        · simp only [destroyLoop, hc, if_true, hx, hm1, ht, Bool.false_eq_true, if_false]
          exact e2
        · intro j hj
          rw [a2 j (by omega), List.getElem?_set_ne (by omega)]
        · intro j hj
          rw [b2 j hj, List.getElem?_set_ne (by omega)]
        · intro _ j h3 h4
          by_cases hji : j = i
          · subst hji
            rw [a2 j (by omega), List.getElem?_set_self hi]
          · exact k2 ht j (by omega) h4
    · refine ⟨data, ?_, rfl, fun _ _ => rfl, fun _ _ => rfl, fun _ => rfl,
        fun _ j h3 h4 => by omega⟩
      simp only [destroyLoop, hc, if_false]
theorem contents_erase {T : Type} (data d1 : List (Option T)) (n s e : Nat) (hse : s ≤ e)
    (hen : e ≤ n) (hn : n ≤ data.length)
    (g : ∀ j, j < n - (e - s) → d1[j]? = if s ≤ j then data[j + (e - s)]? else data[j]?) :
    d1.take (n - (e - s)) = (data.take n).take s ++ (data.take n).drop e := by
  apply List.ext_getElem?
  intro j
  rw [List.getElem?_take, List.getElem?_append]
  simp only [List.length_take, List.getElem?_take, List.getElem?_drop]
  have hmin : min s (min n data.length) = s := by omega
  rw [hmin]
  by_cases hj : j < s
  · rw [if_pos (by omega), g j (by omega), if_neg (by omega), if_pos hj, if_pos hj,
      if_pos (by omega)]
  · rw [if_neg hj]
    by_cases hk : j < n - (e - s)
    · rw [if_pos hk, g j hk, if_pos (by omega), if_pos (by omega)]
      congr 1
      omega
    · rw [if_neg hk, if_neg (by omega)]

theorem contents_erase_empty {T : Type} (f : T → T) (data d1 : List (Option T)) (n s : Nat)
    (hsn : s ≤ n) (hn : n ≤ data.length)
    (g : ∀ j, j < n → d1[j]? = if s ≤ j then (data[j]?).map (Option.map f) else data[j]?) :
    d1.take n = (data.take n).take s ++ ((data.take n).drop s).map (Option.map f) := by
  apply List.ext_getElem?
  intro j
  rw [List.getElem?_take, List.getElem?_append]
  simp only [List.length_take, List.getElem?_take, List.getElem?_drop, List.getElem?_map]
  have hmin : min s (min n data.length) = s := by omega
  rw [hmin]
  by_cases hj : j < s
  · rw [if_pos (by omega), g j (by omega), if_neg (by omega), if_pos hj, if_pos hj,
      if_pos (by omega)]
  · rw [if_neg hj]
    by_cases hk : j < n
    · rw [if_pos hk, g j hk, if_pos (by omega), if_pos (by omega)]
      congr 2
      omega
    · rw [if_neg hk, if_neg (by omega)]
      rfl

/-- `erase(begin() + s, begin() + e)` with `0 <= s <= e <= n` on a vector whose elements are
objects: the call returns the position `s`, the size is `n - (e - s)` and the capacity as it
was. For `s < e` the contents are `xs` without the elements at the indices `s..e-1`; for
`s = e` every element from `s` on has been moved onto itself. -/
theorem erase_spec {T : Type} (ops : ElemOps T) (v : Vector T) (wf : v.WF)
    (hel : ∀ j, j < v.size_ → ∃ x, v.data[j]? = some (some x)) (s e : Nat) (hse : s ≤ e)
    (hen : e ≤ v.size_) :
    ∃ v1, v.erase ops (s : Int) (e : Int) = some (v1, EraseResult.pos s) ∧
      v1.size = v.size - (e - s) ∧ v1.capacity = v.capacity ∧ v1.WF ∧
      (∀ j, j < v1.size_ → ∃ x, v1.data[j]? = some (some x)) ∧
      (s < e → v1.contents = v.contents.take s ++ v.contents.drop e) ∧
      (s = e → v1.contents =
        v.contents.take s ++ (v.contents.drop s).map (Option.map ops.selfMoved)) := by
  obtain ⟨hlen, hsz, hmax⟩ := wf
  have hlt := ptrdiff_max_lt_size_mod
  have hs : s % SIZE_MOD = s := Nat.mod_eq_of_lt (by omega)
  have he : e % SIZE_MOD = e := Nat.mod_eq_of_lt (by omega)
  have hcount : (e + SIZE_MOD - s) % SIZE_MOD = e - s := by
    have : e + SIZE_MOD - s = (e - s) + SIZE_MOD := by omega
    rw [this, Nat.add_mod_right]
    exact Nat.mod_eq_of_lt (by omega)
  have hnew : (v.size_ + SIZE_MOD - (e - s)) % SIZE_MOD = v.size_ - (e - s) := by
    have : v.size_ + SIZE_MOD - (e - s) = (v.size_ - (e - s)) + SIZE_MOD := by omega
    rw [this, Nat.add_mod_right]
    exact Nat.mod_eq_of_lt (by omega)
  obtain ⟨d1, e1, l1, a1, b1, c1, k1⟩ := shiftLoop_spec ops (e - s) v.size_ (by omega) v.size_
    s v.data (by omega) (by omega) (by omega) hel
  obtain ⟨d2, e2, l2, a2, b2, _, _⟩ := destroyLoop_spec ops v.size_ (by omega) v.size_
    (v.size_ - (e - s)) d1 (by omega) (by omega) (by omega) (fun j _ h => k1 j h)
  have hguard : ¬ ((s : Int) > (e : Int) ∨ (s : Int) < 0 ∨ (e : Int) > (v.size_ : Int)) := by
    omega
  have hd2 : ∀ j, j < v.size_ - (e - s) →
      d2[j]? = if s ≤ j then
          (if e - s = 0 then (v.data[j]?).map (Option.map ops.selfMoved)
            else v.data[j + (e - s)]?)
        else v.data[j]? := by
    intro j hj
    rw [a2 j hj]
    by_cases hsj : s ≤ j
    · rw [if_pos hsj, b1 j hsj (by omega)]
    · rw [if_neg hsj, a1 j (by omega)]
  refine ⟨⟨d2, v.alloc, v.capacity_, v.size_ - (e - s)⟩, ?_, rfl, rfl,
    ⟨by rw [l2, l1]; exact hlen, by show v.size_ - (e - s) ≤ v.capacity_; omega, hmax⟩,
    ?_, ?_, ?_⟩
  · simp only [Vector.erase, hguard, if_false, Int.toNat_ofNat, hs, he, hcount, e1, hnew, e2]
  · intro j hj
    have hj1 : j < v.size_ - (e - s) := hj
    show ∃ x, d2[j]? = some (some x)
    rw [a2 j hj1]
    exact k1 j (by omega)
  · intro hlt1
    refine contents_erase v.data d2 v.size_ s e hse hen (by omega) ?_
    intro j hj
    rw [hd2 j hj]
    by_cases hsj : s ≤ j
    · rw [if_pos hsj, if_pos hsj, if_neg (by omega)]
    · rw [if_neg hsj, if_neg hsj]
  · intro heq
    subst heq
    have := contents_erase_empty ops.selfMoved v.data d2 v.size_ s hen (by omega) (by
      intro j hj
      rw [hd2 j (by omega)]
      by_cases hsj : s ≤ j
      · rw [if_pos hsj, if_pos hsj, if_pos (by omega)]
      · rw [if_neg hsj, if_neg hsj])
    show d2.take (v.size_ - (s - s)) = _
    rw [Nat.sub_self, Nat.sub_zero]
    exact this

/-- A range with `first > last`, `first < begin()` or `last > end()` makes `erase` throw
`std::out_of_range` before any store. -/
theorem erase_out_of_range {T : Type} (ops : ElemOps T) (v : Vector T) (first last : Int)
    (h : first > last ∨ first < 0 ∨ last > (v.size_ : Int)) :
    v.erase ops first last = some (v, EraseResult.out_of_range) := by
  simp only [Vector.erase, h, if_true]

/-- C23, failing input: `Vector<std::string> v{"a", "b"}; v.erase(v.begin(), v.begin());`.
The range is empty, `count` is `0`, and the shifting loop runs `data[i] = std::move(data[i])`
on both elements, which leaves a `std::string` empty: the call returns the position `0`, the
size is still `2`, and the contents are two empty strings, not `"a", "b"`. -/
theorem C23_erase_empty_range :
    Vector.ofList strOps [['a'], ['b']] = some exStrings ∧
    exStrings.contents = [some ['a'], some ['b']] ∧
    ∃ v1, exStrings.erase strOps 0 0 = some (v1, EraseResult.pos 0) ∧
      v1.size = 2 ∧ v1.capacity = exStrings.capacity ∧
      v1.contents = [some [], some []] ∧
      v1.contents ≠ exStrings.contents.take 0 ++ exStrings.contents.drop 0 :=
  ⟨by with_unfolding_all rfl, rfl, ⟨[some [], some []], 1, 2, 2⟩, by with_unfolding_all rfl,
    rfl, rfl, rfl, by decide⟩

/-! ## The shape of a copy -/

theorem depth_of_noLeft {t : Tree K V} (h : t.NoLeft) : t.depth = t.size := by
  induction t with
  | nil => rfl
  | node l a k v r _ ihr =>
    obtain ⟨hl, hr⟩ := h
    subst hl
    simp only [Tree.depth, Tree.size, ihr hr]
    omega

/-- Inserting a key greater than every key of a right spine hangs the new node at its end. -/
theorem noLeft_ins {comp : K → K → Bool} (sw : StrictWeak comp) (key : K) (val : V) (a : Nat)
    {t : Tree K V} (h : t.NoLeft) (hlt : ∀ e, e ∈ t.entries → comp e.1 key = true) :
    (t.ins comp key val a).NoLeft := by
  induction t with
  | nil => exact ⟨rfl, trivial⟩
  | node l b k v r _ ihr =>
    obtain ⟨hl, hr⟩ := h
    subst hl
    have hk : comp k key = true := hlt (k, v) (by simp [Tree.entries])
    have hk1 : comp key k = false := sw.asymm hk
    have : (Tree.node Tree.nil b k v r).ins comp key val a
        = Tree.node Tree.nil b k v (r.ins comp key val a) := by
      simp only [Tree.ins, hk1, hk, if_true, Bool.false_eq_true, if_false]
    rw [this]
    exact ⟨rfl, ihr hr (fun e he => hlt e (by simp [Tree.entries, he]))⟩

/-- In a right spine held by the heap every node has a null `left`. -/
theorem Shape.left_null {h : Heap K V} {t : Tree K V} {par : Option Nat} (s : Shape h t par)
    (nl : t.NoLeft) : ∀ a, a ∈ t.addrs → ∃ n, h.read a = some n ∧ n.left = none := by
  induction t generalizing par with
  | nil => intro a ha; simp [Tree.addrs] at ha
  | node l b k v r _ ihr =>
    obtain ⟨hl, hr⟩ := nl
    subst hl
    obtain ⟨s1, _, s3⟩ := s
    intro a ha
    simp only [Tree.addrs, List.nil_append, List.mem_cons] at ha
    rcases ha with ha | ha
    · subst ha
      exact ⟨_, s1, rfl⟩
    · exact ihr s3 hr a ha

/-- Inserting, in order, entries whose keys increase and are all greater than the keys of a
right spine gives a right spine with these entries appended. -/
theorem insertAll_spine {comp : K → K → Bool} (sw : StrictWeak comp) (es : List (K × V)) :
    ∀ (m : Map K V) (t : Tree K V), m.IsTree t → t.NoLeft →
      (t.entries ++ es).Pairwise (fun e1 e2 => comp e1.1 e2.1 = true) →
      ∃ m1 t1, Map.insertAll comp m es = some m1 ∧ m1.IsTree t1 ∧
        t1.entries = t.entries ++ es ∧ t1.NoLeft := by
  induction es with
  | nil => intro m t w nl _; exact ⟨m, t, rfl, w, by simp, nl⟩
  | cons p rest ih =>
    intro m t w nl hp
    have hp1 := List.pairwise_append.mp hp
    have so : StrictlyIncreasing comp t.keys := (strictlyIncreasing_keys comp t).mpr hp1.1
    have hlt : ∀ x, x ∈ t.entries → comp x.1 p.1 = true := fun x hx =>
      hp1.2.2 x hx p (by simp)
    have hl : t.lookup comp p.1 = none := by
      rw [lookup_none_iff, lookupEntry_none_iff sw p.1 so]
      intro e he heq
      exact not_equiv_of_lt (hlt e he) heq.symm
    obtain ⟨m2, hi, w2, _⟩ := insertInternal_absent comp w p hl
    obtain ⟨pre, post, h1, h2, _, h4⟩ := entries_ins sw p.1 p.2 m.heap.length so hl
    have hpost : post = [] := by
      cases post with
      | nil => rfl
      | cons x xs =>
        have hx : x ∈ t.entries := by rw [h1]; simp
        have := sw.asymm (hlt x hx)
        rw [h4 x (by simp)] at this
        cases this
    subst hpost
    simp only [List.append_nil] at h1
    have he2 : (t.ins comp p.1 p.2 m.heap.length).entries = t.entries ++ [p] := by
      rw [h2, h1]
    obtain ⟨m1, t1, hm1, w1, ht1, nl1⟩ := ih m2 _ w2
      (noLeft_ins sw p.1 p.2 m.heap.length nl hlt) (by rw [he2]; simpa using hp)
    exact ⟨m1, t1, by simp only [Map.insertAll, hi, hm1], w1, by rw [ht1, he2]; simp, nl1⟩

/-- C22: for a map satisfying the BST ordering and parent-link invariants, whatever its shape,
the copy holds a right spine: no node of the copy has a left child, its root holds the
minimum key of the source (and the copy of the empty map has no root), and its depth is its
number of entries, which are the entries of the source. -/
theorem C22_copy_spine {comp : K → K → Bool} (sw : StrictWeak comp) {m : Map K V}
    {t : Tree K V} (w : m.IsTree t) (bst : t.BST comp) :
    ∃ c tc, Map.copy comp m = some c ∧ c.IsTree tc ∧ c.traverse = some t.entries
      ∧ tc.entries = t.entries
      ∧ tc.NoLeft
      ∧ (∀ a, a ∈ tc.addrs → ∃ n, c.heap.read a = some n ∧ n.left = none)
      ∧ (t = Tree.nil → c.root = none)
      ∧ (t ≠ Tree.nil → ∃ r n, c.root = some r ∧ c.heap.read r = some n
          ∧ n.key ∈ t.keys ∧ (∀ k, k ∈ t.keys → comp k n.key = false)
          ∧ t.keys.head? = some n.key)
      ∧ tc.depth = tc.size ∧ tc.depth = t.entries.length := by
  have so := (bst_iff_strictlyIncreasing sw t).mp bst
  have hlen : t.cells.length ≤ m.heap.length := by
    have h1 := w.tree_size_le
    rw [size_eq_length_addrs, addrs_eq_cells, List.length_map] at h1
    exact h1
  have hloop := copyLoop_eq comp w t.cells [] rfl m.heap.length hlen Map.empty
  rw [← addrs_eq_cells, ← entries_eq_cells] at hloop
  obtain ⟨c, tc, hc, wc, htc, nl⟩ := insertAll_spine sw t.entries Map.empty Tree.nil
    (@isTree_empty K V) trivial
    (by simpa [Tree.entries] using (strictlyIncreasing_keys comp t).mp so)
  simp only [Tree.entries, List.nil_append] at htc
  have hcopy : Map.copy comp m = some c := by
    simp only [Map.copy, begin_eq w]
    rw [hloop, hc]
  have hd := depth_of_noLeft nl
  refine ⟨c, tc, hcopy, wc, by rw [traverse_eq wc, htc], htc, nl, wc.2.1.left_null nl, ?_, ?_,
    hd, by rw [hd, ← length_entries, htc]⟩
  · intro ht
    subst ht
    cases tc with
    | nil => exact wc.1
    | node l a k v r => simp [Tree.entries] at htc
  · intro hne
    cases tc with
    | nil =>
      cases t with
      | nil => exact absurd rfl hne
      | node l a k v r => simp [Tree.entries] at htc
    | node l a k v r =>
      obtain ⟨hl, _⟩ := nl
      subst hl
      have hread := wc.2.1.1
      have hkeys : t.keys = k :: r.keys := by
        simp only [Tree.keys, ← htc, Tree.entries, List.nil_append, List.map_cons]
      refine ⟨a, _, wc.1, hread, by rw [hkeys]; simp, ?_, by rw [hkeys]; rfl⟩
      intro k1 hk1
      have so1 : StrictlyIncreasing comp (k :: r.keys) := hkeys ▸ so
      rw [hkeys] at hk1
      rcases List.mem_cons.mp hk1 with h | h
      · rw [h]; exact sw.irrefl k
      · exact sw.asymm ((List.pairwise_cons.mp so1).1 k1 h)

/-- C22 at the map with keys `2, 1, 3`, whose root has two children. -/
theorem C22_copy_spine_witness :
    StrictWeak ltInt ∧ exMap.IsTree exTree ∧ exTree.BST ltInt ∧
    ∃ c tc, Map.copy ltInt exMap = some c ∧ c.IsTree tc ∧ c.traverse = some exTree.entries
      ∧ tc.entries = exTree.entries
      ∧ tc.NoLeft
      ∧ (∀ a, a ∈ tc.addrs → ∃ n, c.heap.read a = some n ∧ n.left = none)
      ∧ (exTree = Tree.nil → c.root = none)
      ∧ (exTree ≠ Tree.nil → ∃ r n, c.root = some r ∧ c.heap.read r = some n
          ∧ n.key ∈ exTree.keys ∧ (∀ k, k ∈ exTree.keys → ltInt k n.key = false)
          ∧ exTree.keys.head? = some n.key)
      ∧ tc.depth = tc.size ∧ tc.depth = exTree.entries.length :=
  ⟨strictWeak_ltInt, isTree_exMap, bst_exTree,
    C22_copy_spine strictWeak_ltInt isTree_exMap bst_exTree⟩

/-! ## The count after many two-child erases -/

theorem size_ins_of_lookup_none (comp : K → K → Bool) (key : K) (val : V) (a : Nat)
    {t : Tree K V} (e : t.lookup comp key = none) : (t.ins comp key val a).size = t.size + 1 := by
  rw [size_eq_length_addrs, size_eq_length_addrs, (addrs_ins_perm comp key val a e).length_eq]
  rfl

theorem size_eraseAt_of_lookup (comp : K → K → Bool) (key : K) {t : Tree K V}
    (nd : t.addrs.Nodup) {x : Nat} (e : t.lookup comp key = some x) :
    (t.eraseAt x).size + 1 = t.size := by
  obtain ⟨pre, en, post, _, h1, h2⟩ := entries_eraseAt comp key nd e
  rw [← length_entries, ← length_entries, h1, h2]
  simp only [List.length_append, List.length_cons]
  omega

/-- While fewer than `2 ^ 64` calls have been made the count is at least the number of nodes
and at most the number of calls. -/
theorem count_bounds [Inhabited V] {comp : K → K → Bool} {n : Nat} {m : Map K V}
    (hr : ReachableIn comp id n m) (hn : n < SIZE_MOD) :
    ∃ t, m.IsTree t ∧ t.size ≤ m.node_count ∧ m.node_count ≤ n := by
  induction hr with
  | empty => exact ⟨Tree.nil, isTree_empty, Nat.le_refl _, Nat.le_refl _⟩
  | @insert n m m1 key value it b _ h ih =>
    obtain ⟨t, w, lo, hi⟩ := ih (by omega)
    cases e : t.lookup comp key with
    | some c =>
      have := insertInternal_found comp w (key, value) e
      rw [Map.insert, this] at h
      simp only [Option.some.injEq, Prod.mk.injEq] at h
      rw [← h.1]
      exact ⟨t, w, lo, by omega⟩
    | none =>
      obtain ⟨m2, hi2, w2, _, c2, _⟩ := insertInternal_absent comp w (key, value) e
      rw [Map.insert, hi2] at h
      simp only [Option.some.injEq, Prod.mk.injEq] at h
      rw [← h.1]
      have hs := size_ins_of_lookup_none comp key value m.heap.length e
      refine ⟨_, w2, ?_, ?_⟩
      · rw [hs, c2]
        by_cases hroot : m.root = none
        · rw [if_pos hroot]
          rw [w.1] at hroot
          cases t with
          | nil => simp [Tree.size]
          | node l a k v r => simp [Tree.rootPtr] at hroot
        · rw [if_neg hroot, Nat.mod_eq_of_lt (by omega)]
          omega
      · rw [c2]
        by_cases hroot : m.root = none
        · rw [if_pos hroot]; omega
        · rw [if_neg hroot, Nat.mod_eq_of_lt (by omega)]
          omega
  | @index n m m1 key a _ h ih =>
    obtain ⟨t, w, lo, hi⟩ := ih (by omega)
    cases e : t.lookup comp key with
    | some c =>
      rw [index_present comp w e] at h
      simp only [Option.some.injEq, Prod.mk.injEq] at h
      rw [← h.1]
      exact ⟨t, w, lo, by omega⟩
    | none =>
      obtain ⟨m2, hi2, w2, _, c2, _⟩ := insertInternal_absent comp w (key, (default : V)) e
      obtain ⟨m3, _, hi3, hins, _⟩ := index_absent comp w e
      have hsame : m3 = m2 := by
        have h5 : m.insert comp id key default = some (m2, some m.heap.length, true) := hi2
        rw [h5] at hins
        simp only [Option.some.injEq, Prod.mk.injEq, and_true] at hins
        exact hins.symm
      rw [hi3] at h
      simp only [Option.some.injEq, Prod.mk.injEq] at h
      rw [← h.1, hsame]
      have hs := size_ins_of_lookup_none comp key (default : V) m.heap.length e
      refine ⟨_, w2, ?_, ?_⟩
      · rw [hs, c2]
        by_cases hroot : m.root = none
        · rw [if_pos hroot]
          rw [w.1] at hroot
          cases t with
          | nil => simp [Tree.size]
          | node l a k v r => simp [Tree.rootPtr] at hroot
        · rw [if_neg hroot, Nat.mod_eq_of_lt (by omega)]
          omega
      · rw [c2]
        by_cases hroot : m.root = none
        · rw [if_pos hroot]; omega
        · rw [if_neg hroot, Nat.mod_eq_of_lt (by omega)]
          omega
  | @erase n m m1 key c _ h ih =>
    obtain ⟨t, w, lo, hi⟩ := ih (by omega)
    cases e : t.lookup comp key with
    | none =>
      rw [erase_absent comp w e] at h
      simp only [Option.some.injEq, Prod.mk.injEq] at h
      rw [← h.1]
      exact ⟨t, w, lo, by omega⟩
    | some x =>
      obtain ⟨m2, he, w2, _, c2, c1⟩ := erase_present comp w e
      rw [he] at h
      simp only [Option.some.injEq, Prod.mk.injEq] at h
      rw [← h.1]
      have hs := size_eraseAt_of_lookup comp key w.2.2 e
      have hpos : (m.node_count + SIZE_MOD - 1) % SIZE_MOD = m.node_count - 1 := by
        have : m.node_count + SIZE_MOD - 1 = (m.node_count - 1) + SIZE_MOD := by omega
        rw [this, Nat.add_mod_right]
        exact Nat.mod_eq_of_lt (by omega)
      by_cases h2 : t.hasTwo x
      · have := c2 h2
        rw [Nat.mod_eq_of_lt (show m.node_count + 1 < SIZE_MOD by omega)] at this
        have h3 : (m.node_count + 1 + SIZE_MOD - 1) % SIZE_MOD = m.node_count := by
          have : m.node_count + 1 + SIZE_MOD - 1 = m.node_count + SIZE_MOD := by omega
          rw [this, Nat.add_mod_right]
          exact Nat.mod_eq_of_lt (by omega)
        rw [h3] at this
        exact ⟨_, w2, by omega, by omega⟩
      · have := c1 h2
        rw [hpos] at this
        exact ⟨_, w2, by omega, by omega⟩
/-- While fewer than `2 ^ 64 - 1` calls have been made, the count that `erase` decrements
after `eraseNode` is positive. -/
theorem decrement_positive [Inhabited V] {comp : K → K → Bool} {n : Nat} {m : Map K V}
    (hr : ReachableIn comp id n m) (hn : n + 1 < SIZE_MOD) {key : K} {c : Nat} {m1 : Map K V}
    (hl : eraseLoop comp m.heap key m.heap.length m.root = some (some c))
    (he : eraseNode m.heap.length m c = some m1) : 0 < m1.node_count := by
  obtain ⟨t, w, lo, hi⟩ := count_bounds hr (by omega)
  have hloop := eraseLoop_eq comp key w.2.1 w.tree_size_le
  rw [← w.1, hl] at hloop
  have e : t.lookup comp key = some c := by
    simp only [Option.some.injEq] at hloop
    exact hloop.symm
  obtain ⟨m2, he2, _, _, c2, c1⟩ := eraseNode_spec w (lookup_mem comp key e)
  rw [he] at he2
  simp only [Option.some.injEq] at he2
  subst he2
  by_cases h2 : t.hasTwo c
  · rw [c2 h2, Nat.mod_eq_of_lt (by omega)]
    omega
  · rw [c1 h2]
    have := size_eraseAt_of_lookup comp key w.2.2 e
    omega

end MapModel
